import Mathlib

/-!
# Package `sgf`: lexer, parser, validator, serializer and mutation API

A shallow embedding of the Go package (`types.go`, `parse.go`, `sgf.go`).

Conventions of the embedding.

* A Go `string` is a sequence of bytes.  The definitions of namespace `Sgf`
  hold a string as the sequence of runes that `range` iterates over, a
  `List Char`; writing a string to the buffer appends its runes.  This is the
  program on strings that are valid UTF-8, where bytes and runes determine
  each other.  The definitions of namespace `Sgf.Bytes` hold the strings as
  bytes and read the runes off them as `range` does, a byte that starts no
  valid UTF-8 sequence being read as `U+FFFD`; they are the program on every
  string.  The two are related by `lexicalAnalysis_bytes`, `ParseSgf_bytes`,
  `toBytes_Valid` and `Sgf_bytes`.
* A Go call either returns normally, returns an `error` value, or panics
  (nil dereference, index out of range, explicit `panic`).  The three outcomes
  are the constructors of `Result`.
* The parser and the serializer only ever follow pointers downwards in a tree
  that the parser itself allocates, so there the objects are modelled by
  value (`Property`, `Node`, `GameTree`, `Collection`).
* The by-reference operations of the mutation API compare pointers, so there
  a container is modelled by the slice of addresses it holds (namespace
  `Ref`).
* The constructors allocate objects and return pointers to them, so they act
  on a heap of the objects allocated so far (`Ref.Heap`).
-/

namespace Sgf

/-! ## Outcomes -/

/-- The error values built by `createLexerError` and `createParserError`: the
message and the line and position that are formatted into it. -/
structure SgfError where
  msg : String
  line : Nat
  position : Nat
deriving DecidableEq, Repr

/-- Outcome of a Go call: normal return, returned `error`, or panic. -/
inductive Result (α : Type) where
  | ok (v : α)
  | error (e : SgfError)
  | panic
deriving DecidableEq, Repr

/-! ## Data model (`types.go`) -/

/-- Property contains ident string and one or more values; the strings are
held as their runes (`Bytes.Property` holds them as bytes). -/
structure Property where
  Ident : List Char
  Values : List (List Char)
deriving DecidableEq, Repr

/-- A node contains zero or more Properties. -/
structure Node where
  Properties : List Property
deriving DecidableEq, Repr

/-- GameTree contains one or more Nodes and zero or more child GameTrees. -/
inductive GameTree where
  | mk (Nodes : List Node) (GameTrees : List GameTree)
deriving Repr

/-- The field `Nodes` of a game tree. -/
def GameTree.Nodes : GameTree → List Node
  | .mk ns _ => ns

/-- The field `GameTrees` of a game tree. -/
def GameTree.GameTrees : GameTree → List GameTree
  | .mk _ gs => gs

/-- Collection contains one or more GameTrees. -/
structure Collection where
  GameTrees : List GameTree
deriving Repr

/-! ## Validator (`sgf.go`, `Valid`, `validGameTree`) -/

/-- The two checks of the inner loop of `validGameTree` on one property. -/
def validProperty (property : Property) : Bool :=
  if property.Ident = [] then false
  else if property.Values.length = 0 then false
  else true

mutual
/-- Function `validGameTree`: at least one node, every property of every node
passes the checks, every child tree is valid. -/
def validGameTree : GameTree → Bool
  | .mk nodes gameTrees =>
    if nodes.length = 0 then false
    else if !(nodes.all fun node => node.Properties.all validProperty) then false
    else validGameTrees gameTrees
/-- The loop over child game trees (and over the trees of a collection). -/
def validGameTrees : List GameTree → Bool
  | [] => true
  | gameTree :: rest => if !(validGameTree gameTree) then false else validGameTrees rest
end

/-- Method `Collection.Valid`. -/
def Collection.Valid (collection : Collection) : Bool :=
  if collection.GameTrees.length = 0 then false
  else validGameTrees collection.GameTrees

/-! ## Serializer (`sgf.go`, `Sgf`, `appendGameTree`) -/

/-- Used to format SGF format. -/
structure SgfFormat where
  NewLineBetweenGameTrees : Bool
  NewLineAlsoBetweenNodes : Bool
  IndentationLevel : Int
deriving DecidableEq, Repr

/-- Variable `DefaultSgfFormat`. -/
def DefaultSgfFormat : SgfFormat := ⟨true, true, 4⟩

/-- Variable `NoNewLinesSgfFormat`. -/
def NoNewLinesSgfFormat : SgfFormat := ⟨false, false, 0⟩

/-- The nested loops `for i < level { for j < format.IndentationLevel { ' ' } }`:
`level` times `IndentationLevel` spaces, none when the level is not positive. -/
def indentation (format : SgfFormat) (level : Nat) : List Char :=
  List.replicate (level * format.IndentationLevel.toNat) ' '

/-- What the loop over `property.Values` writes: each value between brackets,
written as it is; the value and the text are held as runes
(`Bytes.appendValues` writes the bytes). -/
def appendValues : List (List Char) → List Char
  | [] => []
  | value :: rest => '[' :: (value ++ ']' :: appendValues rest)

/-- What the loop over `node.Properties` writes: ident, then the values. -/
def appendProperties : List Property → List Char
  | [] => []
  | property :: rest => property.Ident ++ (appendValues property.Values ++ appendProperties rest)

/-- What the loop over `gameTree.Nodes` writes from index `i` on. -/
def appendNodes (format : SgfFormat) (level : Nat) : Nat → List Node → List Char
  | _, [] => []
  | i, node :: rest =>
    (if format.NewLineBetweenGameTrees && format.NewLineAlsoBetweenNodes && decide (i > 0)
      then '\n' :: (indentation format level ++ [' ']) else [])
    ++ (';' :: (appendProperties node.Properties ++ appendNodes format level (i + 1) rest))

mutual
/-- Function `appendGameTree`: the text it appends to the buffer. -/
def appendGameTree (format : SgfFormat) : GameTree → Nat → List Char
  | .mk nodes gameTrees, level =>
    (if format.NewLineBetweenGameTrees && decide (level > 0)
      then '\n' :: indentation format level else [])
    ++ ('(' :: (appendNodes format level 0 nodes
    ++ (appendGameTrees format gameTrees (level + 1) ++ [')'])))
/-- The loop calling `appendGameTree` on each tree of a slice. -/
def appendGameTrees (format : SgfFormat) : List GameTree → Nat → List Char
  | [], _ => []
  | gameTree :: rest, level =>
    appendGameTree format gameTree level ++ appendGameTrees format rest level
end

/-- Method `Collection.Sgf`: panics on a collection that is not valid. -/
def Collection.Sgf (collection : Collection) (format : SgfFormat) : Result (List Char) :=
  if !collection.Valid then .panic
  else .ok (appendGameTrees format collection.GameTrees 0)

/-! ## Lexer (`parse.go`, `lexicalAnalysis`) -/

/-- Token Type. -/
inductive tokenType where
  | tokenTypeGameTreeStart
  | tokenTypeGameTreeEnd
  | tokenTypeNode
  | tokenTypePropertyIdent
  | tokenTypePropertyValue
deriving DecidableEq, Repr

/-- Lexer states. -/
inductive lexerStateT where
  | lexerStateOnlyControl
  | lexerStatePropertyValue
deriving DecidableEq, Repr

/-- Parser states. -/
inductive parserStateT where
  | parserStateCollection
  | parserStateGameTree
  | parserStateValue
  | parserStateNode
deriving DecidableEq, Repr

open tokenType lexerStateT parserStateT

/-- Struct `lexeme`. -/
structure lexeme where
  tokenType : tokenType
  data : List Char
  line : Nat
  position : Nat
deriving DecidableEq, Repr

/-- Function `createLexerError`. -/
def createLexerError (msg : String) (line position : Nat) : SgfError :=
  ⟨msg, line, position⟩

/-- Function `createParserError`. -/
def createParserError (msg : String) (l : lexeme) : SgfError :=
  ⟨msg, l.line, l.position⟩

/-- Function `runeToTokenType`; `none` is the panic of the default case. -/
def runeToTokenType (r : Char) : Option tokenType :=
  if r = '(' then some tokenTypeGameTreeStart
  else if r = ')' then some tokenTypeGameTreeEnd
  else if r = ';' then some tokenTypeNode
  else if r = '[' then some tokenTypePropertyIdent
  else none

/-- The local variables of `lexicalAnalysis`. -/
structure LexVars where
  retval : List lexeme
  curData : List Char
  escapedText : Bool
  line : Nat
  position : Nat
  lexerState : lexerStateT
deriving DecidableEq, Repr

/-- The separators of the first case of the control state:
`' ', '\t', '\v', '\r', '\n'`. -/
def isSeparator (c : Char) : Bool :=
  c = ' ' || c = '\t' || c = Char.ofNat 11 || c = '\r' || c = '\n'

/-- The message `fmt.Sprintf("Invalid character %c", c)`. -/
def invalidCharacter (c : Char) : String := "Invalid character " ++ String.singleton c

/-- One iteration of the loop of `lexicalAnalysis` in `lexerStateOnlyControl`. -/
def lexControl (s : LexVars) (c : Char) : Result LexVars :=
  let position := s.position + 1
  if isSeparator c then
    if s.curData ≠ [] then .error (createLexerError (invalidCharacter c) s.line position)
    else .ok { s with position := position,
                      line := if c = '\n' ∨ c = '\r' then s.line + 1 else s.line }
  else if c = '(' ∨ c = ')' ∨ c = ';' then
    let retval := if s.curData ≠ [] then
      s.retval ++ [⟨tokenTypePropertyIdent, s.curData, s.line, position⟩] else s.retval
    match runeToTokenType c with
    | none => .panic
    | some tt => .ok { s with position := position,
                              retval := retval ++ [⟨tt, [], s.line, position⟩],
                              curData := [] }
  else if c = '[' then
    if s.curData ≠ [] then
      match runeToTokenType c with
      | none => .panic
      | some tt => .ok { s with position := position,
                                retval := s.retval ++ [⟨tt, s.curData, s.line, position⟩],
                                curData := [],
                                lexerState := lexerStatePropertyValue }
    else .ok { s with position := position, curData := [],
                      lexerState := lexerStatePropertyValue }
  else if c < 'A' ∨ c > 'Z' then
    .error (createLexerError (invalidCharacter c) s.line position)
  else .ok { s with position := position, curData := s.curData ++ [c] }

/-- One iteration of the loop of `lexicalAnalysis` in `lexerStatePropertyValue`. -/
def lexValue (s : LexVars) (c : Char) : Result LexVars :=
  let position := s.position + 1
  if c = '\\' then
    if s.escapedText then
      .ok { s with position := position, curData := s.curData ++ [c], escapedText := false }
    else .ok { s with position := position, escapedText := true }
  else if c = ']' ∧ ¬ s.escapedText then
    .ok { s with position := position,
                 retval := s.retval ++ [⟨tokenTypePropertyValue, s.curData, s.line, position⟩],
                 lexerState := lexerStateOnlyControl,
                 curData := [],
                 escapedText := false }
  else .ok { s with position := position, curData := s.curData ++ [c], escapedText := false }

/-- One iteration of the loop of `lexicalAnalysis`. -/
def lexStep (s : LexVars) (c : Char) : Result LexVars :=
  match s.lexerState with
  | lexerStateOnlyControl => lexControl s c
  | lexerStatePropertyValue => lexValue s c

/-- The loop `for _, c := range data` of `lexicalAnalysis`, on the runes that
`range` yields (`Bytes.lexicalAnalysis` reads them off the bytes of `data`). -/
def lexLoop (s : LexVars) : List Char → Result LexVars
  | [] => .ok s
  | c :: rest =>
    match lexStep s c with
    | .ok s' => lexLoop s' rest
    | .error e => .error e
    | .panic => .panic

/-- The code of `lexicalAnalysis` after the loop. -/
def lexFinish (s : LexVars) : Result (List lexeme) :=
  if s.curData ≠ [] then
    if s.lexerState = lexerStateOnlyControl then
      .ok (s.retval ++ [⟨tokenTypePropertyIdent, s.curData, s.line, s.position⟩])
    else .error (createLexerError "value left open" s.line s.position)
  else .ok s.retval

/-- The initial values of the local variables of `lexicalAnalysis`. -/
def lexInit : LexVars := ⟨[], [], false, 0, 0, lexerStateOnlyControl⟩

/-- Function `lexicalAnalysis`. -/
def lexicalAnalysis (data : List Char) : Result (List lexeme) :=
  match lexLoop lexInit data with
  | .ok s => lexFinish s
  | .error e => .error e
  | .panic => .panic

/-! ## Parser (`parse.go`, `parse`)

The Go parser builds the tree through pointers: the tree, node and property
under construction are appended to their parent when they are created and
completed afterwards through `curGameTree`, `curNode` and `curProperty`.  An
object is only ever changed through these three variables, and a parent is
not changed while one of its children is under construction (only the
current tree, node and property receive appends).  The embedding therefore
keeps the object that each variable points to in the variable itself and
puts it at the end of its parent's slice when the variable is overwritten;
`none` is the nil pointer.  In Go `curNode`, when not nil, is the last node of
`curGameTree`, and `curProperty`, when not nil, is the last property of
`curNode`: each is assigned together with the append that puts it there, and
is set to nil whenever the object above it changes.  A root tree enters
`c.GameTrees` when it is closed; `parse` returns the collection only after
every tree is closed, and returns nil on an error. -/

/-- Node `n` with the property that `curProperty` points to as its last one. -/
def closeNode (n : Node) (curProperty : Option Property) : Node :=
  ⟨n.Properties ++ curProperty.toList⟩

/-- Tree `t` with the node that `curNode` points to (holding the property
that `curProperty` points to) as its last node. -/
def closeGameTree (t : GameTree) (curNode : Option Node) (curProperty : Option Property) :
    GameTree :=
  .mk (t.Nodes ++ (curNode.map fun n => closeNode n curProperty).toList) t.GameTrees

/-- Tree `t` with `child` appended to its `GameTrees`. -/
def addChild (t child : GameTree) : GameTree :=
  .mk t.Nodes (t.GameTrees ++ [child])

/-- The local variables of `parse`.  `c` holds the root trees that are
closed; `gameTreeStack` has its top first and holds each open ancestor without
the child that is under construction. -/
structure ParseVars where
  c : List GameTree
  gameTreeStack : List GameTree
  curGameTree : Option GameTree
  curNode : Option Node
  curProperty : Option Property
  state : parserStateT

/-- The initial values of the local variables of `parse`. -/
def parseInit : ParseVars := ⟨[], [], none, none, none, parserStateCollection⟩

/-- Case `parserStateCollection` of the loop body of `parse`. -/
def parseCollection (s : ParseVars) (l : lexeme) : Result ParseVars :=
  if l.tokenType ≠ tokenTypeGameTreeStart then
    .error (createParserError "Collection must start with a new game tree." l)
  else
    .ok { s with curGameTree := some (.mk [] []), state := parserStateGameTree }

/-- Case `parserStateGameTree` of the loop body of `parse`.  The state is
entered with `curNode` and `curProperty` nil, so that closing them into the
tree leaves the tree as it is. -/
def parseGameTree (s : ParseVars) (l : lexeme) : Result ParseVars :=
  if l.tokenType ≠ tokenTypeNode then
    .error (createParserError "New node must be next after game tree has started." l)
  else
    match s.curGameTree with
    | none => .panic
    | some t => .ok { s with curGameTree := some (closeGameTree t s.curNode s.curProperty),
                             curNode := some ⟨[]⟩,
                             state := parserStateNode }

/-- Case `parserStateNode` of the loop body of `parse`. -/
def parseNode (s : ParseVars) (l : lexeme) : Result ParseVars :=
  match l.tokenType with
  | tokenTypePropertyIdent =>
    match s.curNode with
    | none => .panic
    | some n => .ok { s with curNode := some (closeNode n s.curProperty),
                             curProperty := some ⟨l.data, []⟩,
                             state := parserStateValue }
  | tokenTypePropertyValue =>
    match s.curProperty with
    | none => .error (createParserError "Cannot have property value without property ident." l)
    | some p => .ok { s with curProperty := some ⟨p.Ident, p.Values ++ [l.data]⟩ }
  | tokenTypeNode =>
    match s.curGameTree with
    | none => .panic
    | some t => .ok { s with curGameTree := some (closeGameTree t s.curNode s.curProperty),
                             curNode := some ⟨[]⟩,
                             curProperty := none }
  | tokenTypeGameTreeStart =>
    match s.curGameTree with
    | none => .panic
    | some t => .ok { s with gameTreeStack := closeGameTree t s.curNode s.curProperty
                                                :: s.gameTreeStack,
                             curGameTree := some (.mk [] []),
                             curNode := none,
                             curProperty := none,
                             state := parserStateGameTree }
  | tokenTypeGameTreeEnd =>
    match s.gameTreeStack with
    | [] => .ok { s with c := s.c ++ (s.curGameTree.map fun t =>
                                closeGameTree t s.curNode s.curProperty).toList,
                         curGameTree := none,
                         curNode := none,
                         curProperty := none,
                         state := parserStateCollection }
    | parent :: stack =>
      .ok { s with gameTreeStack := stack,
                   curGameTree := some (match s.curGameTree with
                     | none => parent
                     | some t => addChild parent (closeGameTree t s.curNode s.curProperty)),
                   curNode := none,
                   curProperty := none }

/-- Case `parserStateValue` of the loop body of `parse`. -/
def parseValue (s : ParseVars) (l : lexeme) : Result ParseVars :=
  if l.tokenType ≠ tokenTypePropertyValue then
    .error (createParserError "After property ident there must be a value." l)
  else
    match s.curProperty with
    | none => .panic
    | some p => .ok { s with curProperty := some ⟨p.Ident, p.Values ++ [l.data]⟩,
                             state := parserStateNode }

/-- The body of the loop of `parse`. -/
def parseStep (s : ParseVars) (l : lexeme) : Result ParseVars :=
  match s.state with
  | parserStateCollection => parseCollection s l
  | parserStateGameTree => parseGameTree s l
  | parserStateNode => parseNode s l
  | parserStateValue => parseValue s l

/-- The loop `for _, l := range lexemes` of `parse`. -/
def parseLoop (s : ParseVars) : List lexeme → Result ParseVars
  | [] => .ok s
  | l :: rest =>
    match parseStep s l with
    | .ok s' => parseLoop s' rest
    | .error e => .error e
    | .panic => .panic

/-- The code of `parse` after the loop; `lexemes[len(lexemes)-1]` panics on an
empty slice. -/
def parseFinish (s : ParseVars) (lexemes : List lexeme) : Result Collection :=
  if s.state ≠ parserStateCollection then
    match lexemes.getLast? with
    | none => .panic
    | some l => .error (createParserError "Game tree did not close properly." l)
  else .ok ⟨s.c⟩

/-- Function `parse`. -/
def parse (lexemes : List lexeme) : Result Collection :=
  match parseLoop parseInit lexemes with
  | .ok s => parseFinish s lexemes
  | .error e => .error e
  | .panic => .panic

/-- Function `ParseSgf`. -/
def ParseSgf (data : List Char) : Result Collection :=
  match lexicalAnalysis data with
  | .ok lexemes => parse lexemes
  | .error e => .error e
  | .panic => .panic

/-- Sequencing of two calls: the second runs when the first returned. -/
def Result.andThen {α β : Type} (r : Result α) (f : α → Result β) : Result β :=
  match r with
  | .ok v => f v
  | .error e => .error e
  | .panic => .panic

/-! ## Mutation API (`sgf.go`), pointer view

`Swap…`, `Remove…` and the index lookups act on one slice of pointers of one
container and compare pointers with `==`.  A pointer is modelled by its
address; the objects pointed to are not touched by these operations. -/

namespace Ref

/-- A Go pointer, given by its address. -/
abbrev Ptr := Nat

/-- A `Collection`: its slice of `*GameTree`. -/
structure Collection where
  GameTrees : List Ptr
deriving DecidableEq, Repr

/-- A `GameTree`: its slice of `*Node` and its slice of child `*GameTree`. -/
structure GameTree where
  Nodes : List Ptr
  GameTrees : List Ptr
deriving DecidableEq, Repr

/-- A `Node`: its slice of `*Property`. -/
structure Node where
  Properties : List Ptr
deriving DecidableEq, Repr

/-- The loop shared by `gameTreeIndex`, `nodeIndex` and `propertyIndex`: the
first index whose element `==` the given pointer, or -1. -/
def sliceIndex (s : List Ptr) (x : Ptr) : Int :=
  if x ∈ s then (s.indexOf x : Int) else -1

/-- The statement `s[i], s[j] = s[j], s[i]`: both index expressions are
evaluated first and panic when out of range, then both elements are
assigned. -/
def sliceSwapAt (s : List Ptr) (i j : Int) : Result (List Ptr) :=
  if 0 ≤ i ∧ i < s.length ∧ 0 ≤ j ∧ j < s.length then
    .ok ((s.set i.toNat (s.getD j.toNat 0)).set j.toNat (s.getD i.toNat 0))
  else .panic

/-- The expression `append(s[:i], s[i+1])` of `RemoveGameTreeAt` and
`RemoveNodeAt` (one element is appended, not the rest of the slice).  `s[:i]`
panics for a negative `i`, and `s[i+1]` panics unless `i+1 < len(s)`; an `i`
above the length that `s[:i]` would accept within the capacity is refused by
`s[i+1]`. -/
def sliceRemoveAtElem (s : List Ptr) (i : Int) : Result (List Ptr) :=
  if i < 0 then .panic
  else match s[(i + 1).toNat]? with
    | none => .panic
    | some x => .ok (s.take i.toNat ++ [x])

/-- The expression `append(s[:i], s[i+1:]...)` of `RemovePropertyAt`.  `s[:i]`
panics for a negative `i`, and `s[i+1:]` panics unless `i+1 <= len(s)`. -/
def sliceRemoveAtRest (s : List Ptr) (i : Int) : Result (List Ptr) :=
  if i < 0 then .panic
  else if (s.length : Int) < i + 1 then .panic
  else .ok (s.take i.toNat ++ s.drop (i + 1).toNat)

/-- Method `Collection.AddGameTree`. -/
def Collection.AddGameTree (collection : Collection) (gameTree : Ptr) : Collection :=
  ⟨collection.GameTrees ++ [gameTree]⟩

/-- Method `Collection.gameTreeIndex`. -/
def Collection.gameTreeIndex (collection : Collection) (gameTree : Ptr) : Int :=
  sliceIndex collection.GameTrees gameTree

/-- Method `Collection.SwapGameTreesAt`. -/
def Collection.SwapGameTreesAt (collection : Collection) (i j : Int) : Result Collection :=
  (sliceSwapAt collection.GameTrees i j).andThen fun s => .ok ⟨s⟩

/-- Method `Collection.SwapGameTrees`. -/
def Collection.SwapGameTrees (collection : Collection) (gt1 gt2 : Ptr) : Result Collection :=
  collection.SwapGameTreesAt (collection.gameTreeIndex gt1) (collection.gameTreeIndex gt2)

/-- Method `Collection.RemoveGameTreeAt`. -/
def Collection.RemoveGameTreeAt (collection : Collection) (i : Int) : Result Collection :=
  (sliceRemoveAtElem collection.GameTrees i).andThen fun s => .ok ⟨s⟩

/-- Method `Collection.RemoveGameTree`. -/
def Collection.RemoveGameTree (collection : Collection) (gameTree : Ptr) : Result Collection :=
  collection.RemoveGameTreeAt (collection.gameTreeIndex gameTree)

/-- Method `GameTree.AddNode`. -/
def GameTree.AddNode (gameTree : GameTree) (node : Ptr) : GameTree :=
  { gameTree with Nodes := gameTree.Nodes ++ [node] }

/-- Method `GameTree.AddGameTree`. -/
def GameTree.AddGameTree (gameTree : GameTree) (newGameTree : Ptr) : GameTree :=
  { gameTree with GameTrees := gameTree.GameTrees ++ [newGameTree] }

/-- Method `GameTree.gameTreeIndex`. -/
def GameTree.gameTreeIndex (gameTree : GameTree) (childGameTree : Ptr) : Int :=
  sliceIndex gameTree.GameTrees childGameTree

/-- Method `GameTree.nodeIndex`. -/
def GameTree.nodeIndex (gameTree : GameTree) (node : Ptr) : Int :=
  sliceIndex gameTree.Nodes node

/-- Method `GameTree.SwapGameTreesAt`. -/
def GameTree.SwapGameTreesAt (gameTree : GameTree) (i j : Int) : Result GameTree :=
  (sliceSwapAt gameTree.GameTrees i j).andThen fun s => .ok { gameTree with GameTrees := s }

/-- Method `GameTree.SwapGameTrees`. -/
def GameTree.SwapGameTrees (gameTree : GameTree) (gt1 gt2 : Ptr) : Result GameTree :=
  gameTree.SwapGameTreesAt (gameTree.gameTreeIndex gt1) (gameTree.gameTreeIndex gt2)

/-- Method `GameTree.SwapNodesAt`. -/
def GameTree.SwapNodesAt (gameTree : GameTree) (i j : Int) : Result GameTree :=
  (sliceSwapAt gameTree.Nodes i j).andThen fun s => .ok { gameTree with Nodes := s }

/-- Method `GameTree.SwapNodes`. -/
def GameTree.SwapNodes (gameTree : GameTree) (n1 n2 : Ptr) : Result GameTree :=
  gameTree.SwapNodesAt (gameTree.nodeIndex n1) (gameTree.nodeIndex n2)

/-- Method `GameTree.RemoveGameTreeAt`. -/
def GameTree.RemoveGameTreeAt (gameTree : GameTree) (i : Int) : Result GameTree :=
  (sliceRemoveAtElem gameTree.GameTrees i).andThen fun s => .ok { gameTree with GameTrees := s }

/-- Method `GameTree.RemoveGameTree`. -/
def GameTree.RemoveGameTree (gameTree : GameTree) (gt : Ptr) : Result GameTree :=
  gameTree.RemoveGameTreeAt (gameTree.gameTreeIndex gt)

/-- Method `GameTree.RemoveNodeAt`. -/
def GameTree.RemoveNodeAt (gameTree : GameTree) (i : Int) : Result GameTree :=
  (sliceRemoveAtElem gameTree.Nodes i).andThen fun s => .ok { gameTree with Nodes := s }

/-- Method `GameTree.RemoveNode`. -/
def GameTree.RemoveNode (gameTree : GameTree) (n : Ptr) : Result GameTree :=
  gameTree.RemoveNodeAt (gameTree.nodeIndex n)

/-- Method `Node.AddProperty`. -/
def Node.AddProperty (node : Node) (property : Ptr) : Node :=
  ⟨node.Properties ++ [property]⟩

/-- Method `Node.RemovePropertyAt`. -/
def Node.RemovePropertyAt (node : Node) (i : Int) : Result Node :=
  (sliceRemoveAtRest node.Properties i).andThen fun s => .ok ⟨s⟩

/-- The loop of `Node.RemoveProperty` from index `i` on: at the first element
that `==` the property, `RemovePropertyAt` and return. -/
def Node.removePropertyFrom (node : Node) (property : Ptr) : Nat → List Ptr → Result Node
  | _, [] => .ok node
  | i, p :: rest =>
    if p = property then node.RemovePropertyAt i
    else Node.removePropertyFrom node property (i + 1) rest

/-- Method `Node.RemoveProperty`: returns without a change when the property
is not found. -/
def Node.RemoveProperty (node : Node) (property : Ptr) : Result Node :=
  Node.removePropertyFrom node property 0 node.Properties

/-- Method `Node.propertyIndex`. -/
def Node.propertyIndex (node : Node) (property : Ptr) : Int :=
  sliceIndex node.Properties property

/-- Method `Node.SwapPropertiesAt`. -/
def Node.SwapPropertiesAt (node : Node) (i j : Int) : Result Node :=
  (sliceSwapAt node.Properties i j).andThen fun s => .ok ⟨s⟩

/-- Method `Node.SwapProperties`. -/
def Node.SwapProperties (node : Node) (p1 p2 : Ptr) : Result Node :=
  node.SwapPropertiesAt (node.propertyIndex p1) (node.propertyIndex p2)

end Ref

/-! ## Constructors (`sgf.go`), heap view

`NewCollection`, `NewGameTree`, `NewNode` and `NewProperty` allocate objects
and return pointers to them.  The heap holds the objects allocated so far, by
type; the address of an object is its index in the list of its type, so an
allocation appends the object and yields the old length as its address.  A
method called through a pointer that addresses no object panics (nil
dereference). -/

namespace Ref

/-- The objects allocated so far. -/
structure Heap where
  collections : List Collection
  gameTrees : List GameTree
  nodes : List Node
  properties : List Sgf.Property
deriving DecidableEq, Repr

/-- Method `GameTree.AddNode` called through the pointer `gameTree`. -/
def Heap.AddNode (h : Heap) (gameTree node : Ptr) : Result Heap :=
  match h.gameTrees[gameTree]? with
  | none => .panic
  | some t => .ok { h with gameTrees := h.gameTrees.set gameTree (t.AddNode node) }

/-- Method `GameTree.AddGameTree` called through the pointer `gameTree`. -/
def Heap.AddChildGameTree (h : Heap) (gameTree newGameTree : Ptr) : Result Heap :=
  match h.gameTrees[gameTree]? with
  | none => .panic
  | some t => .ok { h with gameTrees := h.gameTrees.set gameTree (t.AddGameTree newGameTree) }

/-- Method `Collection.AddGameTree` called through the pointer `collection`. -/
def Heap.AddGameTree (h : Heap) (collection gameTree : Ptr) : Result Heap :=
  match h.collections[collection]? with
  | none => .panic
  | some c =>
    .ok { h with collections := h.collections.set collection (c.AddGameTree gameTree) }

/-- Method `Node.AddProperty` called through the pointer `node`. -/
def Heap.AddProperty (h : Heap) (node property : Ptr) : Result Heap :=
  match h.nodes[node]? with
  | none => .panic
  | some n => .ok { h with nodes := h.nodes.set node (n.AddProperty property) }

/-- Method `GameTree.NewNode`: `node := &Node{}`, `gameTree.AddNode(node)`,
`return node`. -/
def GameTree.NewNode (h : Heap) (gameTree : Ptr) : Result (Heap × Ptr) :=
  let node := h.nodes.length
  (Heap.AddNode { h with nodes := h.nodes ++ [Node.mk []] } gameTree node).andThen fun h1 =>
    .ok (h1, node)

/-- Method `Collection.NewGameTree`: `gameTree := &GameTree{}`,
`collection.AddGameTree(gameTree)`, `node := gameTree.NewNode()`. -/
def Collection.NewGameTree (h : Heap) (collection : Ptr) : Result (Heap × Ptr × Ptr) :=
  let gameTree := h.gameTrees.length
  (Heap.AddGameTree { h with gameTrees := h.gameTrees ++ [GameTree.mk [] []] } collection
      gameTree).andThen
    fun h1 => (GameTree.NewNode h1 gameTree).andThen
      fun r => .ok (r.1, gameTree, r.2)

/-- Method `GameTree.NewGameTree`: `newGameTree := &GameTree{}`,
`gameTree.AddGameTree(newGameTree)`, `node := newGameTree.NewNode()`. -/
def GameTree.NewGameTree (h : Heap) (gameTree : Ptr) : Result (Heap × Ptr × Ptr) :=
  let newGameTree := h.gameTrees.length
  (Heap.AddChildGameTree { h with gameTrees := h.gameTrees ++ [GameTree.mk [] []] } gameTree
      newGameTree).andThen
    fun h1 => (GameTree.NewNode h1 newGameTree).andThen
      fun r => .ok (r.1, newGameTree, r.2)

/-- Function `NewCollection`: `collection := &Collection{}`,
`gameTree, node := collection.NewGameTree()`. -/
def NewCollection (h : Heap) : Result (Heap × Ptr × Ptr × Ptr) :=
  let collection := h.collections.length
  (Collection.NewGameTree { h with collections := h.collections ++ [Collection.mk []] }
      collection).andThen
    fun r => .ok (r.1, collection, r.2.1, r.2.2)

/-- Method `Node.NewProperty`: `property := &Property{ident, values}`,
`node.AddProperty(property)`, `return property`. -/
def Node.NewProperty (h : Heap) (node : Ptr) (ident : List Char) (values : List (List Char)) :
    Result (Heap × Ptr) :=
  let property := h.properties.length
  (Heap.AddProperty { h with properties := h.properties ++ [Sgf.Property.mk ident values] }
      node property).andThen fun h1 => .ok (h1, property)

end Ref

/-! ## Notions used to state the properties -/

mutual
/-- A game tree and all game trees nested in it, at any depth. -/
def GameTree.subtrees : GameTree → List GameTree
  | .mk nodes gameTrees => .mk nodes gameTrees :: subtreesOfList gameTrees
/-- All game trees of a slice of trees, nested ones included. -/
def subtreesOfList : List GameTree → List GameTree
  | [] => []
  | gameTree :: rest => gameTree.subtrees ++ subtreesOfList rest
end

/-- All game trees of a collection, at any nesting depth. -/
def Collection.allGameTrees (collection : Collection) : List GameTree :=
  subtreesOfList collection.GameTrees

/-- A game tree that, taken alone, breaks a rule of the validator: it has no
node, or one of its own nodes has a property with an empty ident or with no
value. -/
def GameTree.Defective (t : GameTree) : Prop :=
  t.Nodes = [] ∨ ∃ n ∈ t.Nodes, ∃ p ∈ n.Properties, p.Ident = [] ∨ p.Values = []

/-- A rune that passes the guard `c < 'A' || c > 'Z'` of the lexer. -/
def IsUpper (c : Char) : Prop := ¬ (c < 'A' ∨ c > 'Z')

/-- A non-empty string of letters `'A'..'Z'`. -/
def IsIdent (d : List Char) : Prop := d ≠ [] ∧ ∀ c ∈ d, IsUpper c

/-- Invariant of the loop of `lexicalAnalysis`: every identifier token emitted
so far is a non-empty string of letters, and outside a value the pending
`curData` consists of letters. -/
def LexInv (s : LexVars) : Prop :=
  (∀ l ∈ s.retval, l.tokenType = tokenTypePropertyIdent → IsIdent l.data) ∧
  (s.lexerState = lexerStateOnlyControl → ∀ c ∈ s.curData, IsUpper c)

/-- A tree under construction whose nodes hold only properties that pass the
validator and whose child trees are valid. -/
def OpenOK (t : GameTree) : Prop :=
  (∀ n ∈ t.Nodes, ∀ p ∈ n.Properties, validProperty p = true) ∧
  validGameTrees t.GameTrees = true

/-- Invariant of the loop of `parse` that yields the validity of the result. -/
def ParseInv (s : ParseVars) : Prop :=
  (∀ t ∈ s.c, validGameTree t = true) ∧
  (∀ t ∈ s.gameTreeStack, OpenOK t ∧ t.Nodes ≠ []) ∧
  (∀ t, s.curGameTree = some t → OpenOK t) ∧
  (∀ n, s.curNode = some n → ∀ p ∈ n.Properties, validProperty p = true) ∧
  (∀ p, s.curProperty = some p →
    p.Ident ≠ [] ∧ (s.state ≠ parserStateValue → p.Values ≠ [])) ∧
  (s.state = parserStateNode ∨ s.state = parserStateValue →
    ∀ t, s.curGameTree = some t → t.Nodes ≠ [] ∨ s.curNode ≠ none)

/-- Outcome of a call as an option: the value it returned, if it returned. -/
def Result.toOption {α : Type} : Result α → Option α
  | .ok v => some v
  | .error _ => none
  | .panic => none

/-- A token reduced to what the parser reads of it: its type, and its data
when it is an identifier or a value; line and position set to zero. -/
def lexeme.erase (l : lexeme) : lexeme :=
  ⟨l.tokenType,
    if l.tokenType = tokenTypePropertyIdent ∨ l.tokenType = tokenTypePropertyValue
      then l.data else [], 0, 0⟩

/-- The value tokens of a property. -/
def valuesTokens : List (List Char) → List lexeme
  | [] => []
  | value :: rest => ⟨tokenTypePropertyValue, value, 0, 0⟩ :: valuesTokens rest

/-- The tokens of the properties of a node: ident, then values. -/
def propertiesTokens : List Property → List lexeme
  | [] => []
  | p :: rest =>
    ⟨tokenTypePropertyIdent, p.Ident, 0, 0⟩ :: (valuesTokens p.Values ++ propertiesTokens rest)

/-- The tokens of the nodes of a tree: node-start, then the properties. -/
def nodesTokens : List Node → List lexeme
  | [] => []
  | n :: rest =>
    ⟨tokenTypeNode, [], 0, 0⟩ :: (propertiesTokens n.Properties ++ nodesTokens rest)

mutual
/-- The tokens of a game tree: tree-start, nodes, child trees, tree-end. -/
def gameTreeTokens : GameTree → List lexeme
  | .mk nodes gameTrees =>
    ⟨tokenTypeGameTreeStart, [], 0, 0⟩ ::
      (nodesTokens nodes ++ (gameTreesTokens gameTrees ++ [⟨tokenTypeGameTreeEnd, [], 0, 0⟩]))
/-- The tokens of a slice of game trees. -/
def gameTreesTokens : List GameTree → List lexeme
  | [] => []
  | gameTree :: rest => gameTreeTokens gameTree ++ gameTreesTokens rest
end

/-- A property that the lexer reads back from what `Sgf` writes: the ident
consists of letters `'A'..'Z'` and no value contains `]` or a backslash. -/
def Property.Lexable (p : Property) : Prop :=
  (∀ ch ∈ p.Ident, IsUpper ch) ∧ ∀ v ∈ p.Values, ']' ∉ v ∧ '\\' ∉ v

/-- A game tree whose own nodes hold lexable properties only. -/
def GameTree.Lexable (t : GameTree) : Prop :=
  ∀ n ∈ t.Nodes, ∀ p ∈ n.Properties, p.Lexable

/-- A collection all of whose properties, at any depth, are lexable. -/
def Collection.Lexable (c : Collection) : Prop :=
  ∀ t ∈ c.allGameTrees, t.Lexable

/-- The text `piece`, met by the lexer between tokens (control state, nothing
pending), is consumed entirely, leaves the lexer between tokens and adds the
tokens `toks` (up to their places) to the result. -/
def Lexes (piece : List Char) (toks : List lexeme) : Prop :=
  ∀ (r : List lexeme) (ln pos : Nat) (rest : List Char),
    ∃ r' ln' pos',
      lexLoop ⟨r, [], false, ln, pos, lexerStateOnlyControl⟩ (piece ++ rest) =
        lexLoop ⟨r', [], false, ln', pos', lexerStateOnlyControl⟩ rest ∧
      r'.map lexeme.erase = r.map lexeme.erase ++ toks

/-- The text of one token, written without whitespace and without escapes. -/
def renderToken (l : lexeme) : List Char :=
  match l.tokenType with
  | tokenTypeGameTreeStart => ['(']
  | tokenTypeGameTreeEnd => [')']
  | tokenTypeNode => [';']
  | tokenTypePropertyIdent => l.data
  | tokenTypePropertyValue => '[' :: (l.data ++ [']'])

/-- The text of a token sequence, written without whitespace. -/
def render : List lexeme → List Char
  | [] => []
  | l :: rest => renderToken l ++ render rest

/-- The runes of a text without backslash that lie outside the property
values, the brackets included: a value runs from a `[` to the next `]`.  The
flag tells whether the text starts inside a value. -/
def outsideValues : Bool → List Char → List Char
  | _, [] => []
  | false, c :: rest => c :: outsideValues (decide (c = '[')) rest
  | true, c :: rest =>
    if c = ']' then c :: outsideValues false rest else outsideValues true rest

/-- Whether a text without backslash ends inside a property value, after a
`[` with no `]` behind it.  The flag tells whether the text starts inside a
value. -/
def endsInValue : Bool → List Char → Bool
  | b, [] => b
  | false, c :: rest => endsInValue (decide (c = '[')) rest
  | true, c :: rest => endsInValue (decide (c ≠ ']')) rest

/-- Whether the lexer is inside a value. -/
def LexVars.inValue (s : LexVars) : Bool :=
  decide (s.lexerState = lexerStatePropertyValue)

/-- The runes consumed by the lexer that are not yet part of a token: the
pending identifier, or the opening bracket and the pending value. -/
def LexVars.pending (s : LexVars) : List Char :=
  match s.lexerState with
  | lexerStateOnlyControl => s.curData
  | lexerStatePropertyValue => '[' :: s.curData

/-- No node-start token directly follows a tree-end token; the flag tells
whether the token before the sequence is a tree-end. -/
def noNodeAfterTreeEnd : Bool → List lexeme → Prop
  | _, [] => True
  | b, l :: rest =>
    ¬ (b = true ∧ l.tokenType = tokenTypeNode) ∧
      noNodeAfterTreeEnd (decide (l.tokenType = tokenTypeGameTreeEnd)) rest

/-- The tokens of a tree that is still open: tree-start, nodes, child trees. -/
def openTreeTokens (t : GameTree) : List lexeme :=
  ⟨tokenTypeGameTreeStart, [], 0, 0⟩ :: (nodesTokens t.Nodes ++ gameTreesTokens t.GameTrees)

/-- The tokens of the open ancestors on the stack, the outermost first (the
stack has its top first). -/
def stackTokens : List GameTree → List lexeme
  | [] => []
  | t :: stack => stackTokens stack ++ openTreeTokens t

/-- The tokens of what the parser has built so far: the closed root trees,
the open ancestors, the current tree with the current node and property. -/
def stateTokens (s : ParseVars) : List lexeme :=
  gameTreesTokens s.c ++ (stackTokens s.gameTreeStack ++
    match s.curGameTree with
    | none => []
    | some t => openTreeTokens (closeGameTree t s.curNode s.curProperty))

/-- Invariant of the loop of `parse` used to read the tokens back from the
result; the flag tells whether the last token was a tree-end. -/
def TokInv (s : ParseVars) (b : Bool) : Prop :=
  (s.state = parserStateCollection →
    s.curGameTree = none ∧ s.gameTreeStack = [] ∧ s.curNode = none ∧ s.curProperty = none) ∧
  (s.state ≠ parserStateCollection → s.curGameTree ≠ none) ∧
  (s.state = parserStateGameTree → s.curNode = none ∧ s.curProperty = none) ∧
  (∀ t, s.curGameTree = some t → t.GameTrees ≠ [] →
    b = true ∧ s.curNode = none ∧ s.curProperty = none) ∧
  (s.curNode = none → s.curProperty = none)

/-- What a token carries besides its place: its type and its data. -/
def lexeme.key (l : lexeme) : Sgf.tokenType × List Char := (l.tokenType, l.data)

/-- Two states of the lexer that differ at most in the line and position
counters and in the places of the tokens emitted so far. -/
def LexVars.SameTokens (s t : LexVars) : Prop :=
  s.retval.map lexeme.key = t.retval.map lexeme.key ∧ s.curData = t.curData ∧
    s.escapedText = t.escapedText ∧ s.lexerState = t.lexerState

/-- The value `v` as it is written between brackets: a backslash before each
backslash and each `]`. -/
def esc : List Char → List Char
  | [] => []
  | c :: v => if c = '\\' ∨ c = ']' then '\\' :: c :: esc v else c :: esc v

/-- The number of tree-start tokens of a sequence. -/
def treeStarts (ls : List lexeme) : Nat :=
  (ls.filter fun l => decide (l.tokenType = tokenTypeGameTreeStart)).length

/-- The number of tree-end tokens of a sequence. -/
def treeEnds (ls : List lexeme) : Nat :=
  (ls.filter fun l => decide (l.tokenType = tokenTypeGameTreeEnd)).length

/-- Invariant of the loop of `parse` after the tokens `pre`: the trees that
are open are the current tree and those on the stack, and the parser is in
`parserStateCollection` exactly when no tree is open. -/
def DepthInv (s : ParseVars) (pre : List lexeme) : Prop :=
  treeStarts pre =
    treeEnds pre + s.gameTreeStack.length + s.curGameTree.toList.length ∧
  (s.state = parserStateCollection → s.curGameTree = none ∧ s.gameTreeStack = []) ∧
  (s.state ≠ parserStateCollection → s.curGameTree ≠ none)

/-- Every property of the tree and of the trees nested in it, at any depth,
has an ident that is a non-empty string of letters `'A'..'Z'`. -/
def GameTree.IdentsOK (t : GameTree) : Prop :=
  ∀ s ∈ t.subtrees, ∀ n ∈ s.Nodes, ∀ p ∈ n.Properties, IsIdent p.Ident

/-- Invariant of the loop of `parse` on the idents of the properties built so
far. -/
def IdentInv (s : ParseVars) : Prop :=
  (∀ t ∈ s.c, t.IdentsOK) ∧ (∀ t ∈ s.gameTreeStack, t.IdentsOK) ∧
  (∀ t, s.curGameTree = some t → t.IdentsOK) ∧
  (∀ n, s.curNode = some n → ∀ p ∈ n.Properties, IsIdent p.Ident) ∧
  (∀ p, s.curProperty = some p → IsIdent p.Ident)

/-- The text of a property as the specification of `Sgf` words it: the ident,
then each of the values as `[value]`. -/
def specProperty (p : Property) : List Char :=
  p.Ident ++ (p.Values.map fun value => '[' :: (value ++ [']'])).flatten

/-- The text of a node as the specification words it: `;` followed by the
properties. -/
def specNode (n : Node) : List Char :=
  ';' :: (n.Properties.map specProperty).flatten

/-- What the specification puts before every node after the first one of a
tree at depth `d`: when both newline flags are set, a newline,
`IndentationLevel * d` spaces and one extra space (no space for a negative
product). -/
def specNodeBreak (f : SgfFormat) (d : Nat) : List Char :=
  if f.NewLineBetweenGameTrees = true ∧ f.NewLineAlsoBetweenNodes = true then
    '\n' :: (List.replicate (f.IndentationLevel * (d : Int)).toNat ' ' ++ [' '])
  else []

/-- The nodes of a tree at depth `d` as the specification words them. -/
def specNodes (f : SgfFormat) (d : Nat) : List Node → List Char
  | [] => []
  | first :: others =>
    specNode first ++ (others.map fun n => specNodeBreak f d ++ specNode n).flatten

mutual
/-- The text `render(t, d)` of the specification of `Sgf`, written from its
words and not from the code: a newline and `IndentationLevel * d` spaces if
`NewLineBetweenGameTrees` is set and `d > 0`, then `(`, the nodes, the child
trees rendered at depth `d + 1`, then `)`. -/
def specRender (f : SgfFormat) : GameTree → Nat → List Char
  | .mk nodes children, d =>
    (if f.NewLineBetweenGameTrees = true ∧ d > 0 then
        '\n' :: List.replicate (f.IndentationLevel * (d : Int)).toNat ' ' else [])
      ++ ('(' :: (specNodes f d nodes ++ (specRenderAll f children (d + 1) ++ [')'])))
/-- The concatenation of `specRender` over a sequence of trees, in order. -/
def specRenderAll (f : SgfFormat) : List GameTree → Nat → List Char
  | [], _ => []
  | t :: rest, d => specRender f t d ++ specRenderAll f rest d
end

/-- Invariant of the loop of `parse` after the tokens `pre`: outside a node no
property is current, and when the parser waits for a value or holds a current
property the last token was an identifier or a value. -/
def PropInv (s : ParseVars) (pre : List lexeme) : Prop :=
  (s.state = parserStateCollection ∨ s.state = parserStateGameTree → s.curProperty = none) ∧
  (s.state = parserStateValue ∨ s.curProperty ≠ none →
    ∃ pre' k, pre = pre' ++ [k] ∧
      (k.tokenType = tokenTypePropertyIdent ∨ k.tokenType = tokenTypePropertyValue))

/-- A token with the content of its value left out: a value token keeps its
type and loses its data, any other token is unchanged. -/
def lexeme.blankValue (l : lexeme) : lexeme :=
  if l.tokenType = tokenTypePropertyValue then ⟨l.tokenType, [], l.line, l.position⟩ else l

/-! ## Reading a collection from the heap -/

namespace Ref

/-- The values of a list of options, when none of them is missing. -/
def collect {α : Type} : List (Option α) → Option (List α)
  | [] => some []
  | none :: _ => none
  | some a :: rest => (collect rest).map fun l => a :: l

/-- The node that the pointer `node` addresses, with the properties that its
slice points to; `none` when a pointer addresses no object. -/
def Heap.readNode (h : Heap) (node : Ptr) : Option Sgf.Node :=
  match h.nodes[node]? with
  | none => none
  | some n => (collect (n.Properties.map fun p => h.properties[p]?)).map Sgf.Node.mk

/-- The game tree that the pointer `gameTree` addresses, with its nodes and
its child trees down to `depth` levels; `none` when a pointer addresses no
object or the trees are nested deeper than `depth`. -/
def Heap.readGameTree (h : Heap) : Nat → Ptr → Option Sgf.GameTree
  | 0, _ => none
  | depth + 1, gameTree =>
    match h.gameTrees[gameTree]? with
    | none => none
    | some t =>
      match collect (t.Nodes.map h.readNode),
          collect (t.GameTrees.map (h.readGameTree depth)) with
      | some nodes, some gameTrees => some (.mk nodes gameTrees)
      | _, _ => none

/-- The collection that the pointer `collection` addresses, with all that it
points to.  The trees are read down to as many levels as there are game trees
on the heap, which is enough for every structure without a cycle. -/
def Heap.readCollection (h : Heap) (collection : Ptr) : Option Sgf.Collection :=
  match h.collections[collection]? with
  | none => none
  | some c =>
    (collect (c.GameTrees.map (h.readGameTree h.gameTrees.length))).map Sgf.Collection.mk

/-- A call of the constructor API, with the pointer it is called through. -/
inductive Call where
  | newCollection
  | collectionNewGameTree (collection : Ptr)
  | gameTreeNewGameTree (gameTree : Ptr)
  | gameTreeNewNode (gameTree : Ptr)
  | nodeNewProperty (node : Ptr) (ident : List Char) (values : List (List Char))
deriving DecidableEq, Repr

/-- Whether the pointer that a call goes through addresses an object of the
heap. -/
def Call.receiverIn (h : Heap) : Call → Bool
  | .newCollection => true
  | .collectionNewGameTree collection => decide (collection < h.collections.length)
  | .gameTreeNewGameTree gameTree => decide (gameTree < h.gameTrees.length)
  | .gameTreeNewNode gameTree => decide (gameTree < h.gameTrees.length)
  | .nodeNewProperty node _ _ => decide (node < h.nodes.length)

/-- The heap after a call of the constructor API; a call through a pointer
that addresses no object of the heap panics (nil dereference). -/
def Call.run (h : Heap) (call : Call) : Result Heap :=
  if call.receiverIn h then
    match call with
    | .newCollection => (NewCollection h).andThen fun r => .ok r.1
    | .collectionNewGameTree collection =>
      (Collection.NewGameTree h collection).andThen fun r => .ok r.1
    | .gameTreeNewGameTree gameTree =>
      (GameTree.NewGameTree h gameTree).andThen fun r => .ok r.1
    | .gameTreeNewNode gameTree => (GameTree.NewNode h gameTree).andThen fun r => .ok r.1
    | .nodeNewProperty node ident values =>
      (Node.NewProperty h node ident values).andThen fun r => .ok r.1
  else .panic

/-- The heap after a sequence of calls of the constructor API. -/
def runCalls (h : Heap) : List Call → Result Heap
  | [] => .ok h
  | call :: rest => (call.run h).andThen fun h1 => runCalls h1 rest

/-- A call of `NewProperty` is proper when it is given a non-empty ident and
at least one value; every other call is proper. -/
def Call.Proper : Call → Prop
  | .nodeNewProperty _ ident values => ident ≠ [] ∧ values ≠ []
  | _ => True

/-- The collection that `collection` addresses can be read and is valid. -/
def Heap.ValidAt (h : Heap) (collection : Ptr) : Prop :=
  ∃ c, h.readCollection collection = some c ∧ c.Valid = true

/-- The node that `node` addresses can be read and has valid properties. -/
def Heap.NodeOK (h : Heap) (node : Ptr) : Prop :=
  ∃ n, h.readNode node = some n ∧ ∀ p ∈ n.Properties, validProperty p = true

/-- The tree that `gameTree` addresses can be read down to `depth` levels and
is valid. -/
def Heap.TreeOK (h : Heap) (depth : Nat) (gameTree : Ptr) : Prop :=
  ∃ t, h.readGameTree depth gameTree = some t ∧ validGameTree t = true

/-- The tree that `gameTree` addresses holds exactly one node, which has no
property, and no child tree. -/
def Heap.Fresh (h : Heap) (gameTree : Ptr) : Prop :=
  ∃ n, h.gameTrees[gameTree]? = some ⟨[n], []⟩ ∧ h.nodes[n]? = some ⟨[]⟩

/-- What a call of the constructor API does to the heap `h`: the objects of
`h` are kept, a node may receive further valid properties, a tree further
empty nodes and further fresh child trees, a collection further fresh trees;
`k` trees are allocated, and fresh trees are added only when `k` is not zero. -/
def Heap.Grows (k : Nat) (h h' : Heap) : Prop :=
  (∀ (p : Ptr) (x : Sgf.Property), h.properties[p]? = some x → h'.properties[p]? = some x) ∧
  (∀ (n : Ptr) (ps : List Ptr), h.nodes[n]? = some ⟨ps⟩ → ∃ ps', h'.nodes[n]? = some ⟨ps ++ ps'⟩ ∧
    ∀ p ∈ ps', ∃ x, h'.properties[p]? = some x ∧ validProperty x = true) ∧
  (∀ (t : Ptr) (ns gs : List Ptr), h.gameTrees[t]? = some ⟨ns, gs⟩ →
    ∃ ns' gs', h'.gameTrees[t]? = some ⟨ns ++ ns', gs ++ gs'⟩ ∧
      (∀ n ∈ ns', h'.nodes[n]? = some ⟨[]⟩) ∧ ∀ g ∈ gs', 0 < k ∧ h'.Fresh g) ∧
  (∀ (c : Ptr) (s : List Ptr), h.collections[c]? = some ⟨s⟩ →
    ∃ s', h'.collections[c]? = some ⟨s ++ s'⟩ ∧ ∀ g ∈ s', 0 < k ∧ h'.Fresh g) ∧
  h'.gameTrees.length = h.gameTrees.length + k

end Ref

/-! ## Go strings as byte sequences

A Go string is a sequence of bytes.  The definitions above hold the strings of
the program as the sequences of runes that `for _, c := range` yields on them,
which loses nothing on a string that is valid UTF-8.  The definitions of this
section hold them as bytes: `runes` is what `range` yields, a byte that starts
no valid UTF-8 sequence being read as `U+FFFD`, one byte at a time;
`runeString` is the conversion `string(c)`, which `WriteRune` also writes. -/

namespace Bytes

/-- A byte. -/
abbrev Byte := Fin 256

/-- The byte with the value `n`, taken modulo 256. -/
def byte (n : Nat) : Byte := ⟨n % 256, Nat.mod_lt _ (by decide)⟩

/-- The rune `utf8.RuneError`, `U+FFFD`. -/
def runeError : Char := Char.ofNat 0xFFFD

/-- Whether a byte is a continuation byte, `0x80..0xBF`. -/
def isCont (b : Byte) : Bool := decide (0x80 ≤ b.val ∧ b.val ≤ 0xBF)

/-- The decoding of the rune that starts with the byte `b0` followed by the
bytes `rest` (`utf8.DecodeRuneInString`): the rune and the number of bytes it
takes.  A byte at which no valid UTF-8 sequence starts (a stray continuation
byte, a truncated sequence, an overlong encoding, a surrogate, a value above
`U+10FFFF`) gives `U+FFFD` and the width 1. -/
def decodeRune (b0 : Byte) (rest : List Byte) : Char × Nat :=
  if b0.val < 0x80 then (Char.ofNat b0.val, 1)
  else if b0.val < 0xC2 then (runeError, 1)
  else if b0.val < 0xE0 then
    match rest with
    | b1 :: _ =>
      if isCont b1 then (Char.ofNat (b0.val % 32 * 64 + b1.val % 64), 2) else (runeError, 1)
    | _ => (runeError, 1)
  else if b0.val < 0xF0 then
    match rest with
    | b1 :: b2 :: _ =>
      if (if b0.val = 0xE0 then 0xA0 else 0x80) ≤ b1.val ∧
          b1.val ≤ (if b0.val = 0xED then 0x9F else 0xBF) ∧ isCont b2 then
        (Char.ofNat (b0.val % 16 * 4096 + b1.val % 64 * 64 + b2.val % 64), 3)
      else (runeError, 1)
    | _ => (runeError, 1)
  else if b0.val < 0xF5 then
    match rest with
    | b1 :: b2 :: b3 :: _ =>
      if (if b0.val = 0xF0 then 0x90 else 0x80) ≤ b1.val ∧
          b1.val ≤ (if b0.val = 0xF4 then 0x8F else 0xBF) ∧ isCont b2 ∧ isCont b3 then
        (Char.ofNat (b0.val % 8 * 262144 + b1.val % 64 * 4096 + b2.val % 64 * 64 + b3.val % 64),
          4)
      else (runeError, 1)
    | _ => (runeError, 1)
  else (runeError, 1)

/-- The runes that `range` yields on the bytes that follow `skip` bytes, which
belong to the rune before. -/
def runesFrom : Nat → List Byte → List Char
  | _, [] => []
  | skip + 1, _ :: rest => runesFrom skip rest
  | 0, b0 :: rest => (decodeRune b0 rest).1 :: runesFrom ((decodeRune b0 rest).2 - 1) rest

/-- The runes that `for _, c := range data` yields: the iteration decodes a
rune at the current byte and goes on after the bytes it takes. -/
def runes (data : List Byte) : List Char := runesFrom 0 data

/-- The conversion `string(c)` of a rune to a string: its UTF-8 encoding. -/
def runeString (c : Char) : List Byte :=
  if c.toNat < 0x80 then [byte c.toNat]
  else if c.toNat < 0x800 then [byte (0xC0 + c.toNat / 64), byte (0x80 + c.toNat % 64)]
  else if c.toNat < 0x10000 then
    [byte (0xE0 + c.toNat / 4096), byte (0x80 + c.toNat / 64 % 64), byte (0x80 + c.toNat % 64)]
  else
    [byte (0xF0 + c.toNat / 262144), byte (0x80 + c.toNat / 4096 % 64),
      byte (0x80 + c.toNat / 64 % 64), byte (0x80 + c.toNat % 64)]

/-- The string made of the runes `cs`: the concatenation of `string(c)`. -/
def goString : List Char → List Byte
  | [] => []
  | c :: cs => runeString c ++ goString cs

/-- A string that is valid UTF-8: the runes that `range` yields on it make
the string again. -/
def IsUTF8 (s : List Byte) : Prop := goString (runes s) = s

/-- Property contains ident string and one or more values; the strings are
held as bytes. -/
structure Property where
  Ident : List Byte
  Values : List (List Byte)
deriving DecidableEq, Repr

/-- A node contains zero or more Properties. -/
structure Node where
  Properties : List Property
deriving DecidableEq, Repr

/-- GameTree contains one or more Nodes and zero or more child GameTrees. -/
inductive GameTree where
  | mk (Nodes : List Node) (GameTrees : List GameTree)
deriving Repr

/-- The field `Nodes` of a game tree. -/
def GameTree.Nodes : GameTree → List Node
  | .mk ns _ => ns

/-- The field `GameTrees` of a game tree. -/
def GameTree.GameTrees : GameTree → List GameTree
  | .mk _ gs => gs

/-- Collection contains one or more GameTrees. -/
structure Collection where
  GameTrees : List GameTree
deriving Repr

/-- The checks of `validGameTree` on one property: `property.Ident == ""` and
`len(property.Values) == 0`. -/
def validProperty (property : Property) : Bool :=
  if property.Ident = [] then false
  else if property.Values.length = 0 then false
  else true

mutual
/-- Function `validGameTree`. -/
def validGameTree : GameTree → Bool
  | .mk nodes gameTrees =>
    if nodes.length = 0 then false
    else if !(nodes.all fun node => node.Properties.all validProperty) then false
    else validGameTrees gameTrees
/-- The loop over child game trees (and over the trees of a collection). -/
def validGameTrees : List GameTree → Bool
  | [] => true
  | gameTree :: rest => if !(validGameTree gameTree) then false else validGameTrees rest
end

/-- Method `Collection.Valid`. -/
def Collection.Valid (collection : Collection) : Bool :=
  if collection.GameTrees.length = 0 then false
  else validGameTrees collection.GameTrees

/-- What `buffer.WriteRune(c)` appends: the bytes of `string(c)`. -/
def writeRune (c : Char) : List Byte := runeString c

/-- The nested loops that write the indentation: `level` times
`IndentationLevel` times `WriteRune(' ')`. -/
def indentation (format : SgfFormat) (level : Nat) : List Byte :=
  (List.replicate (level * format.IndentationLevel.toNat) (writeRune ' ')).flatten

/-- What the loop over `property.Values` writes: `WriteRune('[')`,
`WriteString(value)`, which appends the bytes of the value as they are,
`WriteRune(']')`. -/
def appendValues : List (List Byte) → List Byte
  | [] => []
  | value :: rest => writeRune '[' ++ (value ++ (writeRune ']' ++ appendValues rest))

/-- What the loop over `node.Properties` writes: `WriteString(property.Ident)`,
then the values. -/
def appendProperties : List Property → List Byte
  | [] => []
  | property :: rest => property.Ident ++ (appendValues property.Values ++ appendProperties rest)

/-- What the loop over `gameTree.Nodes` writes from index `i` on. -/
def appendNodes (format : SgfFormat) (level : Nat) : Nat → List Node → List Byte
  | _, [] => []
  | i, node :: rest =>
    (if format.NewLineBetweenGameTrees && format.NewLineAlsoBetweenNodes && decide (i > 0)
      then writeRune '\n' ++ (indentation format level ++ writeRune ' ') else [])
    ++ (writeRune ';' ++ (appendProperties node.Properties ++
      appendNodes format level (i + 1) rest))

mutual
/-- Function `appendGameTree`: the bytes it appends to the buffer. -/
def appendGameTree (format : SgfFormat) : GameTree → Nat → List Byte
  | .mk nodes gameTrees, level =>
    (if format.NewLineBetweenGameTrees && decide (level > 0)
      then writeRune '\n' ++ indentation format level else [])
    ++ (writeRune '(' ++ (appendNodes format level 0 nodes
    ++ (appendGameTrees format gameTrees (level + 1) ++ writeRune ')')))
/-- The loop calling `appendGameTree` on each tree of a slice. -/
def appendGameTrees (format : SgfFormat) : List GameTree → Nat → List Byte
  | [], _ => []
  | gameTree :: rest, level =>
    appendGameTree format gameTree level ++ appendGameTrees format rest level
end

/-- Method `Collection.Sgf`: panics on a collection that is not valid. -/
def Collection.Sgf (collection : Collection) (format : SgfFormat) : Result (List Byte) :=
  if !collection.Valid then .panic
  else .ok (appendGameTrees format collection.GameTrees 0)

/-- Struct `lexeme`; `data` is a string. -/
structure lexeme where
  tokenType : tokenType
  data : List Byte
  line : Nat
  position : Nat
deriving DecidableEq, Repr

/-- Function `createParserError`. -/
def createParserError (msg : String) (l : lexeme) : SgfError :=
  ⟨msg, l.line, l.position⟩

/-- The local variables of `lexicalAnalysis`; `curData` is a string. -/
structure LexVars where
  retval : List lexeme
  curData : List Byte
  escapedText : Bool
  line : Nat
  position : Nat
  lexerState : lexerStateT
deriving DecidableEq, Repr

/-- One iteration of the loop of `lexicalAnalysis` in `lexerStateOnlyControl`,
on the rune `c`; `curData += string(c)` appends the bytes of the rune. -/
def lexControl (s : LexVars) (c : Char) : Result LexVars :=
  let position := s.position + 1
  if isSeparator c then
    if s.curData ≠ [] then .error (createLexerError (invalidCharacter c) s.line position)
    else .ok { s with position := position,
                      line := if c = '\n' ∨ c = '\r' then s.line + 1 else s.line }
  else if c = '(' ∨ c = ')' ∨ c = ';' then
    let retval := if s.curData ≠ [] then
      s.retval ++ [⟨tokenTypePropertyIdent, s.curData, s.line, position⟩] else s.retval
    match runeToTokenType c with
    | none => .panic
    | some tt => .ok { s with position := position,
                              retval := retval ++ [⟨tt, [], s.line, position⟩],
                              curData := [] }
  else if c = '[' then
    if s.curData ≠ [] then
      match runeToTokenType c with
      | none => .panic
      | some tt => .ok { s with position := position,
                                retval := s.retval ++ [⟨tt, s.curData, s.line, position⟩],
                                curData := [],
                                lexerState := lexerStatePropertyValue }
    else .ok { s with position := position, curData := [],
                      lexerState := lexerStatePropertyValue }
  else if c < 'A' ∨ c > 'Z' then
    .error (createLexerError (invalidCharacter c) s.line position)
  else .ok { s with position := position, curData := s.curData ++ runeString c }

/-- One iteration of the loop of `lexicalAnalysis` in `lexerStatePropertyValue`,
on the rune `c`. -/
def lexValue (s : LexVars) (c : Char) : Result LexVars :=
  let position := s.position + 1
  if c = '\\' then
    if s.escapedText then
      .ok { s with position := position, curData := s.curData ++ runeString c,
                   escapedText := false }
    else .ok { s with position := position, escapedText := true }
  else if c = ']' ∧ ¬ s.escapedText then
    .ok { s with position := position,
                 retval := s.retval ++ [⟨tokenTypePropertyValue, s.curData, s.line, position⟩],
                 lexerState := lexerStateOnlyControl,
                 curData := [],
                 escapedText := false }
  else .ok { s with position := position, curData := s.curData ++ runeString c,
                    escapedText := false }

/-- One iteration of the loop of `lexicalAnalysis`. -/
def lexStep (s : LexVars) (c : Char) : Result LexVars :=
  match s.lexerState with
  | lexerStateOnlyControl => lexControl s c
  | lexerStatePropertyValue => lexValue s c

/-- The loop of `lexicalAnalysis` over the runes that `range data` yields. -/
def lexLoop (s : LexVars) : List Char → Result LexVars
  | [] => .ok s
  | c :: rest =>
    match lexStep s c with
    | .ok s' => lexLoop s' rest
    | .error e => .error e
    | .panic => .panic

/-- The code of `lexicalAnalysis` after the loop. -/
def lexFinish (s : LexVars) : Result (List lexeme) :=
  if s.curData ≠ [] then
    if s.lexerState = lexerStateOnlyControl then
      .ok (s.retval ++ [⟨tokenTypePropertyIdent, s.curData, s.line, s.position⟩])
    else .error (createLexerError "value left open" s.line s.position)
  else .ok s.retval

/-- The initial values of the local variables of `lexicalAnalysis`. -/
def lexInit : LexVars := ⟨[], [], false, 0, 0, lexerStateOnlyControl⟩

/-- Function `lexicalAnalysis`: `for _, c := range data` runs the loop on the
runes of the string. -/
def lexicalAnalysis (data : List Byte) : Result (List lexeme) :=
  match lexLoop lexInit (runes data) with
  | .ok s => lexFinish s
  | .error e => .error e
  | .panic => .panic

/-- Node `n` with the property that `curProperty` points to as its last one. -/
def closeNode (n : Node) (curProperty : Option Property) : Node :=
  ⟨n.Properties ++ curProperty.toList⟩

/-- Tree `t` with the node that `curNode` points to (holding the property
that `curProperty` points to) as its last node. -/
def closeGameTree (t : GameTree) (curNode : Option Node) (curProperty : Option Property) :
    GameTree :=
  .mk (t.Nodes ++ (curNode.map fun n => closeNode n curProperty).toList) t.GameTrees

/-- Tree `t` with `child` appended to its `GameTrees`. -/
def addChild (t child : GameTree) : GameTree :=
  .mk t.Nodes (t.GameTrees ++ [child])

/-- The local variables of `parse`, held as in `Sgf.ParseVars`. -/
structure ParseVars where
  c : List GameTree
  gameTreeStack : List GameTree
  curGameTree : Option GameTree
  curNode : Option Node
  curProperty : Option Property
  state : parserStateT

/-- The initial values of the local variables of `parse`. -/
def parseInit : ParseVars := ⟨[], [], none, none, none, parserStateCollection⟩

/-- Case `parserStateCollection` of the loop body of `parse`. -/
def parseCollection (s : ParseVars) (l : lexeme) : Result ParseVars :=
  if l.tokenType ≠ tokenTypeGameTreeStart then
    .error (createParserError "Collection must start with a new game tree." l)
  else
    .ok { s with curGameTree := some (.mk [] []), state := parserStateGameTree }

/-- Case `parserStateGameTree` of the loop body of `parse`. -/
def parseGameTree (s : ParseVars) (l : lexeme) : Result ParseVars :=
  if l.tokenType ≠ tokenTypeNode then
    .error (createParserError "New node must be next after game tree has started." l)
  else
    match s.curGameTree with
    | none => .panic
    | some t => .ok { s with curGameTree := some (closeGameTree t s.curNode s.curProperty),
                             curNode := some ⟨[]⟩,
                             state := parserStateNode }

/-- Case `parserStateNode` of the loop body of `parse`. -/
def parseNode (s : ParseVars) (l : lexeme) : Result ParseVars :=
  match l.tokenType with
  | tokenTypePropertyIdent =>
    match s.curNode with
    | none => .panic
    | some n => .ok { s with curNode := some (closeNode n s.curProperty),
                             curProperty := some ⟨l.data, []⟩,
                             state := parserStateValue }
  | tokenTypePropertyValue =>
    match s.curProperty with
    | none => .error (createParserError "Cannot have property value without property ident." l)
    | some p => .ok { s with curProperty := some ⟨p.Ident, p.Values ++ [l.data]⟩ }
  | tokenTypeNode =>
    match s.curGameTree with
    | none => .panic
    | some t => .ok { s with curGameTree := some (closeGameTree t s.curNode s.curProperty),
                             curNode := some ⟨[]⟩,
                             curProperty := none }
  | tokenTypeGameTreeStart =>
    match s.curGameTree with
    | none => .panic
    | some t => .ok { s with gameTreeStack := closeGameTree t s.curNode s.curProperty
                                                :: s.gameTreeStack,
                             curGameTree := some (.mk [] []),
                             curNode := none,
                             curProperty := none,
                             state := parserStateGameTree }
  | tokenTypeGameTreeEnd =>
    match s.gameTreeStack with
    | [] => .ok { s with c := s.c ++ (s.curGameTree.map fun t =>
                                closeGameTree t s.curNode s.curProperty).toList,
                         curGameTree := none,
                         curNode := none,
                         curProperty := none,
                         state := parserStateCollection }
    | parent :: stack =>
      .ok { s with gameTreeStack := stack,
                   curGameTree := some (match s.curGameTree with
                     | none => parent
                     | some t => addChild parent (closeGameTree t s.curNode s.curProperty)),
                   curNode := none,
                   curProperty := none }

/-- Case `parserStateValue` of the loop body of `parse`. -/
def parseValue (s : ParseVars) (l : lexeme) : Result ParseVars :=
  if l.tokenType ≠ tokenTypePropertyValue then
    .error (createParserError "After property ident there must be a value." l)
  else
    match s.curProperty with
    | none => .panic
    | some p => .ok { s with curProperty := some ⟨p.Ident, p.Values ++ [l.data]⟩,
                             state := parserStateNode }

/-- The body of the loop of `parse`. -/
def parseStep (s : ParseVars) (l : lexeme) : Result ParseVars :=
  match s.state with
  | parserStateCollection => parseCollection s l
  | parserStateGameTree => parseGameTree s l
  | parserStateNode => parseNode s l
  | parserStateValue => parseValue s l

/-- The loop `for _, l := range lexemes` of `parse`. -/
def parseLoop (s : ParseVars) : List lexeme → Result ParseVars
  | [] => .ok s
  | l :: rest =>
    match parseStep s l with
    | .ok s' => parseLoop s' rest
    | .error e => .error e
    | .panic => .panic

/-- The code of `parse` after the loop. -/
def parseFinish (s : ParseVars) (lexemes : List lexeme) : Result Collection :=
  if s.state ≠ parserStateCollection then
    match lexemes.getLast? with
    | none => .panic
    | some l => .error (createParserError "Game tree did not close properly." l)
  else .ok ⟨s.c⟩

/-- Function `parse`. -/
def parse (lexemes : List lexeme) : Result Collection :=
  match parseLoop parseInit lexemes with
  | .ok s => parseFinish s lexemes
  | .error e => .error e
  | .panic => .panic

/-- Function `ParseSgf`. -/
def ParseSgf (data : List Byte) : Result Collection :=
  match lexicalAnalysis data with
  | .ok lexemes => parse lexemes
  | .error e => .error e
  | .panic => .panic

end Bytes

/-- The outcome with the returned value mapped by `f`. -/
def Result.map {α β : Type} (f : α → β) : Result α → Result β
  | .ok v => .ok (f v)
  | .error e => .error e
  | .panic => .panic

/-- The property with its strings held as bytes. -/
def Property.toBytes (p : Property) : Bytes.Property :=
  ⟨Bytes.goString p.Ident, p.Values.map Bytes.goString⟩

/-- The node with its strings held as bytes. -/
def Node.toBytes (n : Node) : Bytes.Node := ⟨n.Properties.map Property.toBytes⟩

mutual
/-- The game tree with its strings held as bytes. -/
def GameTree.toBytes : GameTree → Bytes.GameTree
  | .mk nodes gameTrees => .mk (nodes.map Node.toBytes) (gameTreesToBytes gameTrees)
/-- The game trees of a slice with their strings held as bytes. -/
def gameTreesToBytes : List GameTree → List Bytes.GameTree
  | [] => []
  | gameTree :: rest => gameTree.toBytes :: gameTreesToBytes rest
end

/-- The collection with its strings held as bytes. -/
def Collection.toBytes (c : Collection) : Bytes.Collection := ⟨gameTreesToBytes c.GameTrees⟩

/-- The token with its data held as bytes. -/
def lexeme.toBytes (l : lexeme) : Bytes.lexeme :=
  ⟨l.tokenType, Bytes.goString l.data, l.line, l.position⟩

/-- The variables of the lexer with the strings held as bytes. -/
def LexVars.toBytes (s : LexVars) : Bytes.LexVars :=
  ⟨s.retval.map lexeme.toBytes, Bytes.goString s.curData, s.escapedText, s.line, s.position,
    s.lexerState⟩

/-- The variables of the parser with the strings held as bytes. -/
def ParseVars.toBytes (s : ParseVars) : Bytes.ParseVars :=
  ⟨gameTreesToBytes s.c, gameTreesToBytes s.gameTreeStack, s.curGameTree.map GameTree.toBytes,
    s.curNode.map Node.toBytes, s.curProperty.map Property.toBytes, s.state⟩

namespace Bytes

mutual
/-- A game tree and all game trees nested in it, at any depth. -/
def GameTree.subtrees : GameTree → List GameTree
  | .mk nodes gameTrees => .mk nodes gameTrees :: subtreesOfList gameTrees
/-- All game trees of a slice of trees, nested ones included. -/
def subtreesOfList : List GameTree → List GameTree
  | [] => []
  | gameTree :: rest => gameTree.subtrees ++ subtreesOfList rest
end

/-- All game trees of a collection, at any nesting depth. -/
def Collection.allGameTrees (collection : Collection) : List GameTree :=
  subtreesOfList collection.GameTrees

/-- A property that the lexer reads back from what `Sgf` writes: the ident
consists of the bytes of the letters `'A'..'Z'`, and every value is valid
UTF-8 and holds neither the byte of `]` nor that of a backslash. -/
def Property.Lexable (p : Property) : Prop :=
  (∀ b ∈ p.Ident, 0x41 ≤ b.val ∧ b.val ≤ 0x5A) ∧
    ∀ v ∈ p.Values, IsUTF8 v ∧ (0x5D : Byte) ∉ v ∧ (0x5C : Byte) ∉ v

/-- A collection all of whose properties, at any depth, are lexable. -/
def Collection.Lexable (c : Collection) : Prop :=
  ∀ t ∈ c.allGameTrees, ∀ n ∈ t.Nodes, ∀ p ∈ n.Properties, p.Lexable

/-- No node-start token directly follows a tree-end token; the flag tells
whether the token before the sequence is a tree-end. -/
def noNodeAfterTreeEnd : Bool → List lexeme → Prop
  | _, [] => True
  | b, l :: rest =>
    ¬ (b = true ∧ l.tokenType = tokenTypeNode) ∧
      noNodeAfterTreeEnd (decide (l.tokenType = tokenTypeGameTreeEnd)) rest

/-- The string `v` as it is written between brackets: the byte of a backslash
before each byte of a backslash and each byte of `]`. -/
def esc : List Byte → List Byte
  | [] => []
  | b :: v => if b = 0x5C ∨ b = 0x5D then 0x5C :: b :: esc v else b :: esc v

end Bytes

/-! # Theorems -/

/-! ## Validator -/

theorem validProperty_eq_true (p : Property) :
    validProperty p = true ↔ p.Ident ≠ [] ∧ p.Values ≠ [] := by
  unfold validProperty
  by_cases h1 : p.Ident = []
  · simp [h1]
  · by_cases h2 : p.Values = []
    · simp [h1, h2]
    · simp [h1, h2]

theorem not_defective_iff (t : GameTree) :
    ¬ t.Defective ↔
      t.Nodes ≠ [] ∧ ∀ n ∈ t.Nodes, ∀ p ∈ n.Properties, p.Ident ≠ [] ∧ p.Values ≠ [] := by
  unfold GameTree.Defective
  constructor
  · intro h
    refine ⟨fun h0 => h (Or.inl h0), fun n hn p hp => ?_⟩
    constructor
    · intro hi
      exact h (Or.inr ⟨n, hn, p, hp, Or.inl hi⟩)
    · intro hv
      exact h (Or.inr ⟨n, hn, p, hp, Or.inr hv⟩)
  · rintro ⟨h0, hall⟩ (h | ⟨n, hn, p, hp, h | h⟩)
    · exact h0 h
    · exact (hall n hn p hp).1 h
    · exact (hall n hn p hp).2 h

mutual
theorem validGameTree_iff : ∀ t : GameTree,
    validGameTree t = true ↔ ∀ s ∈ t.subtrees, ¬ s.Defective
  | .mk nodes gameTrees => by
    have ih := validGameTrees_iff gameTrees
    simp only [validGameTree, GameTree.subtrees, List.mem_cons, forall_eq_or_imp]
    rw [not_defective_iff]
    simp only [GameTree.Nodes]
    by_cases h0 : nodes = []
    · simp [h0]
    · have hlen : nodes.length ≠ 0 := fun h => h0 (List.length_eq_zero.mp h)
      by_cases hp : (nodes.all fun node => node.Properties.all validProperty) = true
      · simp only [hlen, hp, if_false, Bool.not_true, Bool.false_eq_true, ih]
        have hp' : ∀ n ∈ nodes, ∀ p ∈ n.Properties, p.Ident ≠ [] ∧ p.Values ≠ [] := by
          intro n hn p hpm
          have := List.all_eq_true.mp hp n hn
          exact (validProperty_eq_true p).mp (List.all_eq_true.mp this p hpm)
        exact ⟨fun h => ⟨⟨h0, hp'⟩, h⟩, fun h => h.2⟩
      · have hp2 : ¬ ∀ n ∈ nodes, ∀ p ∈ n.Properties, p.Ident ≠ [] ∧ p.Values ≠ [] := by
          intro hall
          apply hp
          apply List.all_eq_true.mpr
          intro n hn
          apply List.all_eq_true.mpr
          intro p hpm
          exact (validProperty_eq_true p).mpr (hall n hn p hpm)
        simp only [hlen, hp, if_false, Bool.not_false, if_true, Bool.false_eq_true, false_iff]
        intro h
        exact hp2 h.1.2
theorem validGameTrees_iff : ∀ ts : List GameTree,
    validGameTrees ts = true ↔ ∀ s ∈ subtreesOfList ts, ¬ s.Defective
  | [] => by simp [validGameTrees, subtreesOfList]
  | t :: rest => by
    have ih1 := validGameTree_iff t
    have ih2 := validGameTrees_iff rest
    simp only [validGameTrees, subtreesOfList, List.mem_append]
    by_cases h : validGameTree t = true
    · simp only [h, Bool.not_true, Bool.false_eq_true, if_false, ih2]
      constructor
      · rintro h2 s (hs | hs)
        · exact ih1.mp h s hs
        · exact h2 s hs
      · intro h2 s hs
        exact h2 s (Or.inr hs)
    · have h' : validGameTree t = false := by simpa using h
      simp only [h', Bool.not_false, if_true, Bool.false_eq_true, false_iff]
      intro h2
      exact h (ih1.mpr fun s hs => h2 s (Or.inl hs))
end

theorem valid_iff (c : Collection) :
    c.Valid = true ↔ c.GameTrees ≠ [] ∧ ∀ s ∈ c.allGameTrees, ¬ s.Defective := by
  unfold Collection.Valid Collection.allGameTrees
  by_cases h0 : c.GameTrees = []
  · simp [h0]
  · have hlen : c.GameTrees.length ≠ 0 := fun h => h0 (List.length_eq_zero.mp h)
    simp only [hlen, if_false, validGameTrees_iff, ne_eq, h0, not_false_eq_true, true_and]

/-- C7: `Valid` returns false exactly when the collection has no game tree, or
some game tree at any nesting depth has no node or holds, at one of its nodes,
a property with an empty ident or without values; otherwise it returns
true. -/
theorem C7_valid_false_iff (c : Collection) :
    (c.Valid = false ↔ c.GameTrees = [] ∨ ∃ t ∈ c.allGameTrees, t.Defective) ∧
    (c.Valid = true ↔ ¬ (c.GameTrees = [] ∨ ∃ t ∈ c.allGameTrees, t.Defective)) := by
  have h := valid_iff c
  have key : c.Valid = true ↔ ¬ (c.GameTrees = [] ∨ ∃ t ∈ c.allGameTrees, t.Defective) := by
    rw [h]
    constructor
    · rintro ⟨h0, hall⟩ (h1 | ⟨t, ht, hd⟩)
      · exact h0 h1
      · exact hall t ht hd
    · intro hn
      exact ⟨fun h1 => hn (Or.inl h1), fun s hs hd => hn (Or.inr ⟨s, hs, hd⟩)⟩
  refine ⟨?_, key⟩
  constructor
  · intro hf
    by_contra hn
    have := key.mpr hn
    rw [hf] at this
    exact Bool.false_ne_true this
  · intro hx
    cases hv : c.Valid
    · rfl
    · exact absurd hx (key.mp hv)

/-! ## Serializer: the precondition -/

/-- C6: `Sgf` panics exactly when `Valid` is false, and on a valid collection
it returns a text, whatever the format. -/
theorem C6_sgf_panics_iff_invalid (c : Collection) (f : SgfFormat) :
    (c.Sgf f = .panic ↔ c.Valid = false) ∧
    (c.Valid = true ↔ c.Sgf f = .ok (appendGameTrees f c.GameTrees 0)) ∧
    (∀ e, c.Sgf f ≠ .error e) := by
  unfold Collection.Sgf
  cases hv : c.Valid <;> simp

/-! ## Lexer: the identifier tokens -/

theorem runeToTokenType_structural {c : Char} (h : c = '(' ∨ c = ')' ∨ c = ';') :
    ∃ tt, runeToTokenType c = some tt ∧ tt ≠ tokenTypePropertyIdent ∧
      (tt = tokenTypeGameTreeStart ∨ tt = tokenTypeGameTreeEnd ∨ tt = tokenTypeNode) := by
  rcases h with h | h | h <;> subst h <;> simp [runeToTokenType]

theorem runeToTokenType_bracket : runeToTokenType '[' = some tokenTypePropertyIdent := by
  decide

theorem lexControl_inv {s s' : LexVars} {c : Char} (h : LexInv s)
    (hs : s.lexerState = lexerStateOnlyControl) (e : lexControl s c = .ok s') : LexInv s' := by
  obtain ⟨h1, h2⟩ := h
  have h2 := h2 hs
  unfold lexControl at e
  simp only at e
  by_cases hsep : isSeparator c = true
  · rw [if_pos hsep] at e
    by_cases hcur : s.curData ≠ []
    · rw [if_pos hcur] at e; cases e
    · rw [if_neg hcur] at e
      cases e
      exact ⟨h1, fun _ => h2⟩
  · rw [if_neg hsep] at e
    by_cases hst : c = '(' ∨ c = ')' ∨ c = ';'
    · rw [if_pos hst] at e
      obtain ⟨tt, htt, hne, _⟩ := runeToTokenType_structural hst
      rw [htt] at e
      simp only at e
      cases e
      refine ⟨?_, fun _ c hc => by simp at hc⟩
      intro l hl hty
      simp only [List.mem_append, List.mem_singleton] at hl
      rcases hl with hl | hl
      · by_cases hcur : s.curData ≠ []
        · rw [if_pos hcur] at hl
          simp only [List.mem_append, List.mem_singleton] at hl
          rcases hl with hl | hl
          · exact h1 l hl hty
          · subst hl; exact ⟨hcur, h2⟩
        · rw [if_neg hcur] at hl
          exact h1 l hl hty
      · subst hl; exact absurd hty hne
    · rw [if_neg hst] at e
      by_cases hbr : c = '['
      · rw [if_pos hbr] at e
        subst hbr
        by_cases hcur : s.curData ≠ []
        · rw [if_pos hcur, runeToTokenType_bracket] at e
          simp only at e
          cases e
          refine ⟨?_, fun hc => by simp at hc⟩
          intro l hl hty
          simp only [List.mem_append, List.mem_singleton] at hl
          rcases hl with hl | hl
          · exact h1 l hl hty
          · subst hl; exact ⟨hcur, h2⟩
        · rw [if_neg hcur] at e
          cases e
          exact ⟨h1, fun hc => by simp at hc⟩
      · rw [if_neg hbr] at e
        by_cases hup : c < 'A' ∨ c > 'Z'
        · rw [if_pos hup] at e; cases e
        · rw [if_neg hup] at e
          cases e
          refine ⟨h1, fun _ c' hc' => ?_⟩
          simp only [List.mem_append, List.mem_singleton] at hc'
          rcases hc' with hc' | hc'
          · exact h2 c' hc'
          · subst hc'; exact hup

theorem lexValue_inv {s s' : LexVars} {c : Char} (h : LexInv s)
    (hs : s.lexerState = lexerStatePropertyValue) (e : lexValue s c = .ok s') : LexInv s' := by
  obtain ⟨h1, h2⟩ := h
  unfold lexValue at e
  simp only at e
  split_ifs at e with hb hesc hclose
  · cases e; exact ⟨h1, fun hc => by simp [hs] at hc⟩
  · cases e; exact ⟨h1, fun hc => by simp [hs] at hc⟩
  · cases e
    refine ⟨?_, fun _ c hc => by simp at hc⟩
    intro l hl hty
    simp only [List.mem_append, List.mem_singleton] at hl
    rcases hl with hl | hl
    · exact h1 l hl hty
    · subst hl; simp at hty
  · cases e; exact ⟨h1, fun hc => by simp [hs] at hc⟩

theorem lexStep_inv {s s' : LexVars} {c : Char} (h : LexInv s)
    (e : lexStep s c = .ok s') : LexInv s' := by
  unfold lexStep at e
  split at e
  · exact lexControl_inv h (by assumption) e
  · exact lexValue_inv h (by assumption) e

theorem lexLoop_inv : ∀ (data : List Char) {s s' : LexVars}, LexInv s →
    lexLoop s data = .ok s' → LexInv s'
  | [], s, s', h, e => by
    simp only [lexLoop] at e
    cases e; exact h
  | c :: rest, s, s', h, e => by
    simp only [lexLoop] at e
    split at e
    · rename_i s1 hs1
      exact lexLoop_inv rest (lexStep_inv h hs1) e
    · cases e
    · cases e

theorem lexInit_inv : LexInv lexInit :=
  ⟨fun l hl => by simp [lexInit] at hl, fun _ c hc => by simp [lexInit] at hc⟩

/-- Every identifier token that `lexicalAnalysis` returns carries a non-empty
string of letters `'A'..'Z'`. -/
theorem lexicalAnalysis_idents {data : List Char} {ls : List lexeme}
    (e : lexicalAnalysis data = .ok ls) :
    ∀ l ∈ ls, l.tokenType = tokenTypePropertyIdent → IsIdent l.data := by
  unfold lexicalAnalysis at e
  split at e
  · rename_i s hs
    have hinv := lexLoop_inv data lexInit_inv hs
    unfold lexFinish at e
    split_ifs at e with hcur hst
    · cases e
      intro l hl hty
      simp only [List.mem_append, List.mem_singleton] at hl
      rcases hl with hl | hl
      · exact hinv.1 l hl hty
      · subst hl; exact ⟨hcur, hinv.2 hst⟩
    · cases e
      exact hinv.1
  · cases e
  · cases e

/-! ## Parser: validity of the result -/

@[simp] theorem GameTree.Nodes_mk (ns : List Node) (gs : List GameTree) :
    (GameTree.mk ns gs).Nodes = ns := rfl

@[simp] theorem GameTree.GameTrees_mk (ns : List Node) (gs : List GameTree) :
    (GameTree.mk ns gs).GameTrees = gs := rfl

theorem GameTree.eta : ∀ t : GameTree, GameTree.mk t.Nodes t.GameTrees = t
  | .mk _ _ => rfl

@[simp] theorem closeGameTree_Nodes (t : GameTree) (cn : Option Node) (cp : Option Property) :
    (closeGameTree t cn cp).Nodes = t.Nodes ++ (cn.map fun n => closeNode n cp).toList := rfl

@[simp] theorem closeGameTree_GameTrees (t : GameTree) (cn : Option Node)
    (cp : Option Property) : (closeGameTree t cn cp).GameTrees = t.GameTrees := rfl

@[simp] theorem addChild_Nodes (t ch : GameTree) : (addChild t ch).Nodes = t.Nodes := rfl

@[simp] theorem addChild_GameTrees (t ch : GameTree) :
    (addChild t ch).GameTrees = t.GameTrees ++ [ch] := rfl

theorem validGameTrees_eq_true : ∀ ts : List GameTree,
    validGameTrees ts = true ↔ ∀ t ∈ ts, validGameTree t = true
  | [] => by simp [validGameTrees]
  | t :: rest => by
    have ih := validGameTrees_eq_true rest
    simp only [validGameTrees, List.mem_cons, forall_eq_or_imp]
    cases h : validGameTree t <;> simp [ih]

theorem validGameTree_mk (ns : List Node) (gs : List GameTree) :
    validGameTree (.mk ns gs) = true ↔
      ns ≠ [] ∧ (∀ n ∈ ns, ∀ p ∈ n.Properties, validProperty p = true) ∧
        validGameTrees gs = true := by
  simp only [validGameTree]
  by_cases h0 : ns = []
  · simp [h0]
  · have hlen : ns.length ≠ 0 := fun h => h0 (List.length_eq_zero.mp h)
    by_cases hp : (ns.all fun node => node.Properties.all validProperty) = true
    · have hp2 : ∀ n ∈ ns, ∀ p ∈ n.Properties, validProperty p = true := by
        simpa [List.all_eq_true] using hp
      simp only [hlen, hp, if_false, Bool.not_true, Bool.false_eq_true]
      exact ⟨fun h => ⟨h0, hp2, h⟩, fun h => h.2.2⟩
    · have hp2 : ¬ ∀ n ∈ ns, ∀ p ∈ n.Properties, validProperty p = true := by
        simpa [List.all_eq_true] using hp
      simp only [hlen, hp, if_false, Bool.not_false, if_true, Bool.false_eq_true, false_iff]
      exact fun h => hp2 h.2.1

theorem validGameTree_of_open {t : GameTree} (h : OpenOK t) (hn : t.Nodes ≠ []) :
    validGameTree t = true := by
  cases t with
  | mk ns gs => exact (validGameTree_mk ns gs).mpr ⟨hn, h.1, h.2⟩

theorem closeNode_ok {n : Node} {cp : Option Property}
    (hn : ∀ p ∈ n.Properties, validProperty p = true)
    (hp : ∀ p, cp = some p → validProperty p = true) :
    ∀ p ∈ (closeNode n cp).Properties, validProperty p = true := by
  intro p hm
  simp only [closeNode, List.mem_append] at hm
  rcases hm with hm | hm
  · exact hn p hm
  · cases cp with
    | none => simp at hm
    | some q =>
      simp only [Option.toList, List.mem_singleton] at hm
      subst hm; exact hp _ rfl

theorem closeGameTree_open {t : GameTree} {cn : Option Node} {cp : Option Property}
    (ht : OpenOK t) (hn : ∀ n, cn = some n → ∀ p ∈ n.Properties, validProperty p = true)
    (hp : ∀ p, cp = some p → validProperty p = true) :
    OpenOK (closeGameTree t cn cp) := by
  refine ⟨?_, ht.2⟩
  intro n hm
  simp only [closeGameTree_Nodes, List.mem_append] at hm
  rcases hm with hm | hm
  · exact ht.1 n hm
  · cases cn with
    | none => simp at hm
    | some m =>
      simp only [Option.map, Option.toList, List.mem_singleton] at hm
      subst hm
      exact closeNode_ok (hn m rfl) hp

theorem closeGameTree_nodes_ne {t : GameTree} {cn : Option Node} {cp : Option Property}
    (h : t.Nodes ≠ [] ∨ cn ≠ none) : (closeGameTree t cn cp).Nodes ≠ [] := by
  simp only [closeGameTree_Nodes]
  rcases h with h | h
  · simp [h]
  · cases cn with
    | none => exact absurd rfl h
    | some m => simp

theorem addChild_open {t ch : GameTree} (ht : OpenOK t) (hc : validGameTree ch = true) :
    OpenOK (addChild t ch) := by
  refine ⟨ht.1, ?_⟩
  simp only [addChild_GameTrees]
  rw [validGameTrees_eq_true]
  intro x hx
  simp only [List.mem_append, List.mem_singleton] at hx
  rcases hx with hx | hx
  · exact (validGameTrees_eq_true _).mp ht.2 x hx
  · subst hx; exact hc

theorem validProperty_of {p : Property} (h1 : p.Ident ≠ []) (h2 : p.Values ≠ []) :
    validProperty p = true := by
  unfold validProperty
  have : p.Values.length ≠ 0 := fun h => h2 (List.length_eq_zero.mp h)
  simp [h1, this]

theorem parseStep_inv {s s' : ParseVars} {l : lexeme} (h : ParseInv s)
    (hl : l.tokenType = tokenTypePropertyIdent → l.data ≠ [])
    (e : parseStep s l = .ok s') : ParseInv s' := by
  obtain ⟨hc, hstack, hcur, hnode, hprop, hst⟩ := h
  have hpv : s.state ≠ parserStateValue → ∀ p, s.curProperty = some p → validProperty p = true :=
    fun hs p hp => validProperty_of (hprop p hp).1 ((hprop p hp).2 hs)
  unfold parseStep at e
  split at e
  · -- collection
    unfold parseCollection at e
    split_ifs at e
    cases e
    rename_i hstate _
    refine ⟨hc, hstack, ?_, hnode, ?_, ?_⟩
    · intro t ht
      simp only [Option.some.injEq] at ht
      subst ht
      exact ⟨fun n hn => by simp at hn, by simp [validGameTrees]⟩
    · intro p hp
      exact ⟨(hprop p hp).1, fun _ => (hprop p hp).2 (by rw [hstate]; decide)⟩
    · intro h; rcases h with h | h <;> cases h
  · -- game tree
    rename_i hstate
    unfold parseGameTree at e
    split_ifs at e
    split at e
    · cases e
    · rename_i t ht
      cases e
      refine ⟨hc, hstack, ?_, ?_, ?_, ?_⟩
      · intro t' ht'
        simp only [Option.some.injEq] at ht'
        subst ht'
        exact closeGameTree_open (hcur t ht) hnode (hpv (by rw [hstate]; decide))
      · intro n hn
        simp only [Option.some.injEq] at hn
        subst hn
        intro p hp; simp at hp
      · intro p hp
        exact ⟨(hprop p hp).1, fun _ => (hprop p hp).2 (by rw [hstate]; decide)⟩
      · intro _ t' _
        right; simp
  · -- node
    rename_i hstate
    have hpv' := hpv (by rw [hstate]; decide)
    unfold parseNode at e
    split at e
    · -- ident
      rename_i hty
      split at e
      · cases e
      · rename_i n hn
        cases e
        refine ⟨hc, hstack, hcur, ?_, ?_, ?_⟩
        · intro n' hn'
          simp only [Option.some.injEq] at hn'
          subst hn'
          exact closeNode_ok (hnode n hn) hpv'
        · intro p hp
          simp only [Option.some.injEq] at hp
          subst hp
          exact ⟨hl hty, fun h => absurd rfl h⟩
        · intro _ t _
          right; simp
    · -- value
      split at e
      · cases e
      · rename_i p hp
        cases e
        refine ⟨hc, hstack, hcur, hnode, ?_, ?_⟩
        · intro p' hp'
          simp only [Option.some.injEq] at hp'
          subst hp'
          exact ⟨(hprop p hp).1, fun _ => by simp⟩
        · intro _ t ht
          exact hst (Or.inl hstate) t ht
    · -- node
      split at e
      · cases e
      · rename_i t ht
        cases e
        refine ⟨hc, hstack, ?_, ?_, ?_, ?_⟩
        · intro t' ht'
          simp only [Option.some.injEq] at ht'
          subst ht'
          exact closeGameTree_open (hcur t ht) hnode hpv'
        · intro n hn
          simp only [Option.some.injEq] at hn
          subst hn
          intro p hp; simp at hp
        · intro p hp; cases hp
        · intro _ t' _
          right; simp
    · -- tree start
      split at e
      · cases e
      · rename_i t ht
        cases e
        refine ⟨hc, ?_, ?_, ?_, ?_, ?_⟩
        · intro t' ht'
          simp only [List.mem_cons] at ht'
          rcases ht' with ht' | ht'
          · subst ht'
            exact ⟨closeGameTree_open (hcur t ht) hnode hpv',
              closeGameTree_nodes_ne (hst (Or.inl hstate) t ht)⟩
          · exact hstack t' ht'
        · intro t' ht'
          simp only [Option.some.injEq] at ht'
          subst ht'
          exact ⟨fun n hn => by simp at hn,
            by simp [validGameTrees]⟩
        · intro n hn; cases hn
        · intro p hp; cases hp
        · intro h; rcases h with h | h <;> cases h
    · -- tree end
      split at e
      · rename_i hstk
        cases e
        refine ⟨?_, ?_, ?_, ?_, ?_, ?_⟩
        · intro t ht
          simp only [List.mem_append] at ht
          rcases ht with ht | ht
          · exact hc t ht
          · cases hcg : s.curGameTree with
            | none => rw [hcg] at ht; simp at ht
            | some t0 =>
              rw [hcg] at ht
              simp only [Option.map, Option.toList, List.mem_singleton] at ht
              subst ht
              exact validGameTree_of_open (closeGameTree_open (hcur t0 hcg) hnode hpv')
                (closeGameTree_nodes_ne (hst (Or.inl hstate) t0 hcg))
        · intro t ht; exact hstack t ht
        · intro t ht; cases ht
        · intro n hn; cases hn
        · intro p hp; cases hp
        · intro h; rcases h with h | h <;> cases h
      · rename_i parent stack hstk
        cases e
        have hpar := hstack parent (by rw [hstk]; simp)
        refine ⟨hc, ?_, ?_, ?_, ?_, ?_⟩
        · intro t ht
          exact hstack t (by rw [hstk]; simp [ht])
        · intro t ht
          simp only [Option.some.injEq] at ht
          subst ht
          cases hcg : s.curGameTree with
          | none => exact hpar.1
          | some t0 =>
            exact addChild_open hpar.1
              (validGameTree_of_open (closeGameTree_open (hcur t0 hcg) hnode hpv')
                (closeGameTree_nodes_ne (hst (Or.inl hstate) t0 hcg)))
        · intro n hn; cases hn
        · intro p hp; cases hp
        · intro _ t ht
          simp only [Option.some.injEq] at ht
          subst ht
          left
          cases hcg : s.curGameTree with
          | none => exact hpar.2
          | some t0 => simpa using hpar.2
  · -- value
    rename_i hstate
    unfold parseValue at e
    split_ifs at e
    split at e
    · cases e
    · rename_i p hp
      cases e
      refine ⟨hc, hstack, hcur, hnode, ?_, ?_⟩
      · intro p' hp'
        simp only [Option.some.injEq] at hp'
        subst hp'
        exact ⟨(hprop p hp).1, fun _ => by simp⟩
      · intro _ t ht
        exact hst (Or.inr hstate) t ht

theorem parseLoop_inv : ∀ (ls : List lexeme) {s s' : ParseVars}, ParseInv s →
    (∀ l ∈ ls, l.tokenType = tokenTypePropertyIdent → l.data ≠ []) →
    parseLoop s ls = .ok s' → ParseInv s'
  | [], s, s', h, _, e => by
    simp only [parseLoop] at e
    cases e; exact h
  | l :: rest, s, s', h, hl, e => by
    simp only [parseLoop] at e
    split at e
    · rename_i s1 hs1
      exact parseLoop_inv rest (parseStep_inv h (hl l (by simp)) hs1)
        (fun l' hl' => hl l' (by simp [hl'])) e
    · cases e
    · cases e

theorem parseInit_inv : ParseInv parseInit := by
  refine ⟨?_, ?_, ?_, ?_, ?_, ?_⟩ <;> simp [parseInit]

/-- Every root tree of a collection returned by `parse` is valid, when the
identifier tokens carry non-empty data. -/
theorem parse_trees_valid {ls : List lexeme} {c : Collection}
    (hl : ∀ l ∈ ls, l.tokenType = tokenTypePropertyIdent → l.data ≠ [])
    (e : parse ls = .ok c) : validGameTrees c.GameTrees = true := by
  unfold parse at e
  split at e
  · rename_i s hs
    have hinv := parseLoop_inv ls parseInit_inv hl hs
    unfold parseFinish at e
    split_ifs at e
    · split at e <;> cases e
    · cases e
      exact (validGameTrees_eq_true _).mpr hinv.1
  · cases e
  · cases e

/-- A collection returned by `ParseSgf` is valid exactly when it has a game
tree. -/
theorem ParseSgf_valid_iff {data : List Char} {c : Collection} (e : ParseSgf data = .ok c) :
    c.Valid = true ↔ c.GameTrees ≠ [] := by
  unfold ParseSgf at e
  split at e
  · rename_i ls hls
    have h := parse_trees_valid
      (fun l hl hty => (lexicalAnalysis_idents hls l hl hty).1) e
    unfold Collection.Valid
    by_cases h0 : c.GameTrees = []
    · simp [h0]
    · have hlen : c.GameTrees.length ≠ 0 := fun h => h0 (List.length_eq_zero.mp h)
      simp [hlen, h, h0]
  · cases e
  · cases e

/-- C4 (counterexample): `ParseSgf` of the empty text returns no error and the
collection without game trees, for which `Valid` is false. -/
theorem C4_empty_text_parses_to_invalid :
    ParseSgf [] = .ok ⟨[]⟩ ∧ (Collection.mk []).Valid = false :=
  ⟨rfl, rfl⟩

/-- C4 (amended): a collection that `ParseSgf` returns without error satisfies
`Valid` as soon as it has at least one game tree (and only then). -/
theorem C4_parsed_collection_valid (data : List Char) (c : Collection)
    (e : ParseSgf data = .ok c) (hne : c.GameTrees ≠ []) : c.Valid = true :=
  (ParseSgf_valid_iff e).mpr hne

/-- Witness of C4 (amended) on the text `(;F[4])`. -/
theorem C4_parsed_collection_valid_witness :
    (ParseSgf ['(', ';', 'F', '[', '4', ']', ')'] = .ok ⟨[.mk [⟨[⟨['F'], [['4']]⟩]⟩] []]⟩ ∧
      (Collection.mk [.mk [⟨[⟨['F'], [['4']]⟩]⟩] []]).GameTrees ≠ []) ∧
    (Collection.mk [.mk [⟨[⟨['F'], [['4']]⟩]⟩] []]).Valid = true :=
  ⟨⟨rfl, by simp⟩,
    C4_parsed_collection_valid ['(', ';', 'F', '[', '4', ']', ')']
      ⟨[.mk [⟨[⟨['F'], [['4']]⟩]⟩] []]⟩ rfl (by simp)⟩

/-! ## Parser: the result does not depend on the places of the tokens -/

theorem parseStep_erase (s : ParseVars) (l : lexeme) :
    (parseStep s l.erase).toOption = (parseStep s l).toOption := by
  obtain ⟨tt, d, ln, pos⟩ := l
  unfold parseStep
  cases s.state <;> cases tt <;>
    simp only [lexeme.erase, parseCollection, parseGameTree, parseValue, parseNode, ne_eq,
      not_true_eq_false, not_false_eq_true, if_true, if_false, reduceCtorEq, or_self, or_true,
      true_or, Result.toOption]
  all_goals cases s.curProperty <;> rfl

theorem parseLoop_erase : ∀ (ls : List lexeme) (s : ParseVars),
    (parseLoop s (ls.map lexeme.erase)).toOption = (parseLoop s ls).toOption
  | [], s => rfl
  | l :: rest, s => by
    simp only [List.map_cons, parseLoop]
    have h := parseStep_erase s l
    cases h1 : parseStep s l.erase <;> cases h2 : parseStep s l <;>
      rw [h1, h2] at h <;> simp only [Result.toOption] at h
    all_goals first | rfl | (cases h; done) | skip
    cases h
    exact parseLoop_erase rest _

theorem parse_erase (ls : List lexeme) :
    (parse (ls.map lexeme.erase)).toOption = (parse ls).toOption := by
  unfold parse
  have h := parseLoop_erase ls parseInit
  cases h1 : parseLoop parseInit (ls.map lexeme.erase) <;>
    cases h2 : parseLoop parseInit ls <;>
      rw [h1, h2] at h <;> simp only [Result.toOption] at h
  all_goals first | rfl | (cases h; done) | skip
  · cases h
    rename_i s
    simp only [parseFinish]
    split_ifs
    · cases ls with
      | nil => rfl
      | cons l rest =>
        have e1 : ((l :: rest).map lexeme.erase).getLast? ≠ none := by simp
        have e2 : (l :: rest).getLast? ≠ none := by simp
        cases h3 : ((l :: rest).map lexeme.erase).getLast? with
        | none => exact absurd h3 e1
        | some a =>
          cases h4 : (l :: rest).getLast? with
          | none => exact absurd h4 e2
          | some b => rfl
    · rfl

/-! ## Parser: the tokens of a valid collection parse to the collection -/

theorem closeNode_none (n : Node) : closeNode n none = n := by
  cases n; simp [closeNode]

theorem closeGameTree_none (t : GameTree) : closeGameTree t none none = t := by
  cases t; simp [closeGameTree]

theorem parseLoop_cons (s : ParseVars) (l : lexeme) (rest : List lexeme) :
    parseLoop s (l :: rest) =
      match parseStep s l with
      | .ok s' => parseLoop s' rest
      | .error e => .error e
      | .panic => .panic := rfl

theorem parseLoop_values : ∀ (vs : List (List Char)) (c stk : List GameTree)
    (cur : Option GameTree) (cn : Option Node) (p : Property) (rest : List lexeme),
    parseLoop ⟨c, stk, cur, cn, some p, parserStateNode⟩ (valuesTokens vs ++ rest) =
      parseLoop ⟨c, stk, cur, cn, some ⟨p.Ident, p.Values ++ vs⟩, parserStateNode⟩ rest
  | [], c, stk, cur, cn, p, rest => by simp [valuesTokens]
  | v :: vs, c, stk, cur, cn, p, rest => by
    simp only [valuesTokens, List.cons_append, parseLoop_cons]
    simp only [parseStep, parseNode]
    rw [parseLoop_values vs]
    simp

theorem parseLoop_property (p : Property) (hv : p.Values ≠ []) (c stk : List GameTree)
    (cur : Option GameTree) (n : Node) (cp : Option Property) (rest : List lexeme) :
    parseLoop ⟨c, stk, cur, some n, cp, parserStateNode⟩
      (⟨tokenTypePropertyIdent, p.Ident, 0, 0⟩ :: (valuesTokens p.Values ++ rest)) =
      parseLoop ⟨c, stk, cur, some (closeNode n cp), some p, parserStateNode⟩ rest := by
  obtain ⟨ident, values⟩ := p
  cases values with
  | nil => exact absurd rfl hv
  | cons v vs =>
    simp only [valuesTokens, List.cons_append, parseLoop_cons]
    simp only [parseStep, parseNode, parseValue]
    simp only [ne_eq, not_true_eq_false, if_false]
    rw [parseLoop_values vs]
    simp

theorem parseLoop_properties : ∀ (ps : List Property), (∀ p ∈ ps, p.Values ≠ []) →
    ∀ (c stk : List GameTree) (cur : Option GameTree) (n : Node) (cp : Option Property)
      (rest : List lexeme),
    ∃ n' cp', parseLoop ⟨c, stk, cur, some n, cp, parserStateNode⟩
        (propertiesTokens ps ++ rest) =
        parseLoop ⟨c, stk, cur, some n', cp', parserStateNode⟩ rest ∧
      closeNode n' cp' = ⟨(closeNode n cp).Properties ++ ps⟩
  | [], _, c, stk, cur, n, cp, rest => ⟨n, cp, by simp [propertiesTokens], by simp⟩
  | p :: ps, h, c, stk, cur, n, cp, rest => by
    obtain ⟨n', cp', h1, h2⟩ := parseLoop_properties ps (fun q hq => h q (by simp [hq]))
      c stk cur (closeNode n cp) (some p) rest
    refine ⟨n', cp', ?_, ?_⟩
    · simp only [propertiesTokens, List.cons_append, List.append_assoc]
      rw [parseLoop_property p (h p (by simp)), h1]
    · rw [h2]
      simp [closeNode]

theorem parseLoop_nodes : ∀ (ns : List Node), (∀ n ∈ ns, ∀ p ∈ n.Properties, p.Values ≠ []) →
    ∀ (c stk : List GameTree) (t : GameTree) (cn : Option Node) (cp : Option Property)
      (rest : List lexeme),
    ∃ t' cn' cp', parseLoop ⟨c, stk, some t, cn, cp, parserStateNode⟩
        (nodesTokens ns ++ rest) =
        parseLoop ⟨c, stk, some t', cn', cp', parserStateNode⟩ rest ∧
      closeGameTree t' cn' cp' = .mk ((closeGameTree t cn cp).Nodes ++ ns) t.GameTrees
  | [], _, c, stk, t, cn, cp, rest =>
    ⟨t, cn, cp, by simp [nodesTokens], by simp [closeGameTree]⟩
  | n :: ns, h, c, stk, t, cn, cp, rest => by
    obtain ⟨n', cp', h1, h2⟩ := parseLoop_properties n.Properties (h n (by simp))
      c stk (some (closeGameTree t cn cp)) ⟨[]⟩ none (nodesTokens ns ++ rest)
    obtain ⟨t', cn', cp'', h3, h4⟩ := parseLoop_nodes ns (fun m hm => h m (by simp [hm]))
      c stk (closeGameTree t cn cp) (some n') cp' rest
    refine ⟨t', cn', cp'', ?_, ?_⟩
    · simp only [nodesTokens, List.cons_append, List.append_assoc, parseLoop_cons]
      simp only [parseStep, parseNode]
      rw [h1, h3]
    · rw [h4]
      have : closeNode n' cp' = n := by
        rw [h2]; cases n; simp [closeNode]
      simp [this]

theorem parseLoop_first_node (c stk : List GameTree) (t : GameTree) (cn : Option Node)
    (rest : List lexeme) :
    parseLoop ⟨c, stk, some t, cn, none, parserStateGameTree⟩
      (⟨tokenTypeNode, [], 0, 0⟩ :: rest) =
    parseLoop ⟨c, stk, some t, cn, none, parserStateNode⟩
      (⟨tokenTypeNode, [], 0, 0⟩ :: rest) := by
  simp only [parseLoop_cons, parseStep, parseGameTree, parseNode]
  simp

/-- The tokens between the tree-start and the tree-end of a valid tree build
that tree. -/
theorem parseLoop_body (ns : List Node) (gs : List GameTree)
    (hns : ns ≠ []) (hp : ∀ n ∈ ns, ∀ p ∈ n.Properties, p.Values ≠ [])
    (hgs : ∀ (c stk : List GameTree) (t : GameTree) (cn : Option Node) (cp : Option Property)
      (rest : List lexeme),
      ∃ t' cn' cp', parseLoop ⟨c, stk, some t, cn, cp, parserStateNode⟩
          (gameTreesTokens gs ++ rest) =
          parseLoop ⟨c, stk, some t', cn', cp', parserStateNode⟩ rest ∧
        closeGameTree t' cn' cp' = .mk (closeGameTree t cn cp).Nodes (t.GameTrees ++ gs))
    (c stk : List GameTree) (rest : List lexeme) :
    ∃ t' cn' cp', parseLoop ⟨c, stk, some (.mk [] []), none, none, parserStateGameTree⟩
        (nodesTokens ns ++ (gameTreesTokens gs ++ rest)) =
        parseLoop ⟨c, stk, some t', cn', cp', parserStateNode⟩ rest ∧
      closeGameTree t' cn' cp' = .mk ns gs := by
  obtain ⟨t1, cn1, cp1, h1, h2⟩ := parseLoop_nodes ns hp c stk (.mk [] []) none none
    (gameTreesTokens gs ++ rest)
  obtain ⟨t2, cn2, cp2, h3, h4⟩ := hgs c stk t1 cn1 cp1 rest
  refine ⟨t2, cn2, cp2, ?_, ?_⟩
  · cases ns with
    | nil => exact absurd rfl hns
    | cons n ns' =>
      rw [← h3, ← h1]
      simp only [nodesTokens, List.cons_append]
      exact parseLoop_first_node _ _ _ _ _
  · rw [h4, h2]
    have : t1.GameTrees = [] := by
      have := congrArg GameTree.GameTrees h2
      simpa using this
    simp [this, closeGameTree]

theorem values_ne_of_valid {p : Property} (h : validProperty p = true) : p.Values ≠ [] :=
  ((validProperty_eq_true p).mp h).2

mutual
theorem parseLoop_nested_tree : ∀ (g : GameTree), validGameTree g = true →
    ∀ (c stk : List GameTree) (t : GameTree) (cn : Option Node) (cp : Option Property)
      (rest : List lexeme),
    parseLoop ⟨c, stk, some t, cn, cp, parserStateNode⟩ (gameTreeTokens g ++ rest) =
      parseLoop ⟨c, stk, some (addChild (closeGameTree t cn cp) g), none, none,
        parserStateNode⟩ rest
  | .mk ns gs, hv, c, stk, t, cn, cp, rest => by
    obtain ⟨hns, hps, hgs⟩ := (validGameTree_mk ns gs).mp hv
    obtain ⟨t', cn', cp', h1, h2⟩ := parseLoop_body ns gs hns
      (fun n hn p hp => values_ne_of_valid (hps n hn p hp))
      (parseLoop_nested_trees gs hgs) c (closeGameTree t cn cp :: stk)
      (⟨tokenTypeGameTreeEnd, [], 0, 0⟩ :: rest)
    simp only [gameTreeTokens, List.cons_append, List.append_assoc, List.nil_append,
      parseLoop_cons]
    simp only [parseStep, parseNode]
    rw [h1]
    simp only [parseLoop_cons, parseStep, parseNode]
    rw [h2]
theorem parseLoop_nested_trees : ∀ (gs : List GameTree), validGameTrees gs = true →
    ∀ (c stk : List GameTree) (t : GameTree) (cn : Option Node) (cp : Option Property)
      (rest : List lexeme),
    ∃ t' cn' cp', parseLoop ⟨c, stk, some t, cn, cp, parserStateNode⟩
        (gameTreesTokens gs ++ rest) =
        parseLoop ⟨c, stk, some t', cn', cp', parserStateNode⟩ rest ∧
      closeGameTree t' cn' cp' = .mk (closeGameTree t cn cp).Nodes (t.GameTrees ++ gs)
  | [], _, c, stk, t, cn, cp, rest =>
    ⟨t, cn, cp, by simp [gameTreesTokens], by simp [closeGameTree]⟩
  | g :: gs, hv, c, stk, t, cn, cp, rest => by
    have hv' := (validGameTrees_eq_true (g :: gs)).mp hv
    have hg : validGameTree g = true := hv' g (by simp)
    have hgs : validGameTrees gs = true :=
      (validGameTrees_eq_true gs).mpr fun x hx => hv' x (by simp [hx])
    obtain ⟨t', cn', cp', h1, h2⟩ := parseLoop_nested_trees gs hgs c stk
      (addChild (closeGameTree t cn cp) g) none none rest
    refine ⟨t', cn', cp', ?_, ?_⟩
    · simp only [gameTreesTokens, List.append_assoc]
      rw [parseLoop_nested_tree g hg, h1]
    · rw [h2]
      simp [closeGameTree_none]
end

theorem parseLoop_root_tree (g : GameTree) (hv : validGameTree g = true)
    (c : List GameTree) (rest : List lexeme) :
    parseLoop ⟨c, [], none, none, none, parserStateCollection⟩ (gameTreeTokens g ++ rest) =
      parseLoop ⟨c ++ [g], [], none, none, none, parserStateCollection⟩ rest := by
  cases g with
  | mk ns gs =>
    obtain ⟨hns, hps, hgs⟩ := (validGameTree_mk ns gs).mp hv
    obtain ⟨t', cn', cp', h1, h2⟩ := parseLoop_body ns gs hns
      (fun n hn p hp => values_ne_of_valid (hps n hn p hp))
      (parseLoop_nested_trees gs hgs) c []
      (⟨tokenTypeGameTreeEnd, [], 0, 0⟩ :: rest)
    simp only [gameTreeTokens, List.cons_append, List.append_assoc, List.nil_append,
      parseLoop_cons]
    simp only [parseStep, parseCollection]
    simp only [ne_eq, not_true_eq_false, if_false]
    rw [h1]
    simp only [parseLoop_cons, parseStep, parseNode]
    simp [h2]

theorem parseLoop_root_trees : ∀ (gs : List GameTree), validGameTrees gs = true →
    ∀ (c : List GameTree) (rest : List lexeme),
    parseLoop ⟨c, [], none, none, none, parserStateCollection⟩ (gameTreesTokens gs ++ rest) =
      parseLoop ⟨c ++ gs, [], none, none, none, parserStateCollection⟩ rest
  | [], _, c, rest => by simp [gameTreesTokens]
  | g :: gs, hv, c, rest => by
    have hv' := (validGameTrees_eq_true (g :: gs)).mp hv
    have hg : validGameTree g = true := hv' g (by simp)
    have hgs : validGameTrees gs = true :=
      (validGameTrees_eq_true gs).mpr fun x hx => hv' x (by simp [hx])
    simp only [gameTreesTokens, List.append_assoc]
    rw [parseLoop_root_tree g hg, parseLoop_root_trees gs hgs]
    simp

/-- The tokens of valid game trees parse to the collection of these trees. -/
theorem parse_gameTreesTokens (gs : List GameTree) (hv : validGameTrees gs = true) :
    parse (gameTreesTokens gs) = .ok ⟨gs⟩ := by
  have h := parseLoop_root_trees gs hv [] []
  simp only [List.append_nil, List.nil_append] at h
  unfold parse
  rw [show parseInit = ⟨[], [], none, none, none, parserStateCollection⟩ from rfl, h]
  simp [parseLoop, parseFinish]

/-! ## Lexer: the text written by `Sgf` lexes to the tokens of the collection -/

theorem lexLoop_cons (s : LexVars) (c : Char) (rest : List Char) :
    lexLoop s (c :: rest) =
      match lexStep s c with
      | .ok s' => lexLoop s' rest
      | .error e => .error e
      | .panic => .panic := rfl

theorem Lexes.nil : Lexes [] [] :=
  fun r ln pos rest => ⟨r, ln, pos, rfl, by simp⟩

theorem Lexes.append {a b : List Char} {ta tb : List lexeme} (ha : Lexes a ta)
    (hb : Lexes b tb) : Lexes (a ++ b) (ta ++ tb) := by
  intro r ln pos rest
  obtain ⟨r1, ln1, pos1, h1, h2⟩ := ha r ln pos (b ++ rest)
  obtain ⟨r2, ln2, pos2, h3, h4⟩ := hb r1 ln1 pos1 rest
  refine ⟨r2, ln2, pos2, ?_, ?_⟩
  · rw [List.append_assoc, h1, h3]
  · rw [h4, h2, List.append_assoc]

theorem Lexes.cons {c : Char} {b : List Char} {ta tb : List lexeme} (ha : Lexes [c] ta)
    (hb : Lexes b tb) : Lexes (c :: b) (ta ++ tb) :=
  Lexes.append ha hb

theorem lexStep_separator (r : List lexeme) (ln pos : Nat) (c : Char)
    (h : isSeparator c = true) :
    lexStep ⟨r, [], false, ln, pos, lexerStateOnlyControl⟩ c =
      .ok ⟨r, [], false, if c = '\n' ∨ c = '\r' then ln + 1 else ln, pos + 1,
        lexerStateOnlyControl⟩ := by
  simp [lexStep, lexControl, h]

theorem Lexes.separators : ∀ (ws : List Char), (∀ c ∈ ws, isSeparator c = true) → Lexes ws []
  | [], _ => Lexes.nil
  | c :: ws, h => by
    have ih := Lexes.separators ws (fun x hx => h x (by simp [hx]))
    intro r ln pos rest
    obtain ⟨r', ln', pos', h1, h2⟩ := ih r (if c = '\n' ∨ c = '\r' then ln + 1 else ln)
      (pos + 1) rest
    refine ⟨r', ln', pos', ?_, h2⟩
    rw [List.cons_append, lexLoop_cons, lexStep_separator r ln pos c (h c (by simp))]
    exact h1

theorem Lexes.structural (c : Char) (tt : tokenType) (hc : c = '(' ∨ c = ')' ∨ c = ';')
    (htt : runeToTokenType c = some tt) : Lexes [c] [⟨tt, [], 0, 0⟩] := by
  intro r ln pos rest
  refine ⟨r ++ [⟨tt, [], ln, pos + 1⟩], ln, pos + 1, ?_, by simp [lexeme.erase]⟩
  have hsep : isSeparator c = false := by
    rcases hc with h | h | h <;> subst h <;> decide
  rw [List.singleton_append, lexLoop_cons]
  simp [lexStep, lexControl, hsep, hc, htt]

theorem IsUpper.not_special {c : Char} (h : IsUpper c) :
    isSeparator c = false ∧ ¬ (c = '(' ∨ c = ')' ∨ c = ';') ∧ c ≠ '[' := by
  refine ⟨?_, ?_, ?_⟩
  · cases hs : isSeparator c
    · rfl
    · exfalso
      simp only [isSeparator, Bool.or_eq_true, decide_eq_true_eq] at hs
      rcases hs with (((hs | hs) | hs) | hs) | hs <;> subst hs <;> exact h (by decide)
  · rintro (hs | hs | hs) <;> subst hs <;> exact h (by decide)
  · rintro hs; subst hs; exact h (by decide)

theorem lexLoop_ident : ∀ (id : List Char), (∀ c ∈ id, IsUpper c) →
    ∀ (r : List lexeme) (d : List Char) (ln pos : Nat) (rest : List Char),
    lexLoop ⟨r, d, false, ln, pos, lexerStateOnlyControl⟩ (id ++ rest) =
      lexLoop ⟨r, d ++ id, false, ln, pos + id.length, lexerStateOnlyControl⟩ rest
  | [], _, r, d, ln, pos, rest => by simp
  | c :: id, h, r, d, ln, pos, rest => by
    have hc : IsUpper c := h c (by simp)
    obtain ⟨h1, h2, h3⟩ := hc.not_special
    have h4 : ¬ (c < 'A' ∨ c > 'Z') := hc
    rw [List.cons_append, lexLoop_cons]
    simp only [lexStep, lexControl, h1, h2, h3, h4, if_false, Bool.false_eq_true]
    rw [lexLoop_ident id (fun x hx => h x (by simp [hx]))]
    simp [Nat.add_assoc, Nat.add_comm 1]

theorem lexLoop_value : ∀ (v : List Char), ']' ∉ v → '\\' ∉ v →
    ∀ (r : List lexeme) (d : List Char) (ln pos : Nat) (rest : List Char),
    lexLoop ⟨r, d, false, ln, pos, lexerStatePropertyValue⟩ (v ++ rest) =
      lexLoop ⟨r, d ++ v, false, ln, pos + v.length, lexerStatePropertyValue⟩ rest
  | [], _, _, r, d, ln, pos, rest => by simp
  | c :: v, h1, h2, r, d, ln, pos, rest => by
    have hc1 : c ≠ ']' := fun e => h1 (by simp [e])
    have hc2 : c ≠ '\\' := fun e => h2 (by simp [e])
    rw [List.cons_append, lexLoop_cons]
    simp only [lexStep, lexValue, hc1, hc2, if_false, false_and]
    rw [lexLoop_value v (fun e => h1 (by simp [e])) (fun e => h2 (by simp [e]))]
    simp [Nat.add_assoc, Nat.add_comm 1]

theorem Lexes.values : ∀ (vs : List (List Char)), (∀ v ∈ vs, ']' ∉ v ∧ '\\' ∉ v) →
    Lexes (appendValues vs) (valuesTokens vs)
  | [], _ => Lexes.nil
  | v :: vs, h => by
    have ih := Lexes.values vs (fun x hx => h x (by simp [hx]))
    obtain ⟨hv1, hv2⟩ := h v (by simp)
    intro r ln pos rest
    obtain ⟨r', ln', pos', h1, h2⟩ := ih (r ++ [⟨tokenTypePropertyValue, v, ln,
      pos + 1 + v.length + 1⟩]) ln (pos + 1 + v.length + 1) rest
    refine ⟨r', ln', pos', ?_, ?_⟩
    · simp only [appendValues, List.cons_append, List.append_assoc, lexLoop_cons]
      simp only [lexStep, lexControl]
      simp only [show isSeparator '[' = false from by decide, Bool.false_eq_true, if_false,
        show ¬ ('[' = '(' ∨ '[' = ')' ∨ '[' = ';') from by decide, if_true, ne_eq,
        not_true_eq_false]
      rw [lexLoop_value v hv1 hv2, lexLoop_cons]
      simp only [lexStep, lexValue]
      simp only [show ¬ (']' = '\\') from by decide, if_false, Bool.false_eq_true,
        not_false_eq_true, and_self, if_true, List.nil_append]
      exact h1
    · rw [h2]
      simp [valuesTokens, lexeme.erase]

theorem Lexes.property (p : Property) (hid : p.Ident ≠ []) (hv : p.Values ≠ [])
    (hl : p.Lexable) :
    Lexes (p.Ident ++ appendValues p.Values)
      (⟨tokenTypePropertyIdent, p.Ident, 0, 0⟩ :: valuesTokens p.Values) := by
  obtain ⟨ident, values⟩ := p
  cases values with
  | nil => exact absurd rfl hv
  | cons v vs =>
    obtain ⟨hup, hcl⟩ := hl
    obtain ⟨hv1, hv2⟩ := hcl v (by simp)
    have ih := Lexes.values vs (fun x hx => hcl x (by simp [hx]))
    simp only at hid hup
    intro r ln pos rest
    obtain ⟨r', ln', pos', h1, h2⟩ := ih
      (r ++ [⟨tokenTypePropertyIdent, ident, ln, pos + ident.length + 1⟩] ++
        [⟨tokenTypePropertyValue, v, ln, pos + ident.length + 1 + v.length + 1⟩]) ln
      (pos + ident.length + 1 + v.length + 1) rest
    refine ⟨r', ln', pos', ?_, ?_⟩
    · simp only [appendValues, List.cons_append, List.append_assoc]
      rw [lexLoop_ident ident hup, lexLoop_cons]
      simp only [lexStep, lexControl]
      simp only [show isSeparator '[' = false from by decide, Bool.false_eq_true, if_false,
        show ¬ ('[' = '(' ∨ '[' = ')' ∨ '[' = ';') from by decide, if_true, ne_eq,
        List.nil_append, hid, not_false_eq_true, runeToTokenType_bracket]
      rw [lexLoop_value v hv1 hv2, lexLoop_cons]
      simp only [lexStep, lexValue]
      simp only [show ¬ (']' = '\\') from by decide, if_false, Bool.false_eq_true,
        not_false_eq_true, and_self, if_true, List.nil_append]
      rw [← h1]
    · rw [h2]
      simp [valuesTokens, lexeme.erase]

theorem Lexes.properties : ∀ (ps : List Property),
    (∀ p ∈ ps, validProperty p = true ∧ p.Lexable) →
    Lexes (appendProperties ps) (propertiesTokens ps)
  | [], _ => Lexes.nil
  | p :: ps, h => by
    have ih := Lexes.properties ps (fun x hx => h x (by simp [hx]))
    obtain ⟨hv, hl⟩ := h p (by simp)
    obtain ⟨h1, h2⟩ := (validProperty_eq_true p).mp hv
    have hp := Lexes.property p h1 h2 hl
    have := Lexes.append hp ih
    simpa [appendProperties, propertiesTokens, List.append_assoc] using this

theorem Lexes.indentation (f : SgfFormat) (level : Nat) : Lexes (indentation f level) [] :=
  Lexes.separators _ (by
    intro c hc
    simp only [Sgf.indentation, List.mem_replicate] at hc
    rw [hc.2]; decide)

theorem Lexes.nodes (f : SgfFormat) (level : Nat) : ∀ (ns : List Node) (i : Nat),
    (∀ n ∈ ns, ∀ p ∈ n.Properties, validProperty p = true ∧ p.Lexable) →
    Lexes (appendNodes f level i ns) (nodesTokens ns)
  | [], _, _ => Lexes.nil
  | n :: ns, i, h => by
    have ih := Lexes.nodes f level ns (i + 1) (fun x hx => h x (by simp [hx]))
    have hp := Lexes.properties n.Properties (h n (by simp))
    have hsemi : Lexes [';'] [⟨tokenTypeNode, [], 0, 0⟩] :=
      Lexes.structural ';' tokenTypeNode (by simp) (by decide)
    have hpre : Lexes (if f.NewLineBetweenGameTrees && f.NewLineAlsoBetweenNodes &&
        decide (i > 0) then '\n' :: (Sgf.indentation f level ++ [' ']) else []) [] := by
      split_ifs
      · apply Lexes.separators
        intro c hc
        simp only [Sgf.indentation, List.mem_cons, List.mem_append, List.mem_replicate,
          List.mem_singleton] at hc
        rcases hc with hc | hc | hc
        · rw [hc]; decide
        · rw [hc.2]; decide
        · simp at hc; rw [hc]; decide
      · exact Lexes.nil
    have := Lexes.append hpre (Lexes.cons hsemi (Lexes.append hp ih))
    simpa [appendNodes, nodesTokens] using this

mutual
theorem Lexes.gameTree (f : SgfFormat) : ∀ (g : GameTree) (level : Nat),
    validGameTree g = true → (∀ s ∈ g.subtrees, s.Lexable) →
    Lexes (appendGameTree f g level) (gameTreeTokens g)
  | .mk ns gs, level, hv, hl => by
    obtain ⟨_, hps, hgs⟩ := (validGameTree_mk ns gs).mp hv
    simp only [GameTree.subtrees, List.mem_cons, forall_eq_or_imp] at hl
    obtain ⟨hl1, hl2⟩ := hl
    have ih := Lexes.gameTrees f gs (level + 1) hgs hl2
    have hn := Lexes.nodes f level ns 0 (fun n hn p hp => ⟨hps n hn p hp, hl1 n hn p hp⟩)
    have hopen : Lexes ['('] [⟨tokenTypeGameTreeStart, [], 0, 0⟩] :=
      Lexes.structural '(' tokenTypeGameTreeStart (by simp) (by decide)
    have hclose : Lexes [')'] [⟨tokenTypeGameTreeEnd, [], 0, 0⟩] :=
      Lexes.structural ')' tokenTypeGameTreeEnd (by simp) (by decide)
    have hpre : Lexes (if f.NewLineBetweenGameTrees && decide (level > 0)
        then '\n' :: Sgf.indentation f level else []) [] := by
      split_ifs
      · apply Lexes.separators
        intro c hc
        simp only [Sgf.indentation, List.mem_cons, List.mem_replicate] at hc
        rcases hc with hc | hc
        · rw [hc]; decide
        · rw [hc.2]; decide
      · exact Lexes.nil
    have := Lexes.append hpre (Lexes.cons hopen (Lexes.append hn (Lexes.append ih hclose)))
    simpa [appendGameTree, gameTreeTokens] using this
theorem Lexes.gameTrees (f : SgfFormat) : ∀ (gs : List GameTree) (level : Nat),
    validGameTrees gs = true → (∀ s ∈ subtreesOfList gs, s.Lexable) →
    Lexes (appendGameTrees f gs level) (gameTreesTokens gs)
  | [], _, _, _ => by
    simpa [appendGameTrees, gameTreesTokens] using Lexes.nil
  | g :: gs, level, hv, hl => by
    have hv' := (validGameTrees_eq_true (g :: gs)).mp hv
    have hg : validGameTree g = true := hv' g (by simp)
    have hgs : validGameTrees gs = true :=
      (validGameTrees_eq_true gs).mpr fun x hx => hv' x (by simp [hx])
    simp only [subtreesOfList, List.mem_append] at hl
    have h1 := Lexes.gameTree f g level hg (fun s hs => hl s (Or.inl hs))
    have h2 := Lexes.gameTrees f gs level hgs (fun s hs => hl s (Or.inr hs))
    have := Lexes.append h1 h2
    simpa [appendGameTrees, gameTreesTokens] using this
end

/-- A text that lexes, between tokens, to `toks` is accepted by
`lexicalAnalysis` with these tokens, up to their places. -/
theorem Lexes.lexicalAnalysis {text : List Char} {toks : List lexeme} (h : Lexes text toks) :
    ∃ ls, lexicalAnalysis text = .ok ls ∧ ls.map lexeme.erase = toks := by
  obtain ⟨r', ln', pos', h1, h2⟩ := h [] 0 0 []
  refine ⟨r', ?_, by simpa using h2⟩
  unfold Sgf.lexicalAnalysis
  rw [show lexInit = ⟨[], [], false, 0, 0, lexerStateOnlyControl⟩ from rfl]
  rw [List.append_nil] at h1
  rw [h1]
  simp [lexLoop, lexFinish]

/-- Round trip from the tree: what `Sgf` writes for a valid collection with
lexable properties is parsed by `ParseSgf` to that collection. -/
theorem ParseSgf_appendGameTrees (c : Collection) (f : SgfFormat) (hv : c.Valid = true)
    (hl : c.Lexable) : ParseSgf (appendGameTrees f c.GameTrees 0) = .ok c := by
  have hvs : validGameTrees c.GameTrees = true := by
    unfold Collection.Valid at hv
    split_ifs at hv
    exact hv
  obtain ⟨ls, h1, h2⟩ := (Lexes.gameTrees f c.GameTrees 0 hvs hl).lexicalAnalysis
  unfold ParseSgf
  rw [h1]
  show parse ls = .ok c
  have h3 := parse_erase ls
  rw [h2, parse_gameTreesTokens c.GameTrees hvs] at h3
  cases h4 : parse ls with
  | ok c' =>
    rw [h4] at h3
    simp only [Result.toOption, Option.some.injEq] at h3
    rw [← h3]
  | error e => rw [h4] at h3; cases h3
  | panic => rw [h4] at h3; cases h3

/-- C2 (counterexample): the collection `(;f[4])`, whose ident is a lowercase
letter, is valid, `Sgf` writes it as `(;f[4])`, and `ParseSgf` of that text
returns the lexer error for the character `f` instead of the collection. -/
theorem C2_lowercase_ident_is_rejected :
    (Collection.mk [.mk [⟨[⟨['f'], [['4']]⟩]⟩] []]).Valid = true ∧
    (Collection.mk [.mk [⟨[⟨['f'], [['4']]⟩]⟩] []]).Sgf DefaultSgfFormat =
      .ok ['(', ';', 'f', '[', '4', ']', ')'] ∧
    ((Collection.mk [.mk [⟨[⟨['f'], [['4']]⟩]⟩] []]).Sgf DefaultSgfFormat).andThen ParseSgf =
      .error ⟨invalidCharacter 'f', 0, 3⟩ :=
  ⟨rfl, rfl, rfl⟩

/-! ## Lexer: a text without whitespace between tokens is the text of its tokens -/

theorem render_append : ∀ (a b : List lexeme), render (a ++ b) = render a ++ render b
  | [], b => rfl
  | l :: a, b => by simp [render, render_append a b]

theorem render_singleton (l : lexeme) : render [l] = renderToken l := by
  simp [render]

theorem lexStep_render {s s' : LexVars} {c : Char} (hesc : s.escapedText = false)
    (hb : c ≠ '\\') (hsep : s.inValue = false → isSeparator c = false)
    (e : lexStep s c = .ok s') :
    render s'.retval ++ s'.pending = render s.retval ++ s.pending ++ [c] ∧
    s'.escapedText = false ∧
    s'.inValue = (if s.inValue then decide (c ≠ ']') else decide (c = '[')) := by
  obtain ⟨r, d, esc, ln, pos, st⟩ := s
  simp only at hesc
  subst hesc
  cases st with
  | lexerStateOnlyControl =>
    have hsep' : isSeparator c = false := hsep (by simp [LexVars.inValue])
    simp only [lexStep, lexControl, hsep', Bool.false_eq_true, if_false] at e
    by_cases hst : c = '(' ∨ c = ')' ∨ c = ';'
    · rw [if_pos hst] at e
      have hne : c ≠ '[' := by rintro rfl; simp at hst
      rcases hst with h | h | h <;> subst h <;>
        simp only [runeToTokenType, Char.reduceEq, if_true, if_false] at e <;>
        cases e <;>
        by_cases hd : d = [] <;>
        simp [hd, LexVars.pending, LexVars.inValue, render_append, render, renderToken]
    · rw [if_neg hst] at e
      by_cases hbr : c = '['
      · subst hbr
        rw [if_pos rfl] at e
        by_cases hd : d = []
        · subst hd
          simp only [ne_eq, not_true_eq_false, if_false] at e
          cases e
          simp [LexVars.pending, LexVars.inValue]
        · simp only [ne_eq, hd, not_false_eq_true, if_true, runeToTokenType_bracket] at e
          cases e
          simp [LexVars.pending, LexVars.inValue, render_append, render, renderToken]
      · rw [if_neg hbr] at e
        split_ifs at e
        cases e
        simp [LexVars.pending, LexVars.inValue, hbr]
  | lexerStatePropertyValue =>
    simp only [lexStep, lexValue, hb, if_false, Bool.false_eq_true, not_false_eq_true,
      and_true] at e
    by_cases hc : c = ']'
    · subst hc
      simp only [if_true] at e
      cases e
      simp [LexVars.pending, LexVars.inValue, render_append, render, renderToken]
    · rw [if_neg hc] at e
      cases e
      simp [LexVars.pending, LexVars.inValue, hc]

theorem lexLoop_render : ∀ (data : List Char) {s s' : LexVars},
    s.escapedText = false → '\\' ∉ data →
    (∀ ch ∈ outsideValues s.inValue data, isSeparator ch = false) →
    lexLoop s data = .ok s' →
    render s'.retval ++ s'.pending = render s.retval ++ s.pending ++ data ∧
    s'.escapedText = false ∧ s'.inValue = endsInValue s.inValue data
  | [], s, s', hesc, _, _, e => by
    simp only [lexLoop] at e
    cases e
    cases h : s.inValue <;> simp [hesc, endsInValue]
  | c :: rest, s, s', hesc, hb, hsep, e => by
    rw [lexLoop_cons] at e
    cases h1 : lexStep s c with
    | error _ => rw [h1] at e; cases e
    | panic => rw [h1] at e; cases e
    | ok s1 =>
      rw [h1] at e
      simp only at e
      have hc : c ≠ '\\' := fun h => hb (by simp [h])
      have hsepc : s.inValue = false → isSeparator c = false := by
        intro hv
        apply hsep
        rw [hv]
        simp [outsideValues]
      obtain ⟨h2, h3, h4⟩ := lexStep_render hesc hc hsepc h1
      have hsep1 : ∀ ch ∈ outsideValues s1.inValue rest, isSeparator ch = false := by
        intro ch hch
        apply hsep
        cases hv : s.inValue
        · rw [hv] at h4
          simp only [Bool.false_eq_true, if_false] at h4
          rw [h4] at hch
          simp [outsideValues, hch]
        · rw [hv] at h4
          simp only [if_true] at h4
          rw [h4] at hch
          by_cases hcb : c = ']'
          · simp [outsideValues, hcb] at hch ⊢
            exact Or.inr hch
          · simp [outsideValues, hcb] at hch ⊢
            exact hch
      obtain ⟨h5, h6, h7⟩ := lexLoop_render rest h3 (fun h => hb (by simp [h])) hsep1 e
      refine ⟨?_, h6, ?_⟩
      · rw [h5, h2]; simp
      · rw [h7, h4]
        cases hv : s.inValue <;> simp [endsInValue]

/-- A text without backslash, without whitespace outside its values and not
ending inside a value is the concatenation of the texts of its tokens. -/
theorem lexicalAnalysis_render {data : List Char} {ls : List lexeme}
    (e : lexicalAnalysis data = .ok ls) (hb : '\\' ∉ data)
    (hsep : ∀ ch ∈ outsideValues false data, isSeparator ch = false)
    (hend : endsInValue false data = false) : render ls = data := by
  unfold lexicalAnalysis at e
  cases h1 : lexLoop lexInit data with
  | error _ => rw [h1] at e; cases e
  | panic => rw [h1] at e; cases e
  | ok s =>
    rw [h1] at e
    simp only at e
    obtain ⟨h2, _, h4⟩ := lexLoop_render data (s := lexInit) rfl hb hsep h1
    have h5 : s.lexerState = lexerStateOnlyControl := by
      rw [show lexInit.inValue = false from rfl, hend] at h4
      cases hs : s.lexerState
      · rfl
      · simp [LexVars.inValue, hs] at h4
    simp only [show render lexInit.retval = [] from rfl, show lexInit.pending = [] from rfl,
      List.nil_append, LexVars.pending, h5] at h2
    unfold lexFinish at e
    by_cases hd : s.curData = []
    · simp only [hd, ne_eq, not_true_eq_false, if_false] at e
      cases e
      simpa [hd] using h2
    · simp only [hd, ne_eq, not_false_eq_true, if_true, h5] at e
      cases e
      rw [render_append, render_singleton]
      simpa [renderToken] using h2

/-! ## Parser: the tokens of the result are the tokens that were read -/

theorem valuesTokens_append : ∀ (a b : List (List Char)),
    valuesTokens (a ++ b) = valuesTokens a ++ valuesTokens b
  | [], b => rfl
  | v :: a, b => by simp [valuesTokens, valuesTokens_append a b]

theorem propertiesTokens_append : ∀ (a b : List Property),
    propertiesTokens (a ++ b) = propertiesTokens a ++ propertiesTokens b
  | [], b => rfl
  | p :: a, b => by simp [propertiesTokens, propertiesTokens_append a b]

theorem nodesTokens_append : ∀ (a b : List Node),
    nodesTokens (a ++ b) = nodesTokens a ++ nodesTokens b
  | [], b => rfl
  | n :: a, b => by simp [nodesTokens, nodesTokens_append a b]

theorem gameTreesTokens_append : ∀ (a b : List GameTree),
    gameTreesTokens (a ++ b) = gameTreesTokens a ++ gameTreesTokens b
  | [], b => by simp [gameTreesTokens]
  | g :: a, b => by simp [gameTreesTokens, gameTreesTokens_append a b]

theorem gameTreeTokens_eq (t : GameTree) :
    gameTreeTokens t = openTreeTokens t ++ [⟨tokenTypeGameTreeEnd, [], 0, 0⟩] := by
  cases t; simp [gameTreeTokens, openTreeTokens]

@[simp] theorem closeNode_Properties (n : Node) (cp : Option Property) :
    (closeNode n cp).Properties = n.Properties ++ cp.toList := rfl

theorem parseStep_tokens {s s' : ParseVars} {l : lexeme} {b : Bool} (h : TokInv s b)
    (hl : ¬ (b = true ∧ l.tokenType = tokenTypeNode)) (e : parseStep s l = .ok s') :
    TokInv s' (decide (l.tokenType = tokenTypeGameTreeEnd)) ∧
      stateTokens s' = stateTokens s ++ [l.erase] := by
  obtain ⟨c, stk, cur, cn, cp, st⟩ := s
  obtain ⟨tt, d, ln, pos⟩ := l
  obtain ⟨hA, hB, hC, hD, hE⟩ := h
  simp only at hA hB hC hD hE hl
  cases st with
  | parserStateCollection =>
    obtain ⟨h1, h2, h3, h4⟩ := hA rfl
    subst h1 h2 h3 h4
    cases tt <;> simp only [parseStep, parseCollection, ne_eq, not_true_eq_false,
      not_false_eq_true, if_true, if_false, reduceCtorEq] at e
    cases e
    refine ⟨⟨?_, ?_, ?_, ?_, ?_⟩, ?_⟩ <;>
      simp [stateTokens, stackTokens, openTreeTokens, nodesTokens, gameTreesTokens,
        lexeme.erase]
  | parserStateGameTree =>
    obtain ⟨h3, h4⟩ := hC rfl
    subst h3 h4
    cases cur with
    | none => exact absurd rfl (hB (by simp))
    | some t =>
      cases tt <;> simp only [parseStep, parseGameTree, ne_eq, not_true_eq_false,
        not_false_eq_true, if_true, if_false, reduceCtorEq] at e
      cases e
      have hch : t.GameTrees = [] := by
        by_contra hne
        exact hl ⟨(hD t rfl hne).1, rfl⟩
      refine ⟨⟨?_, ?_, ?_, ?_, ?_⟩, ?_⟩ <;>
        simp [stateTokens, stackTokens, openTreeTokens, nodesTokens, gameTreesTokens,
          lexeme.erase, hch, nodesTokens_append, propertiesTokens]
  | parserStateValue =>
    cases cp with
    | none =>
      cases tt <;> simp only [parseStep, parseValue, ne_eq, not_true_eq_false,
        not_false_eq_true, if_true, if_false, reduceCtorEq] at e
    | some p =>
      cases tt <;> simp only [parseStep, parseValue, ne_eq, not_true_eq_false,
        not_false_eq_true, if_true, if_false, reduceCtorEq] at e
      cases e
      cases cur with
      | none => exact absurd rfl (hB (by simp))
      | some t =>
        cases cn with
        | none => exact absurd (hE rfl) (by simp)
        | some n =>
          have hch : t.GameTrees = [] := by
            by_contra hne
            have := (hD t rfl hne).2.1
            cases this
          refine ⟨⟨?_, ?_, ?_, ?_, ?_⟩, ?_⟩ <;>
            simp [stateTokens, stackTokens, openTreeTokens, nodesTokens, gameTreesTokens,
              lexeme.erase, hch, nodesTokens_append, propertiesTokens,
              propertiesTokens_append, valuesTokens_append, valuesTokens]
  | parserStateNode =>
    cases cur with
    | none => exact absurd rfl (hB (by simp))
    | some t =>
      cases tt
      · -- tree start
        simp only [parseStep, parseNode] at e
        cases e
        refine ⟨⟨?_, ?_, ?_, ?_, ?_⟩, ?_⟩ <;>
          simp [stateTokens, stackTokens, openTreeTokens, nodesTokens, gameTreesTokens,
            lexeme.erase]
      · -- tree end
        cases stk with
        | nil =>
          simp only [parseStep, parseNode] at e
          cases e
          refine ⟨⟨?_, ?_, ?_, ?_, ?_⟩, ?_⟩ <;>
            simp [stateTokens, stackTokens, gameTreesTokens_append, gameTreesTokens,
              gameTreeTokens_eq]
          simp [lexeme.erase]
        | cons parent stk =>
          simp only [parseStep, parseNode] at e
          cases e
          refine ⟨⟨?_, ?_, ?_, ?_, ?_⟩, ?_⟩ <;>
            simp [stateTokens, stackTokens, openTreeTokens, gameTreesTokens_append,
              gameTreesTokens, gameTreeTokens_eq, lexeme.erase]
      · -- node
        simp only [parseStep, parseNode] at e
        cases e
        have hch : t.GameTrees = [] := by
          by_contra hne
          exact hl ⟨(hD t rfl hne).1, rfl⟩
        refine ⟨⟨?_, ?_, ?_, ?_, ?_⟩, ?_⟩ <;>
          simp [stateTokens, stackTokens, openTreeTokens, nodesTokens, gameTreesTokens,
            lexeme.erase, hch, nodesTokens_append, propertiesTokens]
      · -- ident
        cases cn with
        | none => simp only [parseStep, parseNode] at e; cases e
        | some n =>
          simp only [parseStep, parseNode] at e
          cases e
          have hch : t.GameTrees = [] := by
            by_contra hne
            have := (hD t rfl hne).2.1
            cases this
          refine ⟨⟨?_, ?_, ?_, ?_, ?_⟩, ?_⟩ <;>
            simp [stateTokens, stackTokens, openTreeTokens, nodesTokens, gameTreesTokens,
              lexeme.erase, hch, nodesTokens_append, propertiesTokens,
              propertiesTokens_append, valuesTokens]
      · -- value
        cases cp with
        | none => simp only [parseStep, parseNode] at e; cases e
        | some p =>
          simp only [parseStep, parseNode] at e
          cases e
          cases cn with
          | none => exact absurd (hE rfl) (by simp)
          | some n =>
            have hch : t.GameTrees = [] := by
              by_contra hne
              have := (hD t rfl hne).2.1
              cases this
            refine ⟨⟨?_, ?_, ?_, ?_, ?_⟩, ?_⟩ <;>
              simp [stateTokens, stackTokens, openTreeTokens, nodesTokens, gameTreesTokens,
                lexeme.erase, hch, nodesTokens_append, propertiesTokens,
                propertiesTokens_append, valuesTokens_append, valuesTokens]

theorem parseLoop_tokens : ∀ (ls : List lexeme) {s s' : ParseVars} {b : Bool},
    TokInv s b → noNodeAfterTreeEnd b ls → parseLoop s ls = .ok s' →
    (∃ b', TokInv s' b') ∧ stateTokens s' = stateTokens s ++ ls.map lexeme.erase
  | [], s, s', b, h, _, e => by
    simp only [parseLoop] at e
    cases e
    exact ⟨⟨b, h⟩, by simp⟩
  | l :: rest, s, s', b, h, hl, e => by
    rw [parseLoop_cons] at e
    cases h1 : parseStep s l with
    | error _ => rw [h1] at e; cases e
    | panic => rw [h1] at e; cases e
    | ok s1 =>
      rw [h1] at e
      simp only at e
      obtain ⟨h2, h3⟩ := parseStep_tokens h hl.1 h1
      obtain ⟨h4, h5⟩ := parseLoop_tokens rest h2 hl.2 e
      exact ⟨h4, by rw [h5, h3]; simp⟩

/-- When `parse` returns a collection and no node-start token directly
follows a tree-end token, the tokens read are the tokens of the collection. -/
theorem parse_tokens {ls : List lexeme} {c : Collection} (e : parse ls = .ok c)
    (hl : noNodeAfterTreeEnd false ls) :
    ls.map lexeme.erase = gameTreesTokens c.GameTrees := by
  unfold parse at e
  cases h1 : parseLoop parseInit ls with
  | error _ => rw [h1] at e; cases e
  | panic => rw [h1] at e; cases e
  | ok s =>
    rw [h1] at e
    simp only [parseFinish] at e
    have hinit : TokInv parseInit false := by
      refine ⟨?_, ?_, ?_, ?_, ?_⟩ <;> simp [parseInit]
    obtain ⟨⟨b, hinv⟩, h2⟩ := parseLoop_tokens ls hinit hl h1
    by_cases hst : s.state = parserStateCollection
    · simp only [hst, ne_eq, not_true_eq_false, if_false] at e
      cases e
      obtain ⟨h3, h4, _, _⟩ := hinv.1 hst
      simp only [stateTokens, h3, h4, stackTokens, List.append_nil,
        show stateTokens parseInit = [] from rfl, List.nil_append] at h2
      simp only at h2 ⊢
      exact h2.symm
    · simp only [hst, ne_eq, not_false_eq_true, if_true] at e
      split at e <;> cases e

/-! ## Serializer: without new lines it writes the text of the tokens -/

theorem renderToken_erase (l : lexeme) : renderToken l.erase = renderToken l := by
  obtain ⟨tt, d, ln, pos⟩ := l
  cases tt <;> simp [renderToken, lexeme.erase]

theorem render_map_erase : ∀ (ls : List lexeme), render (ls.map lexeme.erase) = render ls
  | [] => rfl
  | l :: rest => by simp [render, renderToken_erase, render_map_erase rest]

theorem render_valuesTokens : ∀ (vs : List (List Char)),
    render (valuesTokens vs) = appendValues vs
  | [] => rfl
  | v :: vs => by simp [valuesTokens, render, renderToken, appendValues, render_valuesTokens vs]

theorem render_propertiesTokens : ∀ (ps : List Property),
    render (propertiesTokens ps) = appendProperties ps
  | [] => rfl
  | p :: ps => by
    simp [propertiesTokens, render, renderToken, appendProperties, render_append,
      render_valuesTokens, render_propertiesTokens ps]

theorem render_nodesTokens (level : Nat) : ∀ (ns : List Node) (i : Nat),
    render (nodesTokens ns) = appendNodes NoNewLinesSgfFormat level i ns
  | [], _ => rfl
  | n :: ns, i => by
    have hf : NoNewLinesSgfFormat.NewLineBetweenGameTrees = false := rfl
    simp [nodesTokens, render, renderToken, appendNodes, render_append,
      render_propertiesTokens, render_nodesTokens level ns (i + 1), hf]

mutual
theorem render_gameTreeTokens : ∀ (g : GameTree) (level : Nat),
    render (gameTreeTokens g) = appendGameTree NoNewLinesSgfFormat g level
  | .mk ns gs, level => by
    have hf : NoNewLinesSgfFormat.NewLineBetweenGameTrees = false := rfl
    simp [gameTreeTokens, render, renderToken, appendGameTree, render_append,
      render_nodesTokens level ns 0, render_gameTreesTokens gs (level + 1), hf]
theorem render_gameTreesTokens : ∀ (gs : List GameTree) (level : Nat),
    render (gameTreesTokens gs) = appendGameTrees NoNewLinesSgfFormat gs level
  | [], _ => by simp [gameTreesTokens, render, appendGameTrees]
  | g :: gs, level => by
    simp [gameTreesTokens, appendGameTrees, render_append, render_gameTreeTokens g level,
      render_gameTreesTokens gs level]
end

/-- Round trip from the text: a text that `ParseSgf` accepts, with no
backslash, no whitespace outside values, not ending inside a value and with
no node-start directly after a tree-end, is what `appendGameTree` writes for
the parsed trees without new lines. -/
theorem appendGameTrees_of_ParseSgf {data : List Char} {c : Collection}
    (e : ParseSgf data = .ok c) (hb : '\\' ∉ data)
    (hsep : ∀ ch ∈ outsideValues false data, isSeparator ch = false)
    (hend : endsInValue false data = false)
    (hord : ∀ ls, lexicalAnalysis data = .ok ls → noNodeAfterTreeEnd false ls) :
    appendGameTrees NoNewLinesSgfFormat c.GameTrees 0 = data := by
  unfold ParseSgf at e
  cases h1 : lexicalAnalysis data with
  | error _ => rw [h1] at e; cases e
  | panic => rw [h1] at e; cases e
  | ok ls =>
    rw [h1] at e
    simp only at e
    have h2 := parse_tokens e (hord ls h1)
    have h3 := lexicalAnalysis_render h1 hb hsep hend
    rw [← render_gameTreesTokens, ← h2, render_map_erase, h3]

/-- C1 (counterexample): the text `(;(;);)`, accepted by `ParseSgf` and free
of whitespace, comes back from `Sgf` as `(;;(;))`: the node read after the
nested tree is kept with the nodes of the parent, before the child trees.  And
`ParseSgf` accepts the empty text, with a collection on which `Sgf` panics. -/
theorem C1_node_after_nested_tree_moves :
    ParseSgf ['(', ';', '(', ';', ')', ';', ')'] =
      .ok ⟨[.mk [⟨[]⟩, ⟨[]⟩] [.mk [⟨[]⟩] []]]⟩ ∧
    (ParseSgf ['(', ';', '(', ';', ')', ';', ')']).andThen
        (fun c => c.Sgf NoNewLinesSgfFormat) = .ok ['(', ';', ';', '(', ';', ')', ')'] ∧
    (ParseSgf ['(', ';', '(', ';', ')', ';', ')']).andThen
        (fun c => c.Sgf NoNewLinesSgfFormat) ≠ .ok ['(', ';', '(', ';', ')', ';', ')'] ∧
    (ParseSgf []).andThen (fun c => c.Sgf NoNewLinesSgfFormat) = .panic :=
  ⟨rfl, rfl, by decide, rfl⟩

/-! ## Defects shown at concrete inputs -/

/-- C5 (the code at the failing input): on the tokens of `(;(;)A[1])`, where
an identifier token directly follows the tree-end token of a nested tree,
`parse` dereferences the nil `curNode` and panics; so does `ParseSgf` on the
text.  No error value is returned. -/
theorem C5_ident_after_nested_tree_end_panics :
    parse [⟨tokenTypeGameTreeStart, [], 0, 1⟩, ⟨tokenTypeNode, [], 0, 2⟩,
           ⟨tokenTypeGameTreeStart, [], 0, 3⟩, ⟨tokenTypeNode, [], 0, 4⟩,
           ⟨tokenTypeGameTreeEnd, [], 0, 5⟩, ⟨tokenTypePropertyIdent, ['A'], 0, 7⟩,
           ⟨tokenTypePropertyValue, ['1'], 0, 9⟩, ⟨tokenTypeGameTreeEnd, [], 0, 10⟩] = .panic ∧
    lexicalAnalysis ['(', ';', '(', ';', ')', 'A', '[', '1', ']', ')'] =
      .ok [⟨tokenTypeGameTreeStart, [], 0, 1⟩, ⟨tokenTypeNode, [], 0, 2⟩,
           ⟨tokenTypeGameTreeStart, [], 0, 3⟩, ⟨tokenTypeNode, [], 0, 4⟩,
           ⟨tokenTypeGameTreeEnd, [], 0, 5⟩, ⟨tokenTypePropertyIdent, ['A'], 0, 7⟩,
           ⟨tokenTypePropertyValue, ['1'], 0, 9⟩, ⟨tokenTypeGameTreeEnd, [], 0, 10⟩] ∧
    ParseSgf ['(', ';', '(', ';', ')', 'A', '[', '1', ']', ')'] = .panic :=
  ⟨rfl, rfl, rfl⟩

/-- C3 (the code at the failing input): the valid collection `(;C[v])` with
the value `v = "]"` is written by `Sgf` as `(;C[]])`, the bracket not preceded
by a backslash, and `ParseSgf` of that text returns a lexer error instead of the
collection; a value that is one backslash is written as `(;C[\])`, which does
not parse either. -/
theorem C3_sgf_writes_values_unescaped :
    (Collection.mk [.mk [⟨[⟨['C'], [[']']]⟩]⟩] []]).Valid = true ∧
    (Collection.mk [.mk [⟨[⟨['C'], [[']']]⟩]⟩] []]).Sgf NoNewLinesSgfFormat =
      .ok ['(', ';', 'C', '[', ']', ']', ')'] ∧
    ParseSgf ['(', ';', 'C', '[', ']', ']', ')'] =
      .error ⟨invalidCharacter ']', 0, 6⟩ ∧
    (Collection.mk [.mk [⟨[⟨['C'], [['\\']]⟩]⟩] []]).Sgf NoNewLinesSgfFormat =
      .ok ['(', ';', 'C', '[', '\\', ']', ')'] ∧
    ParseSgf ['(', ';', 'C', '[', '\\', ']', ')'] = .error ⟨"value left open", 0, 7⟩ :=
  ⟨rfl, rfl, rfl, rfl, rfl⟩

/-! ## Lexer: errors, whitespace and values -/

theorem lexLoop_append : ∀ (a b : List Char) (s : LexVars),
    lexLoop s (a ++ b) = (lexLoop s a).andThen fun s' => lexLoop s' b
  | [], b, s => rfl
  | c :: a, b, s => by
    rw [List.cons_append, lexLoop_cons, lexLoop_cons]
    cases h : lexStep s c with
    | ok s1 => exact lexLoop_append a b s1
    | error e => rfl
    | panic => rfl

/-- C16 (the code at the failing input): on the text `FF[`, whose end is
reached inside a value, `lexicalAnalysis` returns no error but the token list
with the identifier, because the test for an open value is made only when
`curData` is not empty; so `(;)[` is accepted by `ParseSgf`.  With a
character in the open value (`FF[4`) the error is returned. -/
theorem C16_open_empty_value_is_accepted :
    lexicalAnalysis ['F', 'F', '['] = .ok [⟨tokenTypePropertyIdent, ['F', 'F'], 0, 3⟩] ∧
    lexicalAnalysis ['['] = .ok [] ∧
    lexicalAnalysis ['F', 'F', '[', '\\'] =
      .ok [⟨tokenTypePropertyIdent, ['F', 'F'], 0, 3⟩] ∧
    ParseSgf ['(', ';', ')', '['] = .ok ⟨[.mk [⟨[]⟩] []]⟩ ∧
    lexicalAnalysis ['F', 'F', '[', '4'] = .error ⟨"value left open", 0, 4⟩ :=
  ⟨rfl, rfl, rfl, rfl, rfl⟩

/-- C17: outside a value the lexer fails as soon as it meets (a) a character
that is no separator, none of `(`, `)`, `;`, `[` and no letter `'A'..'Z'`, or
(b) a separator while an identifier is pending: whatever follows,
`lexicalAnalysis` returns the error for that character, with the line and
position reached, and no token list. -/
theorem C17_invalid_character (pre post : List Char) (c : Char) (s : LexVars)
    (hpre : lexLoop lexInit pre = .ok s) (hctl : s.lexerState = lexerStateOnlyControl)
    (hc : (isSeparator c = false ∧ c ≠ '(' ∧ c ≠ ')' ∧ c ≠ ';' ∧ c ≠ '[' ∧ (c < 'A' ∨ c > 'Z')) ∨
      (isSeparator c = true ∧ s.curData ≠ [])) :
    lexicalAnalysis (pre ++ c :: post) =
      .error (createLexerError (invalidCharacter c) s.line (s.position + 1)) := by
  unfold lexicalAnalysis
  rw [lexLoop_append, hpre]
  simp only [Result.andThen, lexLoop_cons, lexStep, hctl]
  rcases hc with ⟨h1, h2, h3, h4, h5, h6⟩ | ⟨h1, h2⟩
  · simp [lexControl, h1, h2, h3, h4, h5, h6]
  · simp [lexControl, h1, h2]

/-- Witness of C17 on the text `FF [4]`, where a space follows the pending
identifier `FF`. -/
theorem C17_invalid_character_witness :
    lexLoop lexInit ['F', 'F'] = .ok ⟨[], ['F', 'F'], false, 0, 2, lexerStateOnlyControl⟩ ∧
    lexicalAnalysis ['F', 'F', ' ', '[', '4', ']'] = .error ⟨invalidCharacter ' ', 0, 3⟩ :=
  ⟨rfl, C17_invalid_character ['F', 'F'] ['[', '4', ']'] ' '
    ⟨[], ['F', 'F'], false, 0, 2, lexerStateOnlyControl⟩ rfl rfl (Or.inr ⟨rfl, by simp⟩)⟩

theorem SameTokens.refl (s : LexVars) : s.SameTokens s := ⟨rfl, rfl, rfl, rfl⟩

theorem map_key_append_singleton {r t : List lexeme} (h : r.map lexeme.key = t.map lexeme.key)
    (tt : tokenType) (d : List Char) (l1 p1 l2 p2 : Nat) :
    (r ++ [(⟨tt, d, l1, p1⟩ : lexeme)]).map lexeme.key =
      (t ++ [(⟨tt, d, l2, p2⟩ : lexeme)]).map lexeme.key := by
  simp [h, lexeme.key]

theorem lexStep_sameTokens {s t s1 : LexVars} {c : Char} (h : s.SameTokens t)
    (e : lexStep s c = .ok s1) : ∃ t1, lexStep t c = .ok t1 ∧ s1.SameTokens t1 := by
  obtain ⟨r, d, esc, ln, pos, st⟩ := s
  obtain ⟨r', d', esc', ln', pos', st'⟩ := t
  obtain ⟨h1, h2, h3, h4⟩ := h
  simp only at h1 h2 h3 h4
  subst h2 h3 h4
  cases st with
  | lexerStateOnlyControl =>
    simp only [lexStep, lexControl] at e ⊢
    by_cases hsep : isSeparator c = true
    · rw [if_pos hsep] at e ⊢
      by_cases hd : d ≠ []
      · rw [if_pos hd] at e; cases e
      · rw [if_neg hd] at e ⊢
        cases e
        exact ⟨_, rfl, h1, rfl, rfl, rfl⟩
    · rw [if_neg hsep] at e ⊢
      by_cases hst : c = '(' ∨ c = ')' ∨ c = ';'
      · rw [if_pos hst] at e ⊢
        obtain ⟨tt, htt, _, _⟩ := runeToTokenType_structural hst
        rw [htt] at e ⊢
        simp only at e ⊢
        cases e
        refine ⟨_, rfl, ?_, rfl, rfl, rfl⟩
        simp only
        by_cases hd : d ≠ []
        · rw [if_pos hd, if_pos hd]
          exact map_key_append_singleton (map_key_append_singleton h1 _ _ _ _ _ _) _ _ _ _ _ _
        · rw [if_neg hd, if_neg hd]
          exact map_key_append_singleton h1 _ _ _ _ _ _
      · rw [if_neg hst] at e ⊢
        by_cases hbr : c = '['
        · rw [if_pos hbr] at e ⊢
          subst hbr
          by_cases hd : d ≠ []
          · rw [if_pos hd, runeToTokenType_bracket] at e ⊢
            simp only at e ⊢
            cases e
            exact ⟨_, rfl, map_key_append_singleton h1 _ _ _ _ _ _, rfl, rfl, rfl⟩
          · rw [if_neg hd] at e ⊢
            cases e
            exact ⟨_, rfl, h1, rfl, rfl, rfl⟩
        · rw [if_neg hbr] at e ⊢
          by_cases hup : c < 'A' ∨ c > 'Z'
          · rw [if_pos hup] at e; cases e
          · rw [if_neg hup] at e ⊢
            cases e
            exact ⟨_, rfl, h1, rfl, rfl, rfl⟩
  | lexerStatePropertyValue =>
    simp only [lexStep, lexValue] at e ⊢
    by_cases hb : c = '\\'
    · rw [if_pos hb] at e ⊢
      by_cases hesc : esc = true
      · rw [if_pos hesc] at e ⊢
        cases e
        exact ⟨_, rfl, h1, rfl, rfl, rfl⟩
      · rw [if_neg hesc] at e ⊢
        cases e
        exact ⟨_, rfl, h1, rfl, rfl, rfl⟩
    · rw [if_neg hb] at e ⊢
      by_cases hcl : c = ']' ∧ ¬ esc = true
      · rw [if_pos hcl] at e ⊢
        cases e
        exact ⟨_, rfl, map_key_append_singleton h1 _ _ _ _ _ _, rfl, rfl, rfl⟩
      · rw [if_neg hcl] at e ⊢
        cases e
        exact ⟨_, rfl, h1, rfl, rfl, rfl⟩

theorem lexLoop_sameTokens : ∀ (data : List Char) {s t s1 : LexVars}, s.SameTokens t →
    lexLoop s data = .ok s1 → ∃ t1, lexLoop t data = .ok t1 ∧ s1.SameTokens t1
  | [], s, t, s1, h, e => by
    simp only [lexLoop] at e
    cases e
    exact ⟨t, rfl, h⟩
  | c :: rest, s, t, s1, h, e => by
    rw [lexLoop_cons] at e ⊢
    cases h1 : lexStep s c with
    | error _ => rw [h1] at e; cases e
    | panic => rw [h1] at e; cases e
    | ok s2 =>
      rw [h1] at e
      obtain ⟨t2, h2, h3⟩ := lexStep_sameTokens h h1
      rw [h2]
      exact lexLoop_sameTokens rest h3 e

theorem lexFinish_sameTokens {s t : LexVars} {ls : List lexeme} (h : s.SameTokens t)
    (e : lexFinish s = .ok ls) :
    ∃ ls', lexFinish t = .ok ls' ∧ ls'.map lexeme.key = ls.map lexeme.key := by
  obtain ⟨r, d, esc, ln, pos, st⟩ := s
  obtain ⟨r', d', esc', ln', pos', st'⟩ := t
  obtain ⟨h1, h2, h3, h4⟩ := h
  simp only at h1 h2 h3 h4
  subst h2 h3 h4
  simp only [lexFinish] at e ⊢
  by_cases hd : d ≠ []
  · rw [if_pos hd] at e ⊢
    by_cases hs : st = lexerStateOnlyControl
    · rw [if_pos hs] at e ⊢
      cases e
      exact ⟨_, rfl, (map_key_append_singleton h1 _ _ _ _ _ _).symm⟩
    · rw [if_neg hs] at e; cases e
  · rw [if_neg hd] at e ⊢
    cases e
    exact ⟨_, rfl, h1.symm⟩

theorem lexLoop_separators : ∀ (ws : List Char) (s : LexVars),
    (∀ c ∈ ws, isSeparator c = true) → s.lexerState = lexerStateOnlyControl → s.curData = [] →
    ∃ s', lexLoop s ws = .ok s' ∧ s.SameTokens s'
  | [], s, _, _, _ => ⟨s, rfl, SameTokens.refl s⟩
  | c :: ws, s, h, hctl, hd => by
    obtain ⟨r, d, esc, ln, pos, st⟩ := s
    simp only at hctl hd
    subst hctl hd
    have hc : isSeparator c = true := h c (by simp)
    obtain ⟨s', h1, h2⟩ := lexLoop_separators ws
      ⟨r, [], esc, if c = '\n' ∨ c = '\r' then ln + 1 else ln, pos + 1, lexerStateOnlyControl⟩
      (fun x hx => h x (by simp [hx])) rfl rfl
    refine ⟨s', ?_, h2⟩
    rw [lexLoop_cons]
    simp only [lexStep, lexControl, hc, if_true, ne_eq, not_true_eq_false, if_false]
    exact h1

theorem map_erase_of_map_key {a b : List lexeme} (h : a.map lexeme.key = b.map lexeme.key) :
    a.map lexeme.erase = b.map lexeme.erase := by
  have he : lexeme.erase = (fun k : tokenType × List Char =>
      (⟨k.1, if k.1 = tokenTypePropertyIdent ∨ k.1 = tokenTypePropertyValue then k.2 else [],
        0, 0⟩ : lexeme)) ∘ lexeme.key := by
    funext l; rfl
  rw [he, ← List.map_map, ← List.map_map, h]

/-- C18: in a text that lexes successfully, separators inserted at a place
that is outside a value and where no identifier is pending give a text that
lexes successfully to tokens of the same types and data, in the same order,
and on which `ParseSgf` returns the same collection, if it returns one. -/
theorem C18_whitespace_insignificant (pre ws post : List Char) (s : LexVars)
    (ls : List lexeme) (hws : ∀ c ∈ ws, isSeparator c = true)
    (hpre : lexLoop lexInit pre = .ok s) (hctl : s.lexerState = lexerStateOnlyControl)
    (hpend : s.curData = []) (hlex : lexicalAnalysis (pre ++ post) = .ok ls) :
    ∃ ls', lexicalAnalysis (pre ++ (ws ++ post)) = .ok ls' ∧
      ls'.map lexeme.key = ls.map lexeme.key ∧
      (ParseSgf (pre ++ (ws ++ post))).toOption = (ParseSgf (pre ++ post)).toOption := by
  obtain ⟨s', h1, h2⟩ := lexLoop_separators ws s hws hctl hpend
  unfold lexicalAnalysis at hlex
  rw [lexLoop_append, hpre] at hlex
  simp only [Result.andThen] at hlex
  cases h3 : lexLoop s post with
  | error _ => rw [h3] at hlex; cases hlex
  | panic => rw [h3] at hlex; cases hlex
  | ok s1 =>
    rw [h3] at hlex
    simp only at hlex
    obtain ⟨t1, h4, h5⟩ := lexLoop_sameTokens post h2 h3
    obtain ⟨ls', h6, h7⟩ := lexFinish_sameTokens h5 hlex
    have hlex' : lexicalAnalysis (pre ++ (ws ++ post)) = .ok ls' := by
      unfold lexicalAnalysis
      rw [lexLoop_append, hpre]
      simp only [Result.andThen]
      rw [lexLoop_append, h1]
      simp only [Result.andThen]
      rw [h4]
      exact h6
    have hlex0 : lexicalAnalysis (pre ++ post) = .ok ls := by
      unfold lexicalAnalysis
      rw [lexLoop_append, hpre]
      simp only [Result.andThen]
      rw [h3]
      exact hlex
    refine ⟨ls', hlex', h7, ?_⟩
    unfold ParseSgf
    rw [hlex', hlex0]
    simp only
    rw [← parse_erase ls', ← parse_erase ls, map_erase_of_map_key h7]

/-- Witness of C18 on the text `(;F[4])` with a line break and a tab inserted
before the identifier. -/
theorem C18_whitespace_insignificant_witness :
    lexicalAnalysis ['(', ';', 'F', '[', '4', ']', ')'] =
      .ok [⟨tokenTypeGameTreeStart, [], 0, 1⟩, ⟨tokenTypeNode, [], 0, 2⟩,
        ⟨tokenTypePropertyIdent, ['F'], 0, 4⟩, ⟨tokenTypePropertyValue, ['4'], 0, 6⟩,
        ⟨tokenTypeGameTreeEnd, [], 0, 7⟩] ∧
    lexicalAnalysis ['(', ';', '\n', '\t', 'F', '[', '4', ']', ')'] =
      .ok [⟨tokenTypeGameTreeStart, [], 0, 1⟩, ⟨tokenTypeNode, [], 0, 2⟩,
        ⟨tokenTypePropertyIdent, ['F'], 1, 6⟩, ⟨tokenTypePropertyValue, ['4'], 1, 8⟩,
        ⟨tokenTypeGameTreeEnd, [], 1, 9⟩] ∧
    ∃ ls', lexicalAnalysis (['(', ';'] ++ (['\n', '\t'] ++ ['F', '[', '4', ']', ')'])) = .ok ls' ∧
      ls'.map lexeme.key =
        [(tokenTypeGameTreeStart, []), (tokenTypeNode, []), (tokenTypePropertyIdent, ['F']),
          (tokenTypePropertyValue, ['4']), (tokenTypeGameTreeEnd, [])] := by
  obtain ⟨ls', h1, h2, _⟩ := C18_whitespace_insignificant ['(', ';'] ['\n', '\t']
    ['F', '[', '4', ']', ')']
    ⟨[⟨tokenTypeGameTreeStart, [], 0, 1⟩, ⟨tokenTypeNode, [], 0, 2⟩], [], false, 0, 2,
      lexerStateOnlyControl⟩
    [⟨tokenTypeGameTreeStart, [], 0, 1⟩, ⟨tokenTypeNode, [], 0, 2⟩,
      ⟨tokenTypePropertyIdent, ['F'], 0, 4⟩, ⟨tokenTypePropertyValue, ['4'], 0, 6⟩,
      ⟨tokenTypeGameTreeEnd, [], 0, 7⟩]
    (by decide) rfl rfl rfl rfl
  exact ⟨rfl, rfl, ls', h1, h2⟩

theorem lexLoop_escaped_pair (r : List lexeme) (d : List Char) (ln pos : Nat) (c : Char)
    (rest : List Char) :
    lexLoop ⟨r, d, false, ln, pos, lexerStatePropertyValue⟩ ('\\' :: c :: rest) =
      lexLoop ⟨r, d ++ [c], false, ln, pos + 2, lexerStatePropertyValue⟩ rest := by
  rw [lexLoop_cons]
  simp only [lexStep, lexValue, if_true, Bool.false_eq_true, if_false]
  rw [lexLoop_cons]
  by_cases hb : c = '\\'
  · subst hb
    simp [lexStep, lexValue]
  · simp [lexStep, lexValue, hb]

theorem lexLoop_plain (r : List lexeme) (d : List Char) (ln pos : Nat) (c : Char)
    (rest : List Char) (h1 : c ≠ '\\') (h2 : c ≠ ']') :
    lexLoop ⟨r, d, false, ln, pos, lexerStatePropertyValue⟩ (c :: rest) =
      lexLoop ⟨r, d ++ [c], false, ln, pos + 1, lexerStatePropertyValue⟩ rest := by
  rw [lexLoop_cons]
  simp [lexStep, lexValue, h1, h2]

theorem lexLoop_esc : ∀ (v : List Char) (r : List lexeme) (d : List Char) (ln pos : Nat)
    (rest : List Char),
    lexLoop ⟨r, d, false, ln, pos, lexerStatePropertyValue⟩ (esc v ++ rest) =
      lexLoop ⟨r, d ++ v, false, ln, pos + (esc v).length, lexerStatePropertyValue⟩ rest
  | [], r, d, ln, pos, rest => by simp [esc]
  | c :: v, r, d, ln, pos, rest => by
    by_cases hc : c = '\\' ∨ c = ']'
    · simp only [esc, hc, if_true, List.cons_append, List.length_cons]
      rw [lexLoop_escaped_pair, lexLoop_esc v]
      simp [Nat.add_assoc, Nat.add_comm 2]
    · simp only [esc, hc, if_false, List.cons_append, List.length_cons]
      push_neg at hc
      rw [lexLoop_plain _ _ _ _ _ _ hc.1 hc.2, lexLoop_esc v]
      simp [Nat.add_assoc, Nat.add_comm 1]

/-- On runes: inside a value a backslash is dropped and the rune after it is
kept, whatever it is; and for every sequence of runes `v` the text `[`,
`esc v`, `]` is read as exactly one value token with the data `v`, the value
ending at the first unescaped `]`: so between tokens in any text, and so for
the text alone. -/
theorem value_lexing_runes (v d : List Char) (r : List lexeme) (ln pos : Nat) (c : Char)
    (rest : List Char) :
    lexLoop ⟨r, d, false, ln, pos, lexerStatePropertyValue⟩ ('\\' :: c :: rest) =
      lexLoop ⟨r, d ++ [c], false, ln, pos + 2, lexerStatePropertyValue⟩ rest ∧
    lexLoop ⟨r, [], false, ln, pos, lexerStateOnlyControl⟩ ('[' :: (esc v ++ ']' :: rest)) =
      lexLoop ⟨r ++ [⟨tokenTypePropertyValue, v, ln, pos + 1 + (esc v).length + 1⟩], [], false,
        ln, pos + 1 + (esc v).length + 1, lexerStateOnlyControl⟩ rest ∧
    lexicalAnalysis ('[' :: (esc v ++ [']'])) =
      .ok [⟨tokenTypePropertyValue, v, 0, (esc v).length + 2⟩] := by
  have key : ∀ (r : List lexeme) (ln pos : Nat) (rest : List Char),
      lexLoop ⟨r, [], false, ln, pos, lexerStateOnlyControl⟩ ('[' :: (esc v ++ ']' :: rest)) =
        lexLoop ⟨r ++ [⟨tokenTypePropertyValue, v, ln, pos + 1 + (esc v).length + 1⟩], [],
          false, ln, pos + 1 + (esc v).length + 1, lexerStateOnlyControl⟩ rest := by
    intro r ln pos rest
    rw [lexLoop_cons]
    simp only [lexStep, lexControl, show isSeparator '[' = false from by decide,
      Bool.false_eq_true, if_false, show ¬ ('[' = '(' ∨ '[' = ')' ∨ '[' = ';') from by decide,
      if_true, ne_eq, not_true_eq_false]
    rw [lexLoop_esc v, lexLoop_cons]
    simp [lexStep, lexValue]
  refine ⟨lexLoop_escaped_pair r d ln pos c rest, key r ln pos rest, ?_⟩
  unfold lexicalAnalysis
  rw [show lexInit = ⟨[], [], false, 0, 0, lexerStateOnlyControl⟩ from rfl, key [] 0 0 []]
  simp only [lexLoop, lexFinish, ne_eq, not_true_eq_false, if_false, List.nil_append]
  have : 0 + 1 + (esc v).length + 1 = (esc v).length + 2 := by omega
  rw [this]

/-! ## Parser: the sequences that are accepted -/

theorem parseLoop_append : ∀ (a b : List lexeme) (s : ParseVars),
    parseLoop s (a ++ b) = (parseLoop s a).andThen fun s' => parseLoop s' b
  | [], b, s => rfl
  | l :: a, b, s => by
    rw [List.cons_append, parseLoop_cons, parseLoop_cons]
    cases h : parseStep s l with
    | ok s1 => exact parseLoop_append a b s1
    | error e => rfl
    | panic => rfl

/-- When `parse` accepts a sequence, the loop returns at every place of it. -/
theorem parse_split {pre post : List lexeme} {c : Collection}
    (e : parse (pre ++ post) = .ok c) :
    ∃ s s', parseLoop parseInit pre = .ok s ∧ parseLoop s post = .ok s' ∧
      s'.state = parserStateCollection := by
  unfold parse at e
  rw [parseLoop_append] at e
  cases h1 : parseLoop parseInit pre with
  | error _ => rw [h1] at e; cases e
  | panic => rw [h1] at e; cases e
  | ok s =>
    rw [h1] at e
    simp only [Result.andThen] at e
    cases h2 : parseLoop s post with
    | error _ => rw [h2] at e; cases e
    | panic => rw [h2] at e; cases e
    | ok s' =>
      rw [h2] at e
      simp only [parseFinish] at e
      refine ⟨s, s', rfl, h2, ?_⟩
      by_contra hst
      simp only [ne_eq, hst, not_false_eq_true, if_true] at e
      split at e <;> cases e

theorem treeStarts_append_singleton (pre : List lexeme) (l : lexeme) :
    treeStarts (pre ++ [l]) =
      treeStarts pre + (if l.tokenType = tokenTypeGameTreeStart then 1 else 0) := by
  unfold treeStarts
  by_cases h : l.tokenType = tokenTypeGameTreeStart <;> simp [List.filter_append, h]

theorem treeEnds_append_singleton (pre : List lexeme) (l : lexeme) :
    treeEnds (pre ++ [l]) =
      treeEnds pre + (if l.tokenType = tokenTypeGameTreeEnd then 1 else 0) := by
  unfold treeEnds
  by_cases h : l.tokenType = tokenTypeGameTreeEnd <;> simp [List.filter_append, h]

theorem parseStep_depth {s s' : ParseVars} {l : lexeme} {pre : List lexeme}
    (h : DepthInv s pre) (e : parseStep s l = .ok s') : DepthInv s' (pre ++ [l]) := by
  obtain ⟨c, stk, cur, cn, cp, st⟩ := s
  obtain ⟨tt, d, ln, pos⟩ := l
  obtain ⟨h1, h2, h3⟩ := h
  simp only at h1 h2 h3
  unfold DepthInv
  rw [treeStarts_append_singleton, treeEnds_append_singleton]
  cases st with
  | parserStateCollection =>
    obtain ⟨hc, hs⟩ := h2 rfl
    subst hc hs
    cases tt <;> simp only [parseStep, parseCollection, ne_eq, not_true_eq_false,
      not_false_eq_true, if_true, if_false, reduceCtorEq] at e
    cases e
    simp at h1 ⊢
    omega
  | parserStateGameTree =>
    cases cur with
    | none => exact absurd rfl (h3 (by simp))
    | some t =>
      cases tt <;> simp only [parseStep, parseGameTree, ne_eq, not_true_eq_false,
        not_false_eq_true, if_true, if_false, reduceCtorEq] at e
      cases e
      simp at h1 ⊢
      omega
  | parserStateValue =>
    cases cp with
    | none =>
      cases tt <;> simp only [parseStep, parseValue, ne_eq, not_true_eq_false,
        not_false_eq_true, if_true, if_false, reduceCtorEq] at e
    | some p =>
      cases tt <;> simp only [parseStep, parseValue, ne_eq, not_true_eq_false,
        not_false_eq_true, if_true, if_false, reduceCtorEq] at e
      cases e
      cases cur with
      | none => exact absurd rfl (h3 (by simp))
      | some t =>
        simp at h1 ⊢
        omega
  | parserStateNode =>
    cases cur with
    | none => exact absurd rfl (h3 (by simp))
    | some t =>
      cases tt
      · simp only [parseStep, parseNode] at e
        cases e
        simp at h1 ⊢
        omega
      · cases stk with
        | nil =>
          simp only [parseStep, parseNode] at e
          cases e
          simp at h1 ⊢
          omega
        | cons parent stk =>
          simp only [parseStep, parseNode] at e
          cases e
          simp at h1 ⊢
          omega
      · simp only [parseStep, parseNode] at e
        cases e
        simp at h1 ⊢
        omega
      · cases cn with
        | none => simp only [parseStep, parseNode] at e; cases e
        | some n =>
          simp only [parseStep, parseNode] at e
          cases e
          simp at h1 ⊢
          omega
      · cases cp with
        | none => simp only [parseStep, parseNode] at e; cases e
        | some p =>
          simp only [parseStep, parseNode] at e
          cases e
          simp at h1 ⊢
          omega

theorem parseLoop_depth : ∀ (ls : List lexeme) {s s' : ParseVars} {pre : List lexeme},
    DepthInv s pre → parseLoop s ls = .ok s' → DepthInv s' (pre ++ ls)
  | [], s, s', pre, h, e => by
    simp only [parseLoop] at e
    cases e
    simpa using h
  | l :: rest, s, s', pre, h, e => by
    rw [parseLoop_cons] at e
    cases h1 : parseStep s l with
    | error _ => rw [h1] at e; cases e
    | panic => rw [h1] at e; cases e
    | ok s1 =>
      rw [h1] at e
      have := parseLoop_depth rest (parseStep_depth h h1) e
      simpa using this

theorem parseInit_depth : DepthInv parseInit [] := by
  refine ⟨?_, ?_, ?_⟩ <;> simp [parseInit, treeStarts, treeEnds]

/-- A tree-start token is accepted only by leaving the parser in
`parserStateGameTree`; a tree-end token that closes the last open tree
leaves it in `parserStateCollection`. -/
theorem parseStep_start_end {s s' : ParseVars} {l : lexeme} (e : parseStep s l = .ok s') :
    (l.tokenType = tokenTypeGameTreeStart → s'.state = parserStateGameTree) ∧
    (l.tokenType = tokenTypeGameTreeEnd → s.gameTreeStack = [] →
      s'.state = parserStateCollection) := by
  obtain ⟨c, stk, cur, cn, cp, st⟩ := s
  obtain ⟨tt, d, ln, pos⟩ := l
  cases st <;> cases tt <;>
    simp only [parseStep, parseCollection, parseGameTree, parseValue, parseNode, ne_eq,
      not_true_eq_false, not_false_eq_true, if_true, if_false, reduceCtorEq] at e
  all_goals first
    | (cases e; simp)
    | (cases cur <;> cases e <;> simp)
    | (cases cp <;> cases e <;> simp)
    | (cases cn <;> cases e <;> simp)
    | (cases stk <;> cases e <;> simp)

/-- In `parserStateCollection` only a tree-start token is accepted, in
`parserStateGameTree` only a node-start token. -/
theorem parseStep_expects {s s' : ParseVars} {l : lexeme} (e : parseStep s l = .ok s') :
    (s.state = parserStateCollection → l.tokenType = tokenTypeGameTreeStart) ∧
    (s.state = parserStateGameTree → l.tokenType = tokenTypeNode) := by
  obtain ⟨c, stk, cur, cn, cp, st⟩ := s
  obtain ⟨tt, d, ln, pos⟩ := l
  cases st <;> cases tt <;>
    simp only [parseStep, parseCollection, parseGameTree, ne_eq,
      not_true_eq_false, not_false_eq_true, if_true, if_false, reduceCtorEq] at e <;>
    simp

/-- The rules that every sequence accepted by `parse` obeys: the first token
is a tree-start; the token after a tree-end that closes a root tree is a
tree-start; every tree-start is followed by a node-start. -/
theorem parse_accepted_rules {ls : List lexeme} {c : Collection} (e : parse ls = .ok c) :
    (∀ l rest, ls = l :: rest → l.tokenType = tokenTypeGameTreeStart) ∧
    (∀ pre l1 l2 post, ls = pre ++ l1 :: l2 :: post → l1.tokenType = tokenTypeGameTreeEnd →
      treeStarts pre = treeEnds pre + 1 → l2.tokenType = tokenTypeGameTreeStart) ∧
    (∀ pre l post, ls = pre ++ l :: post → l.tokenType = tokenTypeGameTreeStart →
      ∃ n post', post = n :: post' ∧ n.tokenType = tokenTypeNode) := by
  refine ⟨?_, ?_, ?_⟩
  · intro l rest hls
    subst hls
    obtain ⟨s, s', h1, h2, _⟩ := @parse_split [] (l :: rest) c e
    simp only [parseLoop] at h1
    cases h1
    rw [parseLoop_cons] at h2
    cases h3 : parseStep parseInit l with
    | error _ => rw [h3] at h2; cases h2
    | panic => rw [h3] at h2; cases h2
    | ok s1 => exact (parseStep_expects h3).1 rfl
  · intro pre l1 l2 post hls hl1 hdepth
    subst hls
    obtain ⟨s, s', h1, h2, _⟩ := @parse_split pre (l1 :: l2 :: post) c e
    have hinv := parseLoop_depth pre parseInit_depth h1
    simp only [List.nil_append] at hinv
    rw [parseLoop_cons] at h2
    cases h3 : parseStep s l1 with
    | error _ => rw [h3] at h2; cases h2
    | panic => rw [h3] at h2; cases h2
    | ok s1 =>
      rw [h3] at h2
      simp only at h2
      rw [parseLoop_cons] at h2
      cases h4 : parseStep s1 l2 with
      | error _ => rw [h4] at h2; cases h2
      | panic => rw [h4] at h2; cases h2
      | ok s2 =>
        have hstk : s.gameTreeStack = [] := by
          obtain ⟨hd, hc1, hc2⟩ := hinv
          have hcol : s.state ≠ parserStateCollection := by
            intro hcol
            have := (parseStep_expects h3).1 hcol
            rw [hl1] at this
            cases this
          have hcur := hc2 hcol
          cases hcg : s.curGameTree with
          | none => exact absurd hcg hcur
          | some t =>
            rw [hcg, hdepth] at hd
            simp only [Option.toList, List.length_singleton] at hd
            exact List.length_eq_zero.mp (by omega)
        exact (parseStep_expects h4).1 ((parseStep_start_end h3).2 hl1 hstk)
  · intro pre l post hls hl
    subst hls
    obtain ⟨s, s', h1, h2, hfin⟩ := @parse_split pre (l :: post) c e
    rw [parseLoop_cons] at h2
    cases h3 : parseStep s l with
    | error _ => rw [h3] at h2; cases h2
    | panic => rw [h3] at h2; cases h2
    | ok s1 =>
      rw [h3] at h2
      simp only at h2
      have hst := (parseStep_start_end h3).1 hl
      cases post with
      | nil =>
        simp only [parseLoop] at h2
        cases h2
        rw [hst] at hfin
        cases hfin
      | cons n post' =>
        rw [parseLoop_cons] at h2
        cases h4 : parseStep s1 n with
        | error _ => rw [h4] at h2; cases h2
        | panic => rw [h4] at h2; cases h2
        | ok s2 => exact ⟨n, post', rfl, (parseStep_expects h4).2 hst⟩

/-! ## Parser: rejected sequences -/

/-- C20 (the code at the failing input): the tokens of `(;(;)A(F` break the
rule that a tree-start is followed by a node-start (the last `(` is followed
by an identifier), and those of `(;(;)A[1])F` the rule that a tree-start
follows the end of a root tree; on both `parse` panics at the identifier `A`
that follows the end of the nested tree, and returns no error.  The sequences
of `F`, `(F` and `FF(;)` are rejected with an error. -/
theorem C20_rule_violation_after_nested_tree_panics :
    ParseSgf ['(', ';', '(', ';', ')', 'A', '(', 'F'] = .panic ∧
    parse [⟨tokenTypeGameTreeStart, [], 0, 1⟩, ⟨tokenTypeNode, [], 0, 2⟩,
           ⟨tokenTypeGameTreeStart, [], 0, 3⟩, ⟨tokenTypeNode, [], 0, 4⟩,
           ⟨tokenTypeGameTreeEnd, [], 0, 5⟩, ⟨tokenTypePropertyIdent, ['A'], 0, 7⟩,
           ⟨tokenTypeGameTreeStart, [], 0, 7⟩, ⟨tokenTypePropertyIdent, ['F'], 0, 8⟩] = .panic ∧
    lexicalAnalysis ['(', ';', '(', ';', ')', 'A', '(', 'F'] =
      .ok [⟨tokenTypeGameTreeStart, [], 0, 1⟩, ⟨tokenTypeNode, [], 0, 2⟩,
           ⟨tokenTypeGameTreeStart, [], 0, 3⟩, ⟨tokenTypeNode, [], 0, 4⟩,
           ⟨tokenTypeGameTreeEnd, [], 0, 5⟩, ⟨tokenTypePropertyIdent, ['A'], 0, 7⟩,
           ⟨tokenTypeGameTreeStart, [], 0, 7⟩, ⟨tokenTypePropertyIdent, ['F'], 0, 8⟩] ∧
    ParseSgf ['(', ';', '(', ';', ')', 'A', '[', '1', ']', ')', 'F'] = .panic ∧
    ParseSgf ['F'] = .error ⟨"Collection must start with a new game tree.", 0, 1⟩ ∧
    ParseSgf ['(', 'F'] =
      .error ⟨"New node must be next after game tree has started.", 0, 2⟩ ∧
    ParseSgf ['F', 'F', '(', ';', ')'] =
      .error ⟨"Collection must start with a new game tree.", 0, 3⟩ :=
  ⟨rfl, rfl, rfl, rfl, rfl, rfl, rfl⟩

/-! ## Parser: a text of separators -/

/-- C23: on a text made only of the separators of the lexer (space, tab,
vertical tab, carriage return, line feed), the empty text included, the lexer
returns no token, and `ParseSgf` returns no error and the collection with
zero game trees. -/
theorem C23_whitespace_only_text (ws : List Char) (h : ∀ c ∈ ws, isSeparator c = true) :
    lexicalAnalysis ws = .ok [] ∧ ParseSgf ws = .ok ⟨[]⟩ := by
  obtain ⟨s', h1, h2, h3, _, _⟩ := lexLoop_separators ws lexInit h rfl rfl
  have hr : s'.retval = [] := by
    have : s'.retval.map lexeme.key = [] := h2.symm
    simpa using this
  have hd : s'.curData = [] := h3.symm
  have hl : lexicalAnalysis ws = .ok [] := by
    unfold lexicalAnalysis
    rw [h1]
    simp only [lexFinish, hd, ne_eq, not_true_eq_false, if_false, hr]
  refine ⟨hl, ?_⟩
  unfold ParseSgf
  rw [hl]
  rfl

/-- Witness of C23 on the empty text and on a text of the five separators. -/
theorem C23_whitespace_only_text_witness :
    ParseSgf [] = .ok ⟨[]⟩ ∧
    ParseSgf [' ', '\t', Char.ofNat 11, '\r', '\n'] = .ok ⟨[]⟩ :=
  ⟨(C23_whitespace_only_text [] (by simp)).2,
   (C23_whitespace_only_text [' ', '\t', Char.ofNat 11, '\r', '\n'] (by decide)).2⟩

/-! ## Lexer: an identifier at the end of the text -/

theorem lexLoop_ident_any : ∀ (id : List Char), (∀ c ∈ id, IsUpper c) →
    ∀ (r : List lexeme) (d : List Char) (b : Bool) (ln pos : Nat) (rest : List Char),
    lexLoop ⟨r, d, b, ln, pos, lexerStateOnlyControl⟩ (id ++ rest) =
      lexLoop ⟨r, d ++ id, b, ln, pos + id.length, lexerStateOnlyControl⟩ rest
  | [], _, r, d, b, ln, pos, rest => by simp
  | c :: id, h, r, d, b, ln, pos, rest => by
    have hc : IsUpper c := h c (by simp)
    obtain ⟨h1, h2, h3⟩ := hc.not_special
    have h4 : ¬ (c < 'A' ∨ c > 'Z') := hc
    rw [List.cons_append, lexLoop_cons]
    simp only [lexStep, lexControl, h1, h2, h3, h4, if_false, Bool.false_eq_true]
    rw [lexLoop_ident_any id (fun x hx => h x (by simp [hx]))]
    simp [Nat.add_assoc, Nat.add_comm 1]

theorem lexStep_position {s s' : LexVars} {c : Char} (e : lexStep s c = .ok s') :
    s'.position = s.position + 1 := by
  obtain ⟨r, d, b, ln, pos, st⟩ := s
  cases st
  · simp only [lexStep, lexControl] at e
    split_ifs at e
    all_goals first
      | (cases e; rfl)
      | (split at e <;> cases e; rfl)
  · simp only [lexStep, lexValue] at e
    split_ifs at e <;> cases e <;> rfl

theorem lexLoop_position : ∀ (data : List Char) {s s' : LexVars},
    lexLoop s data = .ok s' → s'.position = s.position + data.length
  | [], s, s', e => by
    simp only [lexLoop] at e
    cases e
    rfl
  | c :: data, s, s', e => by
    rw [lexLoop_cons] at e
    cases h : lexStep s c with
    | error _ => rw [h] at e; cases e
    | panic => rw [h] at e; cases e
    | ok s1 =>
      rw [h] at e
      have h1 := lexLoop_position data e
      have h2 := lexStep_position h
      rw [h1, h2, List.length_cons]
      omega

/-- C28: when the lexer has read the text `T` without error and stands outside
a value with no identifier pending, `lexicalAnalysis T` returns the tokens
emitted so far, and for a non-empty string `U` of letters `'A'..'Z'`
`lexicalAnalysis (T ++ U)` returns these tokens followed by one identifier
token with data `U`, placed at the current line and at the last rune. -/
theorem C28_trailing_identifier (T U : List Char) (s : LexVars)
    (hT : lexLoop lexInit T = .ok s) (hctl : s.lexerState = lexerStateOnlyControl)
    (hpend : s.curData = []) (hU : IsIdent U) :
    lexicalAnalysis T = .ok s.retval ∧
    lexicalAnalysis (T ++ U) =
      .ok (s.retval ++ [⟨tokenTypePropertyIdent, U, s.line, (T ++ U).length⟩]) := by
  have hpos := lexLoop_position T hT
  obtain ⟨r, d, b, ln, pos, st⟩ := s
  simp only at hctl hpend hpos
  subst hctl hpend
  constructor
  · unfold lexicalAnalysis
    rw [hT]
    rfl
  · unfold lexicalAnalysis
    rw [lexLoop_append, hT]
    simp only [Result.andThen]
    have h := lexLoop_ident_any U hU.2 r [] b ln pos []
    rw [List.append_nil] at h
    rw [h]
    simp only [lexLoop, lexFinish, List.nil_append, ne_eq, hU.1, not_false_eq_true, if_true]
    rw [hpos]
    simp [lexInit]

/-- Witness of C28 on the text `(;` followed by the identifier `FF`. -/
theorem C28_trailing_identifier_witness :
    lexicalAnalysis ['(', ';'] =
      .ok [⟨tokenTypeGameTreeStart, [], 0, 1⟩, ⟨tokenTypeNode, [], 0, 2⟩] ∧
    lexicalAnalysis (['(', ';'] ++ ['F', 'F']) =
      .ok ([⟨tokenTypeGameTreeStart, [], 0, 1⟩, ⟨tokenTypeNode, [], 0, 2⟩] ++
        [⟨tokenTypePropertyIdent, ['F', 'F'], 0, 4⟩]) :=
  C28_trailing_identifier ['(', ';'] ['F', 'F']
    ⟨[⟨tokenTypeGameTreeStart, [], 0, 1⟩, ⟨tokenTypeNode, [], 0, 2⟩], [], false, 0, 2,
      lexerStateOnlyControl⟩ rfl rfl rfl
    ⟨by simp, by intro c hc; simp at hc; subst hc; unfold IsUpper; decide⟩

/-! ## Parser: after the end of a nested tree -/

/-- C27: when a tree-end token closes a nested tree (the stack holds the
parent), the parser goes on in the parent, which has received the closed tree
as its last child.  A node-start token that follows opens a node that is
placed after the nodes the parent had before the nested tree, the children
staying as they are; a tree-start token that follows opens a further child of
the same parent.  The text `(;A[1](;B[2]);C[3](;D[4]))` is accepted and yields
one root tree with the nodes `A[1]`, `C[3]` and the children `(;B[2])`,
`(;D[4])`. -/
theorem C27_parsing_continues_in_parent (c stk : List GameTree) (parent t : GameTree)
    (cn : Option Node) (cp : Option Property) (e n g : lexeme) (rest : List lexeme)
    (he : e.tokenType = tokenTypeGameTreeEnd) (hn : n.tokenType = tokenTypeNode)
    (hg : g.tokenType = tokenTypeGameTreeStart) :
    parseLoop ⟨c, parent :: stk, some t, cn, cp, parserStateNode⟩ (e :: n :: rest) =
      parseLoop ⟨c, stk, some (addChild parent (closeGameTree t cn cp)), some ⟨[]⟩, none,
        parserStateNode⟩ rest ∧
    (∀ (node : Node) (p : Option Property),
      (closeGameTree (addChild parent (closeGameTree t cn cp)) (some node) p).Nodes =
        parent.Nodes ++ [closeNode node p] ∧
      (closeGameTree (addChild parent (closeGameTree t cn cp)) (some node) p).GameTrees =
        parent.GameTrees ++ [closeGameTree t cn cp]) ∧
    parseLoop ⟨c, parent :: stk, some t, cn, cp, parserStateNode⟩ (e :: g :: rest) =
      parseLoop ⟨c, addChild parent (closeGameTree t cn cp) :: stk, some (.mk [] []), none,
        none, parserStateGameTree⟩ rest ∧
    ParseSgf ['(', ';', 'A', '[', '1', ']', '(', ';', 'B', '[', '2', ']', ')', ';', 'C', '[',
        '3', ']', '(', ';', 'D', '[', '4', ']', ')', ')'] =
      .ok ⟨[.mk [⟨[⟨['A'], [['1']]⟩]⟩, ⟨[⟨['C'], [['3']]⟩]⟩]
        [.mk [⟨[⟨['B'], [['2']]⟩]⟩] [], .mk [⟨[⟨['D'], [['4']]⟩]⟩] []]]⟩ := by
  obtain ⟨et, ed, el, ep⟩ := e
  obtain ⟨nt, nd, nl, np⟩ := n
  obtain ⟨gt, gd, gl, gp⟩ := g
  simp only at he hn hg
  subst he hn hg
  have hcl : ∀ x : GameTree, closeGameTree x none none = x := by
    intro x
    cases x
    simp [closeGameTree]
  refine ⟨?_, ?_, ?_, rfl⟩
  · rw [parseLoop_cons]
    simp only [parseStep, parseNode]
    rw [parseLoop_cons]
    simp only [parseStep, parseNode, parseGameTree, hcl]
  · intro node p
    cases parent
    simp [closeGameTree, addChild]
  · rw [parseLoop_cons]
    simp only [parseStep, parseNode]
    rw [parseLoop_cons]
    simp only [parseStep, parseNode, parseGameTree, hcl]

/-- Witness of C27 on the state reached after `(;A[1](;B[2]`. -/
theorem C27_parsing_continues_in_parent_witness :
    parseLoop ⟨[], [.mk [⟨[⟨['A'], [['1']]⟩]⟩] []], some (.mk [] []),
        some ⟨[]⟩, some ⟨['B'], [['2']]⟩, parserStateNode⟩
      [⟨tokenTypeGameTreeEnd, [], 0, 13⟩, ⟨tokenTypeNode, [], 0, 14⟩] =
    .ok ⟨[], [], some (.mk [⟨[⟨['A'], [['1']]⟩]⟩] [.mk [⟨[⟨['B'], [['2']]⟩]⟩] []]),
      some ⟨[]⟩, none, parserStateNode⟩ :=
  (C27_parsing_continues_in_parent [] [] (.mk [⟨[⟨['A'], [['1']]⟩]⟩] []) (.mk [] [])
    (some ⟨[]⟩) (some ⟨['B'], [['2']]⟩) ⟨tokenTypeGameTreeEnd, [], 0, 13⟩
    ⟨tokenTypeNode, [], 0, 14⟩ ⟨tokenTypeGameTreeStart, [], 0, 14⟩ [] rfl rfl rfl).1

/-! ## Parser: the idents of the result -/

theorem mem_subtreesOfList : ∀ (gs : List GameTree) (s : GameTree),
    s ∈ subtreesOfList gs ↔ ∃ g ∈ gs, s ∈ g.subtrees
  | [], s => by simp [subtreesOfList]
  | g :: gs, s => by
    simp only [subtreesOfList, List.mem_append, mem_subtreesOfList gs s, List.mem_cons,
      exists_eq_or_imp]

theorem IdentsOK_mk (ns : List Node) (gs : List GameTree) :
    (GameTree.mk ns gs).IdentsOK ↔
      (∀ n ∈ ns, ∀ p ∈ n.Properties, IsIdent p.Ident) ∧ ∀ g ∈ gs, g.IdentsOK := by
  unfold GameTree.IdentsOK
  simp only [GameTree.subtrees, List.mem_cons, forall_eq_or_imp, GameTree.Nodes_mk,
    mem_subtreesOfList]
  constructor
  · rintro ⟨h1, h2⟩
    exact ⟨h1, fun g hg s hs => h2 s ⟨g, hg, hs⟩⟩
  · rintro ⟨h1, h2⟩
    exact ⟨h1, fun s ⟨g, hg, hs⟩ => h2 g hg s hs⟩

theorem IdentsOK_closeGameTree {t : GameTree} {cn : Option Node} {cp : Option Property}
    (ht : t.IdentsOK) (hn : ∀ n, cn = some n → ∀ p ∈ n.Properties, IsIdent p.Ident)
    (hp : ∀ p, cp = some p → IsIdent p.Ident) : (closeGameTree t cn cp).IdentsOK := by
  cases t with
  | mk ns gs =>
    rw [IdentsOK_mk] at ht
    unfold closeGameTree
    rw [IdentsOK_mk]
    refine ⟨?_, ht.2⟩
    intro n hmem p hpm
    simp only [GameTree.Nodes_mk, List.mem_append] at hmem
    rcases hmem with hmem | hmem
    · exact ht.1 n hmem p hpm
    · cases cn with
      | none => simp at hmem
      | some n0 =>
        simp only [Option.map_some', Option.toList, List.mem_singleton] at hmem
        subst hmem
        simp only [closeNode, List.mem_append] at hpm
        rcases hpm with hpm | hpm
        · exact hn n0 rfl p hpm
        · cases cp with
          | none => simp at hpm
          | some p0 =>
            simp only [Option.toList, List.mem_singleton] at hpm
            subst hpm
            exact hp p rfl

theorem IdentsOK_addChild {t child : GameTree} (ht : t.IdentsOK) (hc : child.IdentsOK) :
    (addChild t child).IdentsOK := by
  cases t with
  | mk ns gs =>
    rw [IdentsOK_mk] at ht
    unfold addChild
    rw [IdentsOK_mk]
    refine ⟨ht.1, ?_⟩
    intro g hg
    simp only [GameTree.GameTrees_mk, List.mem_append, List.mem_singleton] at hg
    rcases hg with hg | hg
    · exact ht.2 g hg
    · subst hg; exact hc

theorem IdentsOK_empty : (GameTree.mk [] []).IdentsOK := by
  rw [IdentsOK_mk]; simp

theorem parseInit_identInv : IdentInv parseInit := by
  refine ⟨?_, ?_, ?_, ?_, ?_⟩ <;> simp [parseInit]

theorem parseStep_identInv {s s' : ParseVars} {l : lexeme} (h : IdentInv s)
    (hl : l.tokenType = tokenTypePropertyIdent → IsIdent l.data)
    (e : parseStep s l = .ok s') : IdentInv s' := by
  obtain ⟨c, stk, cur, cn, cp, st⟩ := s
  obtain ⟨tt, d, ln, pos⟩ := l
  obtain ⟨h1, h2, h3, h4, h5⟩ := h
  simp only at h1 h2 h3 h4 h5 hl
  have hclose : ∀ t, cur = some t → (closeGameTree t cn cp).IdentsOK :=
    fun t ht => IdentsOK_closeGameTree (h3 t ht) h4 h5
  have hnode : ∀ n, cn = some n → ∀ p ∈ (closeNode n cp).Properties, IsIdent p.Ident := by
    intro n hn p hp
    simp only [closeNode, List.mem_append] at hp
    rcases hp with hp | hp
    · exact h4 n hn p hp
    · cases cp with
      | none => simp at hp
      | some p0 =>
        simp only [Option.toList, List.mem_singleton] at hp
        subst hp
        exact h5 p rfl
  cases st with
  | parserStateCollection =>
    cases tt <;> simp only [parseStep, parseCollection, ne_eq, not_true_eq_false,
      not_false_eq_true, if_true, if_false, reduceCtorEq] at e
    cases e
    refine ⟨h1, h2, ?_, h4, h5⟩
    intro t ht
    cases ht
    exact IdentsOK_empty
  | parserStateGameTree =>
    cases cur with
    | none =>
      cases tt <;> simp only [parseStep, parseGameTree, ne_eq, not_true_eq_false,
        not_false_eq_true, if_true, if_false, reduceCtorEq] at e
    | some t =>
      cases tt <;> simp only [parseStep, parseGameTree, ne_eq, not_true_eq_false,
        not_false_eq_true, if_true, if_false, reduceCtorEq] at e
      cases e
      refine ⟨h1, h2, ?_, ?_, h5⟩
      · intro t' ht'
        cases ht'
        exact hclose t rfl
      · intro n hn
        cases hn
        simp
  | parserStateValue =>
    cases cp with
    | none =>
      cases tt <;> simp only [parseStep, parseValue, ne_eq, not_true_eq_false,
        not_false_eq_true, if_true, if_false, reduceCtorEq] at e
    | some p =>
      cases tt <;> simp only [parseStep, parseValue, ne_eq, not_true_eq_false,
        not_false_eq_true, if_true, if_false, reduceCtorEq] at e
      cases e
      refine ⟨h1, h2, h3, h4, ?_⟩
      intro p' hp'
      cases hp'
      exact h5 p rfl
  | parserStateNode =>
    cases tt
    · cases cur with
      | none => simp only [parseStep, parseNode] at e; cases e
      | some t =>
        simp only [parseStep, parseNode] at e
        cases e
        refine ⟨h1, ?_, ?_, ?_, ?_⟩
        · intro t' ht'
          simp only [List.mem_cons] at ht'
          rcases ht' with ht' | ht'
          · subst ht'; exact hclose t rfl
          · exact h2 t' ht'
        · intro t' ht'
          cases ht'
          exact IdentsOK_empty
        · intro n hn; cases hn
        · intro p hp; cases hp
    · cases stk with
      | nil =>
        simp only [parseStep, parseNode] at e
        cases e
        refine ⟨?_, ?_, ?_, ?_, ?_⟩
        · intro t' ht'
          simp only [List.mem_append] at ht'
          rcases ht' with ht' | ht'
          · exact h1 t' ht'
          · cases cur with
            | none => simp at ht'
            | some t =>
              simp only [Option.map_some', Option.toList, List.mem_singleton] at ht'
              subst ht'
              exact hclose t rfl
        · intro t' ht'; simp at ht'
        · intro t' ht'; cases ht'
        · intro n hn; cases hn
        · intro p hp; cases hp
      | cons parent stk =>
        simp only [parseStep, parseNode] at e
        cases e
        refine ⟨h1, ?_, ?_, ?_, ?_⟩
        · intro t' ht'
          exact h2 t' (by simp [ht'])
        · intro t' ht'
          cases ht'
          cases cur with
          | none => exact h2 parent (by simp)
          | some t => exact IdentsOK_addChild (h2 parent (by simp)) (hclose t rfl)
        · intro n hn; cases hn
        · intro p hp; cases hp
    · cases cur with
      | none => simp only [parseStep, parseNode] at e; cases e
      | some t =>
        simp only [parseStep, parseNode] at e
        cases e
        refine ⟨h1, h2, ?_, ?_, ?_⟩
        · intro t' ht'
          cases ht'
          exact hclose t rfl
        · intro n hn
          cases hn
          simp
        · intro p hp; cases hp
    · cases cn with
      | none => simp only [parseStep, parseNode] at e; cases e
      | some n =>
        simp only [parseStep, parseNode] at e
        cases e
        refine ⟨h1, h2, h3, ?_, ?_⟩
        · intro n' hn'
          cases hn'
          exact hnode n rfl
        · intro p hp
          cases hp
          exact hl rfl
    · cases cp with
      | none => simp only [parseStep, parseNode] at e; cases e
      | some p =>
        simp only [parseStep, parseNode] at e
        cases e
        refine ⟨h1, h2, h3, h4, ?_⟩
        intro p' hp'
        cases hp'
        exact h5 p rfl

theorem parseLoop_identInv : ∀ (ls : List lexeme) {s s' : ParseVars}, IdentInv s →
    (∀ l ∈ ls, l.tokenType = tokenTypePropertyIdent → IsIdent l.data) →
    parseLoop s ls = .ok s' → IdentInv s'
  | [], s, s', h, _, e => by
    simp only [parseLoop] at e
    cases e
    exact h
  | l :: rest, s, s', h, hl, e => by
    rw [parseLoop_cons] at e
    cases h1 : parseStep s l with
    | error _ => rw [h1] at e; cases e
    | panic => rw [h1] at e; cases e
    | ok s1 =>
      rw [h1] at e
      exact parseLoop_identInv rest (parseStep_identInv h (hl l (by simp)) h1)
        (fun x hx => hl x (by simp [hx])) e

/-- The idents of the properties of a collection that `parse` returns are
data of identifier tokens: a property of the tokens' identifiers holds of
them. -/
theorem parse_idents {ls : List lexeme} {c : Collection}
    (hl : ∀ l ∈ ls, l.tokenType = tokenTypePropertyIdent → IsIdent l.data)
    (e : parse ls = .ok c) :
    ∀ t ∈ c.allGameTrees, ∀ n ∈ t.Nodes, ∀ p ∈ n.Properties, IsIdent p.Ident := by
  unfold parse at e
  cases h : parseLoop parseInit ls with
  | error _ => rw [h] at e; cases e
  | panic => rw [h] at e; cases e
  | ok s =>
    rw [h] at e
    have hinv := parseLoop_identInv ls parseInit_identInv hl h
    simp only [parseFinish] at e
    split_ifs at e with hst
    · split at e <;> cases e
    · cases e
      intro t ht
      simp only [Collection.allGameTrees, mem_subtreesOfList] at ht
      obtain ⟨g, hg, hs⟩ := ht
      exact hinv.1 g hg t hs

/-- C29: every identifier token that the lexer returns carries a non-empty
string of letters `'A'..'Z'`, and every property of a collection returned by
`ParseSgf`, in a tree at any depth, has such a string as its ident. -/
theorem C29_parsed_idents (data : List Char) (c : Collection) (e : ParseSgf data = .ok c) :
    (∃ ls, lexicalAnalysis data = .ok ls ∧
      ∀ l ∈ ls, l.tokenType = tokenTypePropertyIdent → IsIdent l.data) ∧
    ∀ t ∈ c.allGameTrees, ∀ n ∈ t.Nodes, ∀ p ∈ n.Properties,
      p.Ident ≠ [] ∧ ∀ ch ∈ p.Ident, ¬ (ch < 'A' ∨ ch > 'Z') := by
  unfold ParseSgf at e
  cases h : lexicalAnalysis data with
  | error _ => rw [h] at e; cases e
  | panic => rw [h] at e; cases e
  | ok ls =>
    rw [h] at e
    exact ⟨⟨ls, rfl, lexicalAnalysis_idents h⟩, parse_idents (lexicalAnalysis_idents h) e⟩

/-- Witness of C29 on the text `(;FF[4](;B[qd]))`, at the property `FF[4]` of
the root tree. -/
theorem C29_parsed_idents_witness :
    (['F', 'F'] : List Char) ≠ [] ∧ ¬ ('F' < 'A' ∨ 'F' > 'Z') :=
  have h := (C29_parsed_idents
    ['(', ';', 'F', 'F', '[', '4', ']', '(', ';', 'B', '[', 'q', 'd', ']', ')', ')']
    ⟨[.mk [⟨[⟨['F', 'F'], [['4']]⟩]⟩] [.mk [⟨[⟨['B'], [['q', 'd']]⟩]⟩] []]]⟩ rfl).2
    (.mk [⟨[⟨['F', 'F'], [['4']]⟩]⟩] [.mk [⟨[⟨['B'], [['q', 'd']]⟩]⟩] []])
    (by simp [Collection.allGameTrees, subtreesOfList, GameTree.subtrees])
    ⟨[⟨['F', 'F'], [['4']]⟩]⟩ (by simp) ⟨['F', 'F'], [['4']]⟩ (by simp)
  ⟨h.1, h.2 'F' (by simp)⟩

/-! ## Serializer: the text of the specification -/

theorem toNat_mul_level (a : Int) (d : Nat) : (a * (d : Int)).toNat = d * a.toNat := by
  rcases Int.lt_or_le a 0 with h | h
  · have h1 : a.toNat = 0 := Int.toNat_eq_zero.mpr (le_of_lt h)
    have h2 : a * (d : Int) ≤ 0 :=
      mul_nonpos_of_nonpos_of_nonneg (le_of_lt h) (Int.ofNat_nonneg d)
    rw [h1, Int.toNat_eq_zero.mpr h2]; simp
  · obtain ⟨n, rfl⟩ := Int.eq_ofNat_of_zero_le h
    rw [Int.toNat_ofNat, ← Int.natCast_mul, Int.toNat_ofNat, Nat.mul_comm]

theorem appendValues_eq_spec : ∀ (vs : List (List Char)),
    appendValues vs = (vs.map fun value => '[' :: (value ++ [']'])).flatten
  | [] => rfl
  | v :: vs => by
    simp [appendValues, appendValues_eq_spec vs]

theorem appendProperties_eq_spec : ∀ (ps : List Property),
    appendProperties ps = (ps.map specProperty).flatten
  | [] => rfl
  | p :: ps => by
    simp [appendProperties, appendProperties_eq_spec ps, specProperty, appendValues_eq_spec]

theorem appendNodes_succ_eq_spec (f : SgfFormat) (d : Nat) : ∀ (ns : List Node) (i : Nat),
    appendNodes f d (i + 1) ns = (ns.map fun n => specNodeBreak f d ++ specNode n).flatten
  | [], _ => rfl
  | n :: ns, i => by
    simp only [appendNodes, appendNodes_succ_eq_spec f d ns (i + 1), List.map_cons,
      List.flatten_cons, specNodeBreak, specNode, appendProperties_eq_spec, indentation,
      toNat_mul_level]
    cases f.NewLineBetweenGameTrees <;> cases f.NewLineAlsoBetweenNodes <;> simp

theorem appendNodes_eq_spec (f : SgfFormat) (d : Nat) : ∀ (ns : List Node),
    appendNodes f d 0 ns = specNodes f d ns
  | [] => rfl
  | n :: ns => by
    simp only [appendNodes, appendNodes_succ_eq_spec f d ns 0, specNodes, specNode,
      appendProperties_eq_spec]
    simp

mutual
theorem appendGameTree_eq_spec (f : SgfFormat) : ∀ (g : GameTree) (d : Nat),
    appendGameTree f g d = specRender f g d
  | .mk nodes children, d => by
    simp only [appendGameTree, specRender, appendNodes_eq_spec,
      appendGameTrees_eq_spec f children (d + 1), indentation, toNat_mul_level]
    cases f.NewLineBetweenGameTrees <;> simp
theorem appendGameTrees_eq_spec (f : SgfFormat) : ∀ (gs : List GameTree) (d : Nat),
    appendGameTrees f gs d = specRenderAll f gs d
  | [], _ => rfl
  | g :: gs, d => by
    simp only [appendGameTrees, specRenderAll, appendGameTree_eq_spec f g d,
      appendGameTrees_eq_spec f gs d]
end

theorem specRenderAll_eq_flatten (f : SgfFormat) (d : Nat) : ∀ (gs : List GameTree),
    specRenderAll f gs d = (gs.map fun t => specRender f t d).flatten
  | [] => rfl
  | g :: gs => by
    simp only [specRenderAll, specRenderAll_eq_flatten f d gs, List.map_cons, List.flatten_cons]

/-- C24: for every valid collection and every format `f`, `Sgf f` returns the
concatenation over the root trees, in order, of the text `render(t, 0)` of the
specification (`specRender`, written from the words of the specification).
The tree of `(;FF[4]GM[1](;B[qd];W[ob])(;W[pe]))`, which `ParseSgf` returns on
that text, gives with `DefaultSgfFormat` the four lines of the example. -/
theorem C24_sgf_is_render (c : Collection) (f : SgfFormat) (hv : c.Valid = true) :
    c.Sgf f = .ok (c.GameTrees.map fun t => specRender f t 0).flatten ∧
    ParseSgf "(;FF[4]GM[1](;B[qd];W[ob])(;W[pe]))".toList =
      .ok ⟨[.mk [⟨[⟨['F', 'F'], [['4']]⟩, ⟨['G', 'M'], [['1']]⟩]⟩]
        [.mk [⟨[⟨['B'], [['q', 'd']]⟩]⟩, ⟨[⟨['W'], [['o', 'b']]⟩]⟩] [],
         .mk [⟨[⟨['W'], [['p', 'e']]⟩]⟩] []]]⟩ ∧
    Collection.Sgf ⟨[.mk [⟨[⟨['F', 'F'], [['4']]⟩, ⟨['G', 'M'], [['1']]⟩]⟩]
        [.mk [⟨[⟨['B'], [['q', 'd']]⟩]⟩, ⟨[⟨['W'], [['o', 'b']]⟩]⟩] [],
         .mk [⟨[⟨['W'], [['p', 'e']]⟩]⟩] []]]⟩ DefaultSgfFormat =
      .ok "(;FF[4]GM[1]\n    (;B[qd]\n     ;W[ob])\n    (;W[pe]))".toList := by
  refine ⟨?_, rfl, by decide⟩
  unfold Collection.Sgf
  rw [hv]
  simp only [Bool.not_true, Bool.false_eq_true, if_false]
  rw [appendGameTrees_eq_spec, specRenderAll_eq_flatten]

/-- Witness of C24 on the collection of the example and `DefaultSgfFormat`. -/
theorem C24_sgf_is_render_witness :
    Collection.Sgf ⟨[.mk [⟨[⟨['F', 'F'], [['4']]⟩, ⟨['G', 'M'], [['1']]⟩]⟩]
        [.mk [⟨[⟨['B'], [['q', 'd']]⟩]⟩, ⟨[⟨['W'], [['o', 'b']]⟩]⟩] [],
         .mk [⟨[⟨['W'], [['p', 'e']]⟩]⟩] []]]⟩ DefaultSgfFormat =
      .ok ((Collection.GameTrees ⟨[.mk [⟨[⟨['F', 'F'], [['4']]⟩, ⟨['G', 'M'], [['1']]⟩]⟩]
        [.mk [⟨[⟨['B'], [['q', 'd']]⟩]⟩, ⟨[⟨['W'], [['o', 'b']]⟩]⟩] [],
         .mk [⟨[⟨['W'], [['p', 'e']]⟩]⟩] []]]⟩).map
        fun t => specRender DefaultSgfFormat t 0).flatten :=
  (C24_sgf_is_render ⟨[.mk [⟨[⟨['F', 'F'], [['4']]⟩, ⟨['G', 'M'], [['1']]⟩]⟩]
        [.mk [⟨[⟨['B'], [['q', 'd']]⟩]⟩, ⟨[⟨['W'], [['o', 'b']]⟩]⟩] [],
         .mk [⟨[⟨['W'], [['p', 'e']]⟩]⟩] []]]⟩ DefaultSgfFormat rfl).1

/-! ## Parser: identifiers and values -/

theorem parseInit_propInv : PropInv parseInit [] := by
  refine ⟨fun _ => rfl, ?_⟩
  rintro (h | h)
  · cases h
  · exact absurd rfl h

theorem parseStep_propInv {s s' : ParseVars} {l : lexeme} {pre : List lexeme}
    (h : PropInv s pre) (e : parseStep s l = .ok s') : PropInv s' (pre ++ [l]) := by
  obtain ⟨c, stk, cur, cn, cp, st⟩ := s
  obtain ⟨tt, d, ln, pos⟩ := l
  obtain ⟨h1, h2⟩ := h
  simp only at h1 h2
  cases st with
  | parserStateCollection =>
    have hcp := h1 (Or.inl rfl)
    subst hcp
    cases tt <;> simp only [parseStep, parseCollection, ne_eq, not_true_eq_false,
      not_false_eq_true, if_true, if_false, reduceCtorEq] at e
    cases e
    exact ⟨fun _ => rfl, by rintro (h | h) <;> simp at h⟩
  | parserStateGameTree =>
    have hcp := h1 (Or.inr rfl)
    subst hcp
    cases cur with
    | none =>
      cases tt <;> simp only [parseStep, parseGameTree, ne_eq, not_true_eq_false,
        not_false_eq_true, if_true, if_false, reduceCtorEq] at e
    | some t =>
      cases tt <;> simp only [parseStep, parseGameTree, ne_eq, not_true_eq_false,
        not_false_eq_true, if_true, if_false, reduceCtorEq] at e
      cases e
      exact ⟨fun _ => rfl, by rintro (h | h) <;> simp at h⟩
  | parserStateValue =>
    cases cp with
    | none =>
      cases tt <;> simp only [parseStep, parseValue, ne_eq, not_true_eq_false,
        not_false_eq_true, if_true, if_false, reduceCtorEq] at e
    | some p =>
      cases tt <;> simp only [parseStep, parseValue, ne_eq, not_true_eq_false,
        not_false_eq_true, if_true, if_false, reduceCtorEq] at e
      cases e
      exact ⟨(by rintro (h | h) <;> cases h), fun _ => ⟨pre, _, rfl, Or.inr rfl⟩⟩
  | parserStateNode =>
    cases tt
    · cases cur with
      | none => simp only [parseStep, parseNode] at e; cases e
      | some t =>
        simp only [parseStep, parseNode] at e
        cases e
        exact ⟨fun _ => rfl, by rintro (h | h) <;> simp at h⟩
    · cases stk with
      | nil =>
        simp only [parseStep, parseNode] at e
        cases e
        exact ⟨fun _ => rfl, by rintro (h | h) <;> simp at h⟩
      | cons parent stk =>
        simp only [parseStep, parseNode] at e
        cases e
        exact ⟨fun _ => rfl, by rintro (h | h) <;> simp at h⟩
    · cases cur with
      | none => simp only [parseStep, parseNode] at e; cases e
      | some t =>
        simp only [parseStep, parseNode] at e
        cases e
        exact ⟨fun _ => rfl, by rintro (h | h) <;> simp at h⟩
    · cases cn with
      | none => simp only [parseStep, parseNode] at e; cases e
      | some n =>
        simp only [parseStep, parseNode] at e
        cases e
        exact ⟨(by rintro (h | h) <;> cases h), fun _ => ⟨pre, _, rfl, Or.inl rfl⟩⟩
    · cases cp with
      | none => simp only [parseStep, parseNode] at e; cases e
      | some p =>
        simp only [parseStep, parseNode] at e
        cases e
        exact ⟨(by rintro (h | h) <;> cases h), fun _ => ⟨pre, _, rfl, Or.inr rfl⟩⟩

theorem parseLoop_propInv : ∀ (ls : List lexeme) {s s' : ParseVars} {pre : List lexeme},
    PropInv s pre → parseLoop s ls = .ok s' → PropInv s' (pre ++ ls)
  | [], s, s', pre, h, e => by
    simp only [parseLoop] at e
    cases e
    simpa using h
  | l :: rest, s, s', pre, h, e => by
    rw [parseLoop_cons] at e
    cases h1 : parseStep s l with
    | error _ => rw [h1] at e; cases e
    | panic => rw [h1] at e; cases e
    | ok s1 =>
      rw [h1] at e
      have := parseLoop_propInv rest (parseStep_propInv h h1) e
      simpa using this

/-- An identifier token is accepted only by leaving the parser in
`parserStateValue`, where only a value token is accepted; a value token is
accepted only in `parserStateValue` or with a current property. -/
theorem parseStep_property {s s' : ParseVars} {l : lexeme} (e : parseStep s l = .ok s') :
    (l.tokenType = tokenTypePropertyIdent → s'.state = parserStateValue) ∧
    (s.state = parserStateValue → l.tokenType = tokenTypePropertyValue) ∧
    (l.tokenType = tokenTypePropertyValue →
      s.state = parserStateValue ∨ s.curProperty ≠ none) := by
  obtain ⟨c, stk, cur, cn, cp, st⟩ := s
  obtain ⟨tt, d, ln, pos⟩ := l
  cases st <;> cases tt <;>
    simp only [parseStep, parseCollection, parseGameTree, parseValue, parseNode, ne_eq,
      not_true_eq_false, not_false_eq_true, if_true, if_false, reduceCtorEq] at e
  all_goals first
    | (cases cp <;> cases e <;> simp)
    | (cases cn <;> cases e <;> simp)
    | (cases cur <;> cases e <;> simp)
    | (cases stk <;> cases e <;> simp)

/-- The rules on properties that every sequence accepted by `parse` obeys:
every identifier token is directly followed by a value token, and every value
token is directly preceded by an identifier token or by a value token. -/
theorem parse_accepted_property_rules {ls : List lexeme} {c : Collection}
    (e : parse ls = .ok c) :
    (∀ pre l post, ls = pre ++ l :: post → l.tokenType = tokenTypePropertyIdent →
      ∃ v post', post = v :: post' ∧ v.tokenType = tokenTypePropertyValue) ∧
    (∀ pre l post, ls = pre ++ l :: post → l.tokenType = tokenTypePropertyValue →
      ∃ pre' k, pre = pre' ++ [k] ∧
        (k.tokenType = tokenTypePropertyIdent ∨ k.tokenType = tokenTypePropertyValue)) := by
  refine ⟨?_, ?_⟩
  · intro pre l post hls hl
    subst hls
    obtain ⟨s, s', h1, h2, hfin⟩ := @parse_split pre (l :: post) c e
    rw [parseLoop_cons] at h2
    cases h3 : parseStep s l with
    | error _ => rw [h3] at h2; cases h2
    | panic => rw [h3] at h2; cases h2
    | ok s1 =>
      rw [h3] at h2
      simp only at h2
      have hst := (parseStep_property h3).1 hl
      cases post with
      | nil =>
        simp only [parseLoop] at h2
        cases h2
        rw [hst] at hfin
        cases hfin
      | cons v post' =>
        rw [parseLoop_cons] at h2
        cases h4 : parseStep s1 v with
        | error _ => rw [h4] at h2; cases h2
        | panic => rw [h4] at h2; cases h2
        | ok s2 => exact ⟨v, post', rfl, (parseStep_property h4).2.1 hst⟩
  · intro pre l post hls hl
    subst hls
    obtain ⟨s, s', h1, h2, _⟩ := @parse_split pre (l :: post) c e
    have hinv := parseLoop_propInv pre parseInit_propInv h1
    simp only [List.nil_append] at hinv
    rw [parseLoop_cons] at h2
    cases h3 : parseStep s l with
    | error _ => rw [h3] at h2; cases h2
    | panic => rw [h3] at h2; cases h2
    | ok s1 => exact hinv.2 ((parseStep_property h3).2.2 hl)

/-- C21 (the code at the failing input): the tokens of `(;(;)FF;` hold a
property without a value (the identifier `FF` is followed by a node-start),
and those of `(;(;)A[1];[V])` a value without an identifier (directly after
a node-start); on both `parse` panics at the identifier that follows the end of
the nested tree, and returns no error.  The sequences of `(;FF;`, `(;[V]`
and `(;(;)[V])` are rejected with an error. -/
theorem C21_property_without_value_panics :
    ParseSgf "(;(;)FF;".toList = .panic ∧
    lexicalAnalysis "(;(;)FF;".toList =
      .ok [⟨tokenTypeGameTreeStart, [], 0, 1⟩, ⟨tokenTypeNode, [], 0, 2⟩,
           ⟨tokenTypeGameTreeStart, [], 0, 3⟩, ⟨tokenTypeNode, [], 0, 4⟩,
           ⟨tokenTypeGameTreeEnd, [], 0, 5⟩, ⟨tokenTypePropertyIdent, ['F', 'F'], 0, 8⟩,
           ⟨tokenTypeNode, [], 0, 8⟩] ∧
    parse [⟨tokenTypeGameTreeStart, [], 0, 1⟩, ⟨tokenTypeNode, [], 0, 2⟩,
           ⟨tokenTypeGameTreeStart, [], 0, 3⟩, ⟨tokenTypeNode, [], 0, 4⟩,
           ⟨tokenTypeGameTreeEnd, [], 0, 5⟩, ⟨tokenTypePropertyIdent, ['F', 'F'], 0, 8⟩,
           ⟨tokenTypeNode, [], 0, 8⟩] = .panic ∧
    ParseSgf "(;(;)A[1];[V])".toList = .panic ∧
    ParseSgf "(;FF;".toList =
      .error ⟨"After property ident there must be a value.", 0, 5⟩ ∧
    ParseSgf "(;[V]".toList =
      .error ⟨"Cannot have property value without property ident.", 0, 5⟩ ∧
    ParseSgf "(;(;)[V])".toList =
      .error ⟨"Cannot have property value without property ident.", 0, 8⟩ :=
  ⟨rfl, rfl, rfl, rfl, rfl, rfl, rfl⟩

/-! ## Parser: nesting of the trees -/

theorem depth_state {s : ParseVars} {pre : List lexeme} (h : DepthInv s pre) :
    s.state = parserStateCollection ↔ treeStarts pre = treeEnds pre := by
  obtain ⟨h1, h2, h3⟩ := h
  constructor
  · intro hs
    obtain ⟨hc, hk⟩ := h2 hs
    rw [hc, hk] at h1
    simpa using h1
  · intro he
    by_contra hs
    have hc := h3 hs
    cases hcur : s.curGameTree with
    | none => exact hc hcur
    | some t =>
      rw [hcur] at h1
      simp only [Option.toList, List.length_singleton] at h1
      omega

/-- C22 (the code at the counterexample): the tokens of `(F;;` end while the
tree opened by the first token is still open, and `parse` rejects them at the
identifier, with the error of a tree-start that is not followed by a
node-start and the place of the identifier, not with the error of a tree that
did not close and the place of the last token. -/
theorem C22_open_tree_rejected_earlier :
    lexicalAnalysis "(F;;".toList =
      .ok [⟨tokenTypeGameTreeStart, [], 0, 1⟩, ⟨tokenTypePropertyIdent, ['F'], 0, 3⟩,
           ⟨tokenTypeNode, [], 0, 3⟩, ⟨tokenTypeNode, [], 0, 4⟩] ∧
    parse [⟨tokenTypeGameTreeStart, [], 0, 1⟩, ⟨tokenTypePropertyIdent, ['F'], 0, 3⟩,
           ⟨tokenTypeNode, [], 0, 3⟩, ⟨tokenTypeNode, [], 0, 4⟩] =
      .error ⟨"New node must be next after game tree has started.", 0, 3⟩ ∧
    ParseSgf "(F;;".toList =
      .error ⟨"New node must be next after game tree has started.", 0, 3⟩ :=
  ⟨rfl, rfl, rfl⟩

/-- C22 (amended): a sequence that `parse` accepts has as many tree-end as
tree-start tokens, and no more tree-end than tree-start tokens in any of its
prefixes.  A sequence all of whose tokens the loop of `parse` accepts and that
ends while some tree is still open is rejected with the error
`Game tree did not close properly.` at the line and position of its last
token.  A tree-end token met when the tokens before it were accepted and no
tree is open is rejected with an error at its own place, and no sequence with
such a token is accepted. -/
theorem C22_trees_balanced :
    (∀ (ls : List lexeme) (c : Collection), parse ls = .ok c →
      treeStarts ls = treeEnds ls ∧
      ∀ pre post, ls = pre ++ post → treeEnds pre ≤ treeStarts pre) ∧
    (∀ (ls : List lexeme) (s : ParseVars), parseLoop parseInit ls = .ok s →
      treeStarts ls ≠ treeEnds ls →
      ∃ l, ls.getLast? = some l ∧
        parse ls = .error ⟨"Game tree did not close properly.", l.line, l.position⟩) ∧
    (∀ (pre post : List lexeme) (l : lexeme) (s : ParseVars),
      parseLoop parseInit pre = .ok s → treeStarts pre = treeEnds pre →
      l.tokenType = tokenTypeGameTreeEnd →
      parse (pre ++ l :: post) =
        .error ⟨"Collection must start with a new game tree.", l.line, l.position⟩) ∧
    (∀ (pre post : List lexeme) (l : lexeme) (c : Collection),
      treeStarts pre = treeEnds pre → l.tokenType = tokenTypeGameTreeEnd →
      parse (pre ++ l :: post) ≠ .ok c) := by
  have hprefix : ∀ (ls : List lexeme) (c : Collection), parse ls = .ok c →
      ∀ pre post, ls = pre ++ post → treeEnds pre ≤ treeStarts pre := by
    intro ls c e pre post hls
    subst hls
    obtain ⟨s, s', h1, _, _⟩ := @parse_split pre post c e
    have hinv := parseLoop_depth pre parseInit_depth h1
    simp only [List.nil_append] at hinv
    have := hinv.1
    omega
  refine ⟨?_, ?_, ?_, ?_⟩
  · intro ls c e
    refine ⟨?_, hprefix ls c e⟩
    obtain ⟨s, s', h1, h2, hfin⟩ := @parse_split ls [] c (by simpa using e)
    simp only [parseLoop] at h2
    cases h2
    have hinv := parseLoop_depth ls parseInit_depth h1
    simp only [List.nil_append] at hinv
    exact (depth_state hinv).1 hfin
  · intro ls s h hne
    have hinv := parseLoop_depth ls parseInit_depth h
    simp only [List.nil_append] at hinv
    have hst : s.state ≠ parserStateCollection := fun hs => hne ((depth_state hinv).1 hs)
    cases hl : ls.getLast? with
    | none =>
      rw [List.getLast?_eq_none_iff] at hl
      subst hl
      exact absurd rfl hne
    | some l =>
      refine ⟨l, rfl, ?_⟩
      unfold parse
      rw [h]
      simp only [parseFinish, ne_eq, hst, not_false_eq_true, if_true, hl, createParserError]
  · intro pre post l s h hbal hl
    have hinv := parseLoop_depth pre parseInit_depth h
    simp only [List.nil_append] at hinv
    have hst := (depth_state hinv).2 hbal
    unfold parse
    rw [parseLoop_append, h]
    simp only [Result.andThen]
    rw [parseLoop_cons]
    obtain ⟨c, stk, cur, cn, cp, st⟩ := s
    simp only at hst
    subst hst
    simp only [parseStep, parseCollection, hl, ne_eq, reduceCtorEq, not_false_eq_true, if_true,
      createParserError]
  · intro pre post l c hbal hl e
    have h := hprefix _ c e (pre ++ [l]) post (by simp)
    rw [treeStarts_append_singleton, treeEnds_append_singleton, hl] at h
    simp only [reduceCtorEq, if_false, if_true] at h
    omega

/-- Witness of C22 on the tokens of `(;`, of `(;)` and of `(;))`. -/
theorem C22_trees_balanced_witness :
    parse [⟨tokenTypeGameTreeStart, [], 0, 1⟩, ⟨tokenTypeNode, [], 0, 2⟩] =
      .error ⟨"Game tree did not close properly.", 0, 2⟩ ∧
    treeStarts [⟨tokenTypeGameTreeStart, [], 0, 1⟩, ⟨tokenTypeNode, [], 0, 2⟩,
      ⟨tokenTypeGameTreeEnd, [], 0, 3⟩] =
    treeEnds [⟨tokenTypeGameTreeStart, [], 0, 1⟩, ⟨tokenTypeNode, [], 0, 2⟩,
      ⟨tokenTypeGameTreeEnd, [], 0, 3⟩] ∧
    parse ([⟨tokenTypeGameTreeStart, [], 0, 1⟩, ⟨tokenTypeNode, [], 0, 2⟩,
      ⟨tokenTypeGameTreeEnd, [], 0, 3⟩] ++ ⟨tokenTypeGameTreeEnd, [], 0, 4⟩ :: []) =
      .error ⟨"Collection must start with a new game tree.", 0, 4⟩ := by
  obtain ⟨h1, h2, h3, _⟩ := C22_trees_balanced
  refine ⟨?_, ?_, ?_⟩
  · obtain ⟨l, hl, hp⟩ := h2 [⟨tokenTypeGameTreeStart, [], 0, 1⟩, ⟨tokenTypeNode, [], 0, 2⟩]
      _ rfl (by decide)
    cases hl
    exact hp
  · exact (h1 [⟨tokenTypeGameTreeStart, [], 0, 1⟩, ⟨tokenTypeNode, [], 0, 2⟩,
      ⟨tokenTypeGameTreeEnd, [], 0, 3⟩] ⟨[.mk [⟨[]⟩] []]⟩ rfl).1
  · exact h3 [⟨tokenTypeGameTreeStart, [], 0, 1⟩, ⟨tokenTypeNode, [], 0, 2⟩,
      ⟨tokenTypeGameTreeEnd, [], 0, 3⟩] [] ⟨tokenTypeGameTreeEnd, [], 0, 4⟩ _ rfl
      (by decide) rfl

/-! ## Serializer: newlines and indentation -/

theorem appendNodes_noNewLines {f : SgfFormat} (hf : f.NewLineBetweenGameTrees = false)
    (level : Nat) : ∀ (ns : List Node) (i : Nat),
    appendNodes f level i ns = render (nodesTokens ns)
  | [], _ => rfl
  | n :: ns, i => by
    simp [nodesTokens, render, renderToken, appendNodes, render_append,
      render_propertiesTokens, appendNodes_noNewLines hf level ns (i + 1), hf]

mutual
theorem appendGameTree_noNewLines {f : SgfFormat} (hf : f.NewLineBetweenGameTrees = false) :
    ∀ (g : GameTree) (level : Nat), appendGameTree f g level = render (gameTreeTokens g)
  | .mk ns gs, level => by
    simp [gameTreeTokens, render, renderToken, appendGameTree, render_append,
      appendNodes_noNewLines hf level ns 0, appendGameTrees_noNewLines hf gs (level + 1), hf]
theorem appendGameTrees_noNewLines {f : SgfFormat} (hf : f.NewLineBetweenGameTrees = false) :
    ∀ (gs : List GameTree) (level : Nat),
    appendGameTrees f gs level = render (gameTreesTokens gs)
  | [], _ => by simp [gameTreesTokens, render, appendGameTrees]
  | g :: gs, level => by
    simp [gameTreesTokens, appendGameTrees, render_append, appendGameTree_noNewLines hf g level,
      appendGameTrees_noNewLines hf gs level]
end

theorem Sgf_noNewLines (c : Collection) {f : SgfFormat}
    (hf : f.NewLineBetweenGameTrees = false) (hv : c.Valid = true) :
    c.Sgf f = .ok (render (gameTreesTokens c.GameTrees)) := by
  unfold Collection.Sgf
  rw [hv]
  simp only [Bool.not_true, Bool.false_eq_true, if_false]
  rw [appendGameTrees_noNewLines hf]

theorem blank_valuesTokens : ∀ (vs : List (List Char)),
    ∀ ch ∈ render ((valuesTokens vs).map lexeme.blankValue), ch = '[' ∨ ch = ']'
  | [], ch, h => by simp [valuesTokens, render] at h
  | v :: vs, ch, h => by
    simp only [valuesTokens, List.map_cons, render, lexeme.blankValue, if_true, renderToken,
      List.nil_append, List.cons_append, List.mem_cons] at h
    rcases h with h | h | h
    · exact Or.inl h
    · exact Or.inr h
    · exact blank_valuesTokens vs ch h

theorem blank_propertiesTokens : ∀ (ps : List Property),
    ∀ ch ∈ render ((propertiesTokens ps).map lexeme.blankValue),
      (ch = '[' ∨ ch = ']') ∨ ∃ p ∈ ps, ch ∈ p.Ident
  | [], ch, h => by simp [propertiesTokens, render] at h
  | p :: ps, ch, h => by
    simp only [propertiesTokens, List.map_cons, List.map_append, render, render_append,
      lexeme.blankValue, reduceCtorEq, if_false, renderToken, List.mem_append] at h
    rcases h with h | h | h
    · exact Or.inr ⟨p, by simp, h⟩
    · exact Or.inl (blank_valuesTokens p.Values ch h)
    · rcases blank_propertiesTokens ps ch h with h | ⟨q, hq, h⟩
      · exact Or.inl h
      · exact Or.inr ⟨q, by simp [hq], h⟩

theorem blank_nodesTokens : ∀ (ns : List Node),
    ∀ ch ∈ render ((nodesTokens ns).map lexeme.blankValue),
      (ch = ';' ∨ ch = '[' ∨ ch = ']') ∨ ∃ n ∈ ns, ∃ p ∈ n.Properties, ch ∈ p.Ident
  | [], ch, h => by simp [nodesTokens, render] at h
  | n :: ns, ch, h => by
    simp only [nodesTokens, List.map_cons, List.map_append, render, render_append,
      lexeme.blankValue, reduceCtorEq, if_false, renderToken, List.mem_append,
      List.singleton_append, List.mem_cons] at h
    rcases h with h | h | h
    · exact Or.inl (Or.inl h)
    · rcases blank_propertiesTokens n.Properties ch h with h | ⟨p, hp, h⟩
      · exact Or.inl (Or.inr h)
      · exact Or.inr ⟨n, by simp, p, hp, h⟩
    · rcases blank_nodesTokens ns ch h with h | ⟨m, hm, h⟩
      · exact Or.inl h
      · exact Or.inr ⟨m, by simp [hm], h⟩

mutual
theorem blank_gameTreeTokens : ∀ (g : GameTree),
    ∀ ch ∈ render ((gameTreeTokens g).map lexeme.blankValue),
      ch ∈ ['(', ')', ';', '[', ']'] ∨
        ∃ t ∈ g.subtrees, ∃ n ∈ t.Nodes, ∃ p ∈ n.Properties, ch ∈ p.Ident
  | .mk ns gs, ch, h => by
    simp only [gameTreeTokens, List.map_cons, List.map_append, render, render_append,
      lexeme.blankValue, reduceCtorEq, if_false, renderToken, List.mem_append,
      List.singleton_append, List.mem_cons, List.map_nil, List.append_nil,
      List.mem_singleton] at h
    rcases h with h | h | h | h
    · subst h; simp
    · rcases blank_nodesTokens ns ch h with h | ⟨n, hn, h⟩
      · rcases h with h | h | h <;> subst h <;> simp
      · exact Or.inr ⟨.mk ns gs, by simp [GameTree.subtrees], n, hn, h⟩
    · rcases blank_gameTreesTokens gs ch h with h | ⟨t, ht, h⟩
      · exact Or.inl h
      · exact Or.inr ⟨t, by simp [GameTree.subtrees, ht], h⟩
    · simp only [List.not_mem_nil, or_false] at h
      subst h; simp
theorem blank_gameTreesTokens : ∀ (gs : List GameTree),
    ∀ ch ∈ render ((gameTreesTokens gs).map lexeme.blankValue),
      ch ∈ ['(', ')', ';', '[', ']'] ∨
        ∃ t ∈ subtreesOfList gs, ∃ n ∈ t.Nodes, ∃ p ∈ n.Properties, ch ∈ p.Ident
  | [], ch, h => by simp [gameTreesTokens, render] at h
  | g :: gs, ch, h => by
    simp only [gameTreesTokens, List.map_append, render_append, List.mem_append] at h
    rcases h with h | h
    · rcases blank_gameTreeTokens g ch h with h | ⟨t, ht, h⟩
      · exact Or.inl h
      · exact Or.inr ⟨t, by simp [subtreesOfList, ht], h⟩
    · rcases blank_gameTreesTokens gs ch h with h | ⟨t, ht, h⟩
      · exact Or.inl h
      · exact Or.inr ⟨t, by simp [subtreesOfList, ht], h⟩
end

/-- C26 (the code at the counterexample): the collection with the one
property whose ident is a space and whose only value is the empty string is
valid, and `Sgf` writes it with `NoNewLinesSgfFormat` as `(; [])`, a text with
a space that is not inside a property value. -/
theorem C26_space_in_ident :
    Collection.Valid ⟨[.mk [⟨[⟨[' '], [[]]⟩]⟩] []]⟩ = true ∧
    Collection.Sgf ⟨[.mk [⟨[⟨[' '], [[]]⟩]⟩] []]⟩ NoNewLinesSgfFormat =
      .ok ['(', ';', ' ', '[', ']', ')'] := by
  decide

/-- C26 (amended): for a valid collection and two formats that both have
`NewLineBetweenGameTrees = false`, `Sgf` returns the same text, that of
`NoNewLinesSgfFormat`, whatever `NewLineAlsoBetweenNodes` and
`IndentationLevel` are.  This text is the text of the tokens of the collection
written one after the other, and with the content of the values left out every
rune of it is one of `(`, `)`, `;`, `[`, `]` or a rune of a property ident: a
newline or space of the text lies inside a property ident or a property
value. -/
theorem C26_format_without_new_lines (c : Collection) (f g : SgfFormat)
    (hv : c.Valid = true) (hf : f.NewLineBetweenGameTrees = false)
    (hg : g.NewLineBetweenGameTrees = false) :
    c.Sgf f = c.Sgf g ∧ c.Sgf f = c.Sgf NoNewLinesSgfFormat ∧
    c.Sgf f = .ok (render (gameTreesTokens c.GameTrees)) ∧
    ∀ ch ∈ render ((gameTreesTokens c.GameTrees).map lexeme.blankValue),
      ch ∈ ['(', ')', ';', '[', ']'] ∨
        ∃ t ∈ c.allGameTrees, ∃ n ∈ t.Nodes, ∃ p ∈ n.Properties, ch ∈ p.Ident := by
  have h0 : NoNewLinesSgfFormat.NewLineBetweenGameTrees = false := rfl
  refine ⟨?_, ?_, Sgf_noNewLines c hf hv, blank_gameTreesTokens c.GameTrees⟩
  · rw [Sgf_noNewLines c hf hv, Sgf_noNewLines c hg hv]
  · rw [Sgf_noNewLines c hf hv, Sgf_noNewLines c h0 hv]

/-- Witness of C26 on the collection of `(;FF[4];B[a b])` and the formats
with no newline between game trees, one of them asking for newlines between
nodes and an indentation of four. -/
theorem C26_format_without_new_lines_witness :
    Collection.Sgf ⟨[.mk [⟨[⟨['F', 'F'], [['4']]⟩]⟩, ⟨[⟨['B'], [['a', ' ', 'b']]⟩]⟩] []]⟩
        ⟨false, true, 4⟩ =
      Collection.Sgf ⟨[.mk [⟨[⟨['F', 'F'], [['4']]⟩]⟩, ⟨[⟨['B'], [['a', ' ', 'b']]⟩]⟩] []]⟩
        ⟨false, false, 0⟩ :=
  (C26_format_without_new_lines
    ⟨[.mk [⟨[⟨['F', 'F'], [['4']]⟩]⟩, ⟨[⟨['B'], [['a', ' ', 'b']]⟩]⟩] []]⟩
    ⟨false, true, 4⟩ ⟨false, false, 0⟩ rfl rfl rfl).1

/-- C25 (the code at the failing input): every root tree is written at level
0, where no newline is written, so `(` is the first rune written for it
whatever the format is; the collection of the two root trees `(;A[1])` and
`(;B[2])`, which `ParseSgf` returns on the two-line text, is written with
`DefaultSgfFormat` on one line.  A child tree (level above 0) is written
after a newline and its indentation when `NewLineBetweenGameTrees` is set. -/
theorem C25_root_trees_share_a_line :
    (∀ (f : SgfFormat) (g : GameTree), ∃ rest, appendGameTree f g 0 = '(' :: rest) ∧
    (∀ (b : Bool) (k : Int) (g : GameTree) (level : Nat), ∃ rest,
      appendGameTree ⟨true, b, k⟩ g (level + 1) =
        '\n' :: (indentation ⟨true, b, k⟩ (level + 1) ++ '(' :: rest)) ∧
    ParseSgf "(;A[1])\n(;B[2])".toList =
      .ok ⟨[.mk [⟨[⟨['A'], [['1']]⟩]⟩] [], .mk [⟨[⟨['B'], [['2']]⟩]⟩] []]⟩ ∧
    Collection.Sgf ⟨[.mk [⟨[⟨['A'], [['1']]⟩]⟩] [], .mk [⟨[⟨['B'], [['2']]⟩]⟩] []]⟩
      DefaultSgfFormat = .ok "(;A[1])(;B[2])".toList ∧
    Collection.Sgf ⟨[.mk [⟨[⟨['A'], [['1']]⟩]⟩] [.mk [⟨[⟨['C'], [['3']]⟩]⟩] []],
        .mk [⟨[⟨['B'], [['2']]⟩]⟩] []]⟩
      DefaultSgfFormat = .ok "(;A[1]\n    (;C[3]))(;B[2])".toList := by
  refine ⟨?_, ?_, rfl, by decide, by decide⟩
  · intro f g
    cases g with
    | mk ns gs =>
      refine ⟨appendNodes f 0 0 ns ++ (appendGameTrees f gs 1 ++ [')']), ?_⟩
      simp [appendGameTree]
  · intro b k g level
    cases g with
    | mk ns gs =>
      refine ⟨appendNodes ⟨true, b, k⟩ (level + 1) 0 ns ++
        (appendGameTrees ⟨true, b, k⟩ gs (level + 1 + 1) ++ [')']), ?_⟩
      simp [appendGameTree]

/-! ## Lexer: the line counter -/

/-- C30 (the code at the failing input): a step of the lexer inside a value
leaves the line counter as it is, whatever the rune is.  In `(;C[a\nb];` the
value token and the node-start token after it are recorded at line 0 although
a line feed precedes them; on `(;C[\n]x` the lexer error and on `(;C[\n]` the
parser error report line 0; the same line feed outside the value, in
`(;C[]\nx`, is counted. -/
theorem C30_line_breaks_in_values_not_counted :
    (∀ (r : List lexeme) (d : List Char) (b : Bool) (ln pos : Nat) (c : Char),
      ∃ s', lexStep ⟨r, d, b, ln, pos, lexerStatePropertyValue⟩ c = .ok s' ∧ s'.line = ln) ∧
    lexicalAnalysis "(;C[a\nb];".toList =
      .ok [⟨tokenTypeGameTreeStart, [], 0, 1⟩, ⟨tokenTypeNode, [], 0, 2⟩,
           ⟨tokenTypePropertyIdent, ['C'], 0, 4⟩,
           ⟨tokenTypePropertyValue, ['a', '\n', 'b'], 0, 8⟩, ⟨tokenTypeNode, [], 0, 9⟩] ∧
    ParseSgf "(;C[\n]x".toList = .error ⟨invalidCharacter 'x', 0, 7⟩ ∧
    ParseSgf "(;C[\n]".toList = .error ⟨"Game tree did not close properly.", 0, 6⟩ ∧
    ParseSgf "(;C[]\nx".toList = .error ⟨invalidCharacter 'x', 1, 7⟩ := by
  refine ⟨?_, rfl, rfl, rfl, rfl⟩
  intro r d b ln pos c
  simp only [lexStep, lexValue]
  split_ifs <;> exact ⟨_, rfl, rfl⟩

/-! ## Round trip and validity of parsed collections -/

/-- C32: a collection that `ParseSgf` returns and that has at least one game
tree satisfies `Valid`: every tree of it, at every depth, has at least one
node, every property has a non-empty ident and at least one value, and `Sgf`
returns its text for every format, without panic. -/
theorem C32_parsed_collection_valid_nonempty (data : List Char) (c : Collection)
    (e : ParseSgf data = .ok c) (hne : c.GameTrees ≠ []) :
    c.Valid = true ∧
    (∀ t ∈ c.allGameTrees, t.Nodes ≠ [] ∧
      ∀ n ∈ t.Nodes, ∀ p ∈ n.Properties, p.Ident ≠ [] ∧ p.Values ≠ []) ∧
    ∀ f : SgfFormat, c.Sgf f = .ok (appendGameTrees f c.GameTrees 0) := by
  have hv : c.Valid = true := (ParseSgf_valid_iff e).mpr hne
  refine ⟨hv, ?_, ?_⟩
  · intro t ht
    exact (not_defective_iff t).mp (((valid_iff c).mp hv).2 t ht)
  · intro f
    unfold Collection.Sgf
    simp only [hv, Bool.not_true, Bool.false_eq_true, if_false]

/-- Witness of C32 on the text `(;F[4](;B[]))`. -/
theorem C32_parsed_collection_valid_nonempty_witness :
    Collection.Valid ⟨[.mk [⟨[⟨['F'], [['4']]⟩]⟩] [.mk [⟨[⟨['B'], [[]]⟩]⟩] []]]⟩ = true ∧
    Collection.Sgf ⟨[.mk [⟨[⟨['F'], [['4']]⟩]⟩] [.mk [⟨[⟨['B'], [[]]⟩]⟩] []]]⟩
        NoNewLinesSgfFormat =
      .ok (appendGameTrees NoNewLinesSgfFormat
        (Collection.GameTrees ⟨[.mk [⟨[⟨['F'], [['4']]⟩]⟩] [.mk [⟨[⟨['B'], [[]]⟩]⟩] []]]⟩) 0) :=
  have h := C32_parsed_collection_valid_nonempty
    ['(', ';', 'F', '[', '4', ']', '(', ';', 'B', '[', ']', ')', ')']
    ⟨[.mk [⟨[⟨['F'], [['4']]⟩]⟩] [.mk [⟨[⟨['B'], [[]]⟩]⟩] []]]⟩ rfl (by simp)
  ⟨h.1, h.2.2 NoNewLinesSgfFormat⟩

/-! ## Go strings as bytes -/

section BytesTheory
open Bytes

theorem char_toNat_valid (c : Char) :
    c.toNat < 0xD800 ∨ (0xDFFF < c.toNat ∧ c.toNat < 0x110000) := c.valid

theorem runesFrom_skip : ∀ (pre rest : List Byte),
    runesFrom pre.length (pre ++ rest) = runesFrom 0 rest
  | [], rest => rfl
  | _ :: pre, rest => by
    simp only [List.length_cons, List.cons_append, runesFrom]
    exact runesFrom_skip pre rest

theorem runes_cons (b0 : Byte) (rest : List Byte) :
    runes (b0 :: rest) = (decodeRune b0 rest).1 :: runesFrom ((decodeRune b0 rest).2 - 1) rest :=
  rfl

theorem runes_cons_of_lt (b0 : Byte) (rest : List Byte) (h : b0.val < 0x80) :
    runes (b0 :: rest) = Char.ofNat b0.val :: runes rest := by
  rw [runes_cons]
  simp only [decodeRune, if_pos h]
  rfl

theorem runes_two (b0 b1 : Byte) (rest : List Byte) (h0 : 0xC2 ≤ b0.val) (h1 : b0.val < 0xE0)
    (h2 : 0x80 ≤ b1.val ∧ b1.val ≤ 0xBF) :
    runes (b0 :: b1 :: rest) = Char.ofNat (b0.val % 32 * 64 + b1.val % 64) :: runes rest := by
  have hc : isCont b1 = true := by simp [isCont, h2]
  rw [runes_cons]
  simp only [decodeRune, if_neg (show ¬ b0.val < 0x80 by omega),
    if_neg (show ¬ b0.val < 0xC2 by omega), if_pos h1, hc, if_true]
  exact congrArg _ (runesFrom_skip [b1] rest)

theorem runes_three (b0 b1 b2 : Byte) (rest : List Byte) (h0 : 0xE0 ≤ b0.val)
    (h1 : b0.val < 0xF0)
    (hlo : (if b0.val = 0xE0 then 0xA0 else 0x80) ≤ b1.val)
    (hhi : b1.val ≤ (if b0.val = 0xED then 0x9F else 0xBF))
    (h2 : 0x80 ≤ b2.val ∧ b2.val ≤ 0xBF) :
    runes (b0 :: b1 :: b2 :: rest) =
      Char.ofNat (b0.val % 16 * 4096 + b1.val % 64 * 64 + b2.val % 64) :: runes rest := by
  have hc : isCont b2 = true := by simp [isCont, h2]
  rw [runes_cons]
  simp only [decodeRune, if_neg (show ¬ b0.val < 0x80 by omega),
    if_neg (show ¬ b0.val < 0xC2 by omega), if_neg (show ¬ b0.val < 0xE0 by omega), if_pos h1,
    hc, hlo, hhi, and_self, if_true]
  exact congrArg _ (runesFrom_skip [b1, b2] rest)

theorem runes_four (b0 b1 b2 b3 : Byte) (rest : List Byte) (h0 : 0xF0 ≤ b0.val)
    (h1 : b0.val < 0xF5)
    (hlo : (if b0.val = 0xF0 then 0x90 else 0x80) ≤ b1.val)
    (hhi : b1.val ≤ (if b0.val = 0xF4 then 0x8F else 0xBF))
    (h2 : 0x80 ≤ b2.val ∧ b2.val ≤ 0xBF) (h3 : 0x80 ≤ b3.val ∧ b3.val ≤ 0xBF) :
    runes (b0 :: b1 :: b2 :: b3 :: rest) =
      Char.ofNat (b0.val % 8 * 262144 + b1.val % 64 * 4096 + b2.val % 64 * 64 + b3.val % 64)
        :: runes rest := by
  have hc2 : isCont b2 = true := by simp [isCont, h2]
  have hc3 : isCont b3 = true := by simp [isCont, h3]
  rw [runes_cons]
  simp only [decodeRune, if_neg (show ¬ b0.val < 0x80 by omega),
    if_neg (show ¬ b0.val < 0xC2 by omega), if_neg (show ¬ b0.val < 0xE0 by omega),
    if_neg (show ¬ b0.val < 0xF0 by omega), if_pos h1, hc2, hc3, hlo, hhi, and_self, if_true]
  exact congrArg _ (runesFrom_skip [b1, b2, b3] rest)

theorem byte_val (n : Nat) : (byte n).val = n % 256 := rfl

/-- What `range` yields on `string(c)` followed by more bytes: the rune `c`,
then the runes of the bytes that follow. -/
theorem runes_runeString (c : Char) (rest : List Byte) :
    runes (runeString c ++ rest) = c :: runes rest := by
  have hv := char_toNat_valid c
  unfold runeString
  by_cases h1 : c.toNat < 0x80
  · rw [if_pos h1, List.singleton_append, runes_cons_of_lt _ _ (by rw [byte_val]; omega)]
    rw [byte_val, Nat.mod_eq_of_lt (by omega), Char.ofNat_toNat]
  · rw [if_neg h1]
    by_cases h2 : c.toNat < 0x800
    · rw [if_pos h2]
      simp only [List.cons_append, List.nil_append]
      rw [runes_two _ _ _ (by rw [byte_val]; omega) (by rw [byte_val]; omega)
        (by rw [byte_val]; omega)]
      have : (byte (0xC0 + c.toNat / 64)).val % 32 * 64 +
          (byte (0x80 + c.toNat % 64)).val % 64 = c.toNat := by
        rw [byte_val, byte_val]; omega
      rw [this, Char.ofNat_toNat]
    · rw [if_neg h2]
      by_cases h3 : c.toNat < 0x10000
      · rw [if_pos h3]
        simp only [List.cons_append, List.nil_append]
        rw [runes_three _ _ _ _ (by rw [byte_val]; omega) (by rw [byte_val]; omega)
          (by rw [byte_val, byte_val]; split_ifs <;> omega)
          (by rw [byte_val, byte_val]; split_ifs <;> omega)
          (by rw [byte_val]; omega)]
        have : (byte (0xE0 + c.toNat / 4096)).val % 16 * 4096 +
            (byte (0x80 + c.toNat / 64 % 64)).val % 64 * 64 +
            (byte (0x80 + c.toNat % 64)).val % 64 = c.toNat := by
          rw [byte_val, byte_val, byte_val]; omega
        rw [this, Char.ofNat_toNat]
      · rw [if_neg h3]
        simp only [List.cons_append, List.nil_append]
        rw [runes_four _ _ _ _ _ (by rw [byte_val]; omega) (by rw [byte_val]; omega)
          (by rw [byte_val, byte_val]; split_ifs <;> omega)
          (by rw [byte_val, byte_val]; split_ifs <;> omega)
          (by rw [byte_val]; omega) (by rw [byte_val]; omega)]
        have : (byte (0xF0 + c.toNat / 262144)).val % 8 * 262144 +
            (byte (0x80 + c.toNat / 4096 % 64)).val % 64 * 4096 +
            (byte (0x80 + c.toNat / 64 % 64)).val % 64 * 64 +
            (byte (0x80 + c.toNat % 64)).val % 64 = c.toNat := by
          rw [byte_val, byte_val, byte_val, byte_val]; omega
        rw [this, Char.ofNat_toNat]

theorem runes_goString : ∀ cs : List Char, runes (goString cs) = cs
  | [] => rfl
  | c :: cs => by rw [goString, runes_runeString, runes_goString cs]

theorem goString_append : ∀ a b : List Char, goString (a ++ b) = goString a ++ goString b
  | [], b => rfl
  | c :: a, b => by simp [goString, goString_append a b]

theorem runeString_ne_nil (c : Char) : runeString c ≠ [] := by
  unfold runeString
  split_ifs <;> simp

theorem goString_eq_nil {cs : List Char} : goString cs = [] ↔ cs = [] := by
  cases cs with
  | nil => simp [goString]
  | cons c cs => simp [goString, runeString_ne_nil]

theorem goString_injective {a b : List Char} (h : goString a = goString b) : a = b := by
  rw [← runes_goString a, ← runes_goString b, h]

theorem isUTF8_goString (cs : List Char) : IsUTF8 (goString cs) := by
  unfold IsUTF8
  rw [runes_goString]

/-- A string is valid UTF-8 exactly when it is the concatenation of the
encodings of a sequence of runes. -/
theorem isUTF8_iff (s : List Byte) : IsUTF8 s ↔ ∃ cs, goString cs = s :=
  ⟨fun h => ⟨runes s, h⟩, fun ⟨cs, h⟩ => h ▸ isUTF8_goString cs⟩

/-! ### The lexer on bytes and on runes -/

theorem goString_singleton (c : Char) : goString [c] = runeString c := by
  simp [goString]

theorem toBytes_lexControl (s : LexVars) (c : Char) :
    Bytes.lexControl s.toBytes c = (lexControl s c).map LexVars.toBytes := by
  obtain ⟨r, d, b, ln, pos, st⟩ := s
  simp only [Bytes.lexControl, lexControl, LexVars.toBytes, ne_eq, goString_eq_nil]
  by_cases hsep : isSeparator c = true
  · simp only [hsep, if_true]
    by_cases hd : d = []
    · simp [hd, Result.map, LexVars.toBytes, goString]
    · simp [hd, Result.map]
  · simp only [hsep, Bool.false_eq_true, if_false]
    by_cases hst : c = '(' ∨ c = ')' ∨ c = ';'
    · simp only [hst, if_true]
      cases runeToTokenType c with
      | none => rfl
      | some tt =>
        by_cases hd : d = []
        · simp [hd, Result.map, LexVars.toBytes, lexeme.toBytes, goString]
        · simp [hd, Result.map, LexVars.toBytes, lexeme.toBytes, goString]
    · simp only [hst, if_false]
      by_cases hbr : c = '['
      · simp only [hbr, if_true]
        by_cases hd : d = []
        · simp [hd, Result.map, LexVars.toBytes, goString]
        · simp only [hd, not_false_eq_true, if_true]
          cases runeToTokenType '[' with
          | none => rfl
          | some tt => simp [Result.map, LexVars.toBytes, lexeme.toBytes, goString]
      · simp only [hbr, if_false]
        by_cases hup : c < 'A' ∨ c > 'Z'
        · simp [hup, Result.map]
        · simp [hup, Result.map, LexVars.toBytes, goString_append, goString]

theorem toBytes_lexValue (s : LexVars) (c : Char) :
    Bytes.lexValue s.toBytes c = (lexValue s c).map LexVars.toBytes := by
  obtain ⟨r, d, b, ln, pos, st⟩ := s
  simp only [Bytes.lexValue, lexValue, LexVars.toBytes]
  by_cases h1 : c = '\\'
  · cases b <;> simp [h1, Result.map, LexVars.toBytes, goString_append, goString]
  · by_cases h2 : c = ']'
    · cases b <;>
        simp [h2, Result.map, LexVars.toBytes, lexeme.toBytes, goString_append, goString]
    · simp [h1, h2, Result.map, LexVars.toBytes, goString_append, goString]

theorem toBytes_lexStep (s : LexVars) (c : Char) :
    Bytes.lexStep s.toBytes c = (lexStep s c).map LexVars.toBytes := by
  have h1 := toBytes_lexControl s c
  have h2 := toBytes_lexValue s c
  obtain ⟨r, d, b, ln, pos, st⟩ := s
  cases st
  · exact h1
  · exact h2

theorem toBytes_lexLoop : ∀ (cs : List Char) (s : LexVars),
    Bytes.lexLoop s.toBytes cs = (lexLoop s cs).map LexVars.toBytes
  | [], s => rfl
  | c :: cs, s => by
    rw [lexLoop_cons]
    simp only [Bytes.lexLoop]
    rw [toBytes_lexStep]
    cases h : lexStep s c with
    | ok s1 => exact toBytes_lexLoop cs s1
    | error e => rfl
    | panic => rfl

theorem toBytes_lexFinish (s : LexVars) :
    Bytes.lexFinish s.toBytes = (lexFinish s).map (List.map lexeme.toBytes) := by
  obtain ⟨r, d, b, ln, pos, st⟩ := s
  simp only [Bytes.lexFinish, lexFinish, LexVars.toBytes, ne_eq, goString_eq_nil]
  by_cases hd : d = []
  · simp [hd, Result.map]
  · cases st <;> simp [hd, Result.map, lexeme.toBytes]

/-- The lexer on a string returns the tokens that the lexer on runes returns
on the runes of the string, with their data as strings. -/
theorem lexicalAnalysis_bytes (data : List Byte) :
    Bytes.lexicalAnalysis data =
      (lexicalAnalysis (runes data)).map (List.map lexeme.toBytes) := by
  unfold Bytes.lexicalAnalysis lexicalAnalysis
  have h := toBytes_lexLoop (runes data) lexInit
  have h0 : lexInit.toBytes = Bytes.lexInit := rfl
  rw [h0] at h
  rw [h]
  cases h1 : lexLoop lexInit (runes data) with
  | ok s => exact toBytes_lexFinish s
  | error e => rfl
  | panic => rfl

/-! ### The parser on bytes and on runes -/

theorem gameTreesToBytes_eq_map : ∀ gs : List GameTree,
    gameTreesToBytes gs = gs.map GameTree.toBytes
  | [] => rfl
  | g :: gs => by simp [gameTreesToBytes, gameTreesToBytes_eq_map gs]

theorem gameTreesToBytes_append (a b : List GameTree) :
    gameTreesToBytes (a ++ b) = gameTreesToBytes a ++ gameTreesToBytes b := by
  simp [gameTreesToBytes_eq_map]

theorem toBytes_Nodes (t : GameTree) : t.toBytes.Nodes = t.Nodes.map Node.toBytes := by
  cases t; rfl

theorem toBytes_GameTrees (t : GameTree) :
    t.toBytes.GameTrees = gameTreesToBytes t.GameTrees := by
  cases t; rfl

theorem toBytes_closeNode (n : Node) (cp : Option Property) :
    (closeNode n cp).toBytes = Bytes.closeNode n.toBytes (cp.map Property.toBytes) := by
  cases cp <;> simp [closeNode, Bytes.closeNode, Node.toBytes]

theorem toBytes_closeGameTree (t : GameTree) (cn : Option Node) (cp : Option Property) :
    (closeGameTree t cn cp).toBytes =
      Bytes.closeGameTree t.toBytes (cn.map Node.toBytes) (cp.map Property.toBytes) := by
  cases t with
  | mk ns gs =>
    cases cn with
    | none => simp [closeGameTree, Bytes.closeGameTree, GameTree.toBytes, Bytes.GameTree.Nodes,
        Bytes.GameTree.GameTrees]
    | some n =>
      simp [closeGameTree, Bytes.closeGameTree, GameTree.toBytes, Bytes.GameTree.Nodes,
        Bytes.GameTree.GameTrees, toBytes_closeNode]

theorem toBytes_addChild (t child : GameTree) :
    (addChild t child).toBytes = Bytes.addChild t.toBytes child.toBytes := by
  cases t with
  | mk ns gs =>
    simp [addChild, Bytes.addChild, GameTree.toBytes, Bytes.GameTree.Nodes,
      Bytes.GameTree.GameTrees, gameTreesToBytes_append, gameTreesToBytes]

theorem toBytes_emptyNode : (Node.mk []).toBytes = Bytes.Node.mk [] := rfl

theorem toBytes_emptyTree : (GameTree.mk [] []).toBytes = Bytes.GameTree.mk [] [] := rfl

theorem toBytes_parseStep (s : ParseVars) (l : lexeme) :
    Bytes.parseStep s.toBytes l.toBytes = (parseStep s l).map ParseVars.toBytes := by
  obtain ⟨c, stk, cur, cn, cp, st⟩ := s
  obtain ⟨tt, d, ln, pos⟩ := l
  cases st <;> cases tt <;>
    simp only [Bytes.parseStep, parseStep, ParseVars.toBytes, lexeme.toBytes,
      Bytes.parseCollection, parseCollection, Bytes.parseGameTree, parseGameTree,
      Bytes.parseValue, parseValue, Bytes.parseNode, parseNode, ne_eq, not_true_eq_false,
      not_false_eq_true, if_true, if_false, reduceCtorEq, Result.map,
      Bytes.createParserError, createParserError]
  all_goals first
    | rfl
    | (cases cur <;> simp [Result.map, ParseVars.toBytes, toBytes_closeGameTree,
        gameTreesToBytes, toBytes_emptyNode, toBytes_emptyTree]; done)
    | (cases cp <;> simp [Result.map, ParseVars.toBytes, Property.toBytes]; done)
    | (cases cn <;> simp [Result.map, ParseVars.toBytes, toBytes_closeNode,
        Property.toBytes]; done)
    | (cases stk <;> cases cur <;>
        simp [Result.map, ParseVars.toBytes, toBytes_closeGameTree, toBytes_addChild,
          gameTreesToBytes, gameTreesToBytes_append, toBytes_emptyNode, toBytes_emptyTree])

theorem toBytes_parseLoop : ∀ (ls : List lexeme) (s : ParseVars),
    Bytes.parseLoop s.toBytes (ls.map lexeme.toBytes) =
      (parseLoop s ls).map ParseVars.toBytes
  | [], s => rfl
  | l :: ls, s => by
    rw [parseLoop_cons]
    simp only [List.map_cons, Bytes.parseLoop]
    rw [toBytes_parseStep]
    cases h : parseStep s l with
    | ok s1 => exact toBytes_parseLoop ls s1
    | error e => rfl
    | panic => rfl

theorem toBytes_parseFinish (s : ParseVars) (ls : List lexeme) :
    Bytes.parseFinish s.toBytes (ls.map lexeme.toBytes) =
      (parseFinish s ls).map Collection.toBytes := by
  obtain ⟨c, stk, cur, cn, cp, st⟩ := s
  simp only [Bytes.parseFinish, parseFinish, ParseVars.toBytes, List.getLast?_map]
  cases st <;> cases ls.getLast? <;>
    simp [Result.map, Collection.toBytes, Bytes.createParserError, createParserError,
      lexeme.toBytes]

theorem parse_bytes (ls : List lexeme) :
    Bytes.parse (ls.map lexeme.toBytes) = (parse ls).map Collection.toBytes := by
  unfold Bytes.parse parse
  have h := toBytes_parseLoop ls parseInit
  have h0 : parseInit.toBytes = Bytes.parseInit := rfl
  rw [h0] at h
  rw [h]
  cases h1 : parseLoop parseInit ls with
  | ok s => exact toBytes_parseFinish s ls
  | error e => rfl
  | panic => rfl

/-- `ParseSgf` on a string returns what `ParseSgf` on runes returns on the
runes of the string, with the strings of the collection as bytes. -/
theorem ParseSgf_bytes (data : List Byte) :
    Bytes.ParseSgf data = (ParseSgf (runes data)).map Collection.toBytes := by
  unfold Bytes.ParseSgf ParseSgf
  rw [lexicalAnalysis_bytes]
  cases h : lexicalAnalysis (runes data) with
  | ok ls => exact parse_bytes ls
  | error e => rfl
  | panic => rfl

/-! ### The validator and the serializer on bytes and on runes -/

theorem toBytes_validProperty (p : Property) :
    Bytes.validProperty p.toBytes = validProperty p := by
  simp only [Bytes.validProperty, validProperty, Property.toBytes, goString_eq_nil,
    List.length_map]

theorem toBytes_all_properties : ∀ ps : List Property,
    (ps.map Property.toBytes).all Bytes.validProperty = ps.all validProperty
  | [] => rfl
  | p :: ps => by
    simp only [List.map_cons, List.all_cons, toBytes_validProperty, toBytes_all_properties ps]

theorem toBytes_all_validProperty : ∀ ns : List Node,
    ((ns.map Node.toBytes).all fun node => node.Properties.all Bytes.validProperty) =
      ns.all fun node => node.Properties.all validProperty
  | [] => rfl
  | n :: ns => by
    simp only [List.map_cons, List.all_cons, toBytes_all_validProperty ns, Node.toBytes,
      toBytes_all_properties]

mutual
theorem toBytes_validGameTree : ∀ g : GameTree,
    Bytes.validGameTree g.toBytes = validGameTree g
  | .mk ns gs => by
    simp only [GameTree.toBytes, Bytes.validGameTree, validGameTree, List.length_map,
      toBytes_all_validProperty, toBytes_validGameTrees gs]
theorem toBytes_validGameTrees : ∀ gs : List GameTree,
    Bytes.validGameTrees (gameTreesToBytes gs) = validGameTrees gs
  | [] => rfl
  | g :: gs => by
    simp only [gameTreesToBytes, Bytes.validGameTrees, validGameTrees, toBytes_validGameTree g,
      toBytes_validGameTrees gs]
end

theorem gameTreesToBytes_length (gs : List GameTree) :
    (gameTreesToBytes gs).length = gs.length := by
  simp [gameTreesToBytes_eq_map]

theorem toBytes_Valid (c : Collection) : c.toBytes.Valid = c.Valid := by
  simp only [Bytes.Collection.Valid, Collection.Valid, Collection.toBytes,
    gameTreesToBytes_length, toBytes_validGameTrees]

theorem goString_cons (c : Char) (cs : List Char) :
    goString (c :: cs) = runeString c ++ goString cs := rfl

theorem toBytes_indentation (f : SgfFormat) (level : Nat) :
    Bytes.indentation f level = goString (indentation f level) := by
  unfold Bytes.indentation indentation
  induction level * f.IndentationLevel.toNat with
  | zero => rfl
  | succ n ih =>
    simp only [List.replicate_succ, List.flatten_cons, goString_cons, Bytes.writeRune] at ih ⊢
    rw [ih]

theorem toBytes_appendValues : ∀ vs : List (List Char),
    Bytes.appendValues (vs.map goString) = goString (appendValues vs)
  | [] => rfl
  | v :: vs => by
    simp [Bytes.appendValues, appendValues, toBytes_appendValues vs, goString_cons,
      goString_append, Bytes.writeRune]

theorem toBytes_appendProperties : ∀ ps : List Property,
    Bytes.appendProperties (ps.map Property.toBytes) = goString (appendProperties ps)
  | [] => rfl
  | p :: ps => by
    simp [Bytes.appendProperties, appendProperties, toBytes_appendProperties ps,
      Property.toBytes, toBytes_appendValues, goString_append]

theorem toBytes_appendNodes (f : SgfFormat) (level : Nat) : ∀ (ns : List Node) (i : Nat),
    Bytes.appendNodes f level i (ns.map Node.toBytes) = goString (appendNodes f level i ns)
  | [], _ => rfl
  | n :: ns, i => by
    simp only [List.map_cons, Bytes.appendNodes, appendNodes, toBytes_appendNodes f level ns,
      Node.toBytes, toBytes_appendProperties, toBytes_indentation, goString_append,
      goString_cons, Bytes.writeRune]
    split_ifs <;> simp [goString_cons, goString_append, goString]

mutual
theorem toBytes_appendGameTree (f : SgfFormat) : ∀ (g : GameTree) (level : Nat),
    Bytes.appendGameTree f g.toBytes level = goString (appendGameTree f g level)
  | .mk ns gs, level => by
    simp only [GameTree.toBytes, Bytes.appendGameTree, appendGameTree, toBytes_appendNodes,
      toBytes_appendGameTrees f gs (level + 1), toBytes_indentation, goString_append,
      goString_cons, Bytes.writeRune]
    split_ifs <;> simp [goString_cons, goString_append, goString]
theorem toBytes_appendGameTrees (f : SgfFormat) : ∀ (gs : List GameTree) (level : Nat),
    Bytes.appendGameTrees f (gameTreesToBytes gs) level =
      goString (appendGameTrees f gs level)
  | [], _ => rfl
  | g :: gs, level => by
    simp only [gameTreesToBytes, Bytes.appendGameTrees, appendGameTrees,
      toBytes_appendGameTree f g level, toBytes_appendGameTrees f gs level, goString_append]
end

/-- `Sgf` on a collection whose strings are valid UTF-8 writes the bytes of
the text that `Sgf` on runes writes. -/
theorem Sgf_bytes (c : Collection) (f : SgfFormat) :
    c.toBytes.Sgf f = (c.Sgf f).map goString := by
  unfold Bytes.Collection.Sgf Collection.Sgf
  rw [toBytes_Valid]
  cases c.Valid
  · rfl
  · simp [Result.map, Collection.toBytes, toBytes_appendGameTrees]

/-! ### Strings that are valid UTF-8 -/

theorem char_ofNat_toNat_of_lt {n : Nat} (h : n < 0xD800) : (Char.ofNat n).toNat = n := by
  have hv : n.isValidChar := Or.inl h
  simp [Char.ofNat, hv, Char.toNat, Char.ofNatAux, UInt32.toNat]

theorem byte_val_self (b : Byte) : byte b.val = b := by
  apply Fin.ext
  simp [byte]

theorem runeString_ascii (b : Byte) (h : b.val < 0x80) : runeString (Char.ofNat b.val) = [b] := by
  have hn := char_ofNat_toNat_of_lt (show b.val < 0xD800 by omega)
  unfold runeString
  rw [hn, if_pos h, byte_val_self]

theorem runes_ascii : ∀ s : List Byte, (∀ b ∈ s, b.val < 0x80) →
    runes s = s.map fun b => Char.ofNat b.val
  | [], _ => rfl
  | b :: s, h => by
    rw [runes_cons_of_lt b s (h b (by simp)), runes_ascii s (fun x hx => h x (by simp [hx]))]
    rfl

theorem isUTF8_ascii : ∀ s : List Byte, (∀ b ∈ s, b.val < 0x80) → IsUTF8 s
  | [], _ => rfl
  | b :: s, h => by
    have hb := h b (by simp)
    have ih := isUTF8_ascii s (fun x hx => h x (by simp [hx]))
    unfold IsUTF8 at ih ⊢
    rw [runes_cons_of_lt b s hb, goString_cons, runeString_ascii b hb, ih]
    rfl

theorem mem_goString {c : Char} {cs : List Char} (hc : c ∈ cs) :
    ∀ b ∈ runeString c, b ∈ goString cs := by
  induction cs with
  | nil => cases hc
  | cons x cs ih =>
    intro b hb
    rw [goString_cons, List.mem_append]
    rcases List.mem_cons.mp hc with h | h
    · subst h; exact Or.inl hb
    · exact Or.inr (ih h b hb)

theorem isUpper_ofNat (b : Byte) (h : 0x41 ≤ b.val ∧ b.val ≤ 0x5A) :
    IsUpper (Char.ofNat b.val) := by
  have hn := char_ofNat_toNat_of_lt (show b.val < 0xD800 by omega)
  intro hc
  have h1 : (Char.ofNat b.val < 'A') ↔ (Char.ofNat b.val).toNat < ('A' : Char).toNat := Iff.rfl
  have h2 : (Char.ofNat b.val > 'Z') ↔ ('Z' : Char).toNat < (Char.ofNat b.val).toNat := Iff.rfl
  have hA : ('A' : Char).toNat = 0x41 := by decide
  have hZ : ('Z' : Char).toNat = 0x5A := by decide
  rw [h1, h2, hn, hA, hZ] at hc
  omega

theorem exists_property (P : Bytes.Property) (h : P.Lexable) :
    ∃ p : Property, p.toBytes = P ∧ p.Lexable := by
  obtain ⟨Id, Vs⟩ := P
  obtain ⟨h1, h2⟩ := h
  simp only at h1 h2
  have hascii : ∀ b ∈ Id, b.val < 0x80 := fun b hb => by have := h1 b hb; omega
  refine ⟨⟨runes Id, Vs.map runes⟩, ?_, ?_, ?_⟩
  · simp only [Property.toBytes, List.map_map]
    have hid : goString (runes Id) = Id := isUTF8_ascii Id hascii
    have hvs : Vs.map (goString ∘ runes) = Vs := by
      conv_rhs => rw [← List.map_id Vs]
      apply List.map_congr_left
      intro v hv
      exact (h2 v hv).1
    rw [hid, hvs]
  · intro ch hch
    simp only at hch
    rw [runes_ascii Id hascii] at hch
    obtain ⟨b, hb, rfl⟩ := List.mem_map.mp hch
    exact isUpper_ofNat b (h1 b hb)
  · intro v hv
    simp only at hv
    obtain ⟨V, hV, rfl⟩ := List.mem_map.mp hv
    obtain ⟨hu, hb1, hb2⟩ := h2 V hV
    constructor
    · intro hm
      have := mem_goString hm (0x5D : Byte) (by decide)
      rw [hu] at this
      exact hb1 this
    · intro hm
      have := mem_goString hm (0x5C : Byte) (by decide)
      rw [hu] at this
      exact hb2 this

theorem exists_properties : ∀ Ps : List Bytes.Property, (∀ P ∈ Ps, P.Lexable) →
    ∃ ps : List Property, ps.map Property.toBytes = Ps ∧ ∀ p ∈ ps, p.Lexable
  | [], _ => ⟨[], rfl, by simp⟩
  | P :: Ps, h => by
    obtain ⟨p, hp1, hp2⟩ := exists_property P (h P (by simp))
    obtain ⟨ps, hps1, hps2⟩ := exists_properties Ps (fun Q hQ => h Q (by simp [hQ]))
    refine ⟨p :: ps, by simp [hp1, hps1], ?_⟩
    intro q hq
    rcases List.mem_cons.mp hq with hq | hq
    · subst hq; exact hp2
    · exact hps2 q hq

theorem exists_nodes : ∀ Ns : List Bytes.Node, (∀ N ∈ Ns, ∀ P ∈ N.Properties, P.Lexable) →
    ∃ ns : List Node, ns.map Node.toBytes = Ns ∧ ∀ n ∈ ns, ∀ p ∈ n.Properties, p.Lexable
  | [], _ => ⟨[], rfl, by simp⟩
  | N :: Ns, h => by
    obtain ⟨ps, hps1, hps2⟩ := exists_properties N.Properties (h N (by simp))
    obtain ⟨ns, hns1, hns2⟩ := exists_nodes Ns (fun M hM => h M (by simp [hM]))
    refine ⟨⟨ps⟩ :: ns, by simp [Node.toBytes, hps1, hns1], ?_⟩
    intro n hn
    rcases List.mem_cons.mp hn with hn | hn
    · subst hn; exact hps2
    · exact hns2 n hn

mutual
theorem exists_gameTree : ∀ G : Bytes.GameTree,
    (∀ T ∈ G.subtrees, ∀ N ∈ T.Nodes, ∀ P ∈ N.Properties, P.Lexable) →
    ∃ g : GameTree, g.toBytes = G ∧ ∀ t ∈ g.subtrees, t.Lexable
  | .mk Ns Gs, h => by
    simp only [Bytes.GameTree.subtrees, List.mem_cons, forall_eq_or_imp] at h
    obtain ⟨ns, hns1, hns2⟩ := exists_nodes Ns h.1
    obtain ⟨gs, hgs1, hgs2⟩ := exists_gameTrees Gs h.2
    refine ⟨.mk ns gs, by simp [GameTree.toBytes, hns1, hgs1], ?_⟩
    intro t ht
    simp only [GameTree.subtrees, List.mem_cons] at ht
    rcases ht with ht | ht
    · subst ht; exact hns2
    · exact hgs2 t ht
theorem exists_gameTrees : ∀ Gs : List Bytes.GameTree,
    (∀ T ∈ Bytes.subtreesOfList Gs, ∀ N ∈ T.Nodes, ∀ P ∈ N.Properties, P.Lexable) →
    ∃ gs : List GameTree, gameTreesToBytes gs = Gs ∧ ∀ t ∈ subtreesOfList gs, t.Lexable
  | [], _ => ⟨[], rfl, by simp [subtreesOfList]⟩
  | G :: Gs, h => by
    simp only [Bytes.subtreesOfList, List.mem_append] at h
    obtain ⟨g, hg1, hg2⟩ := exists_gameTree G (fun T hT => h T (Or.inl hT))
    obtain ⟨gs, hgs1, hgs2⟩ := exists_gameTrees Gs (fun T hT => h T (Or.inr hT))
    refine ⟨g :: gs, by simp [gameTreesToBytes, hg1, hgs1], ?_⟩
    intro t ht
    simp only [subtreesOfList, List.mem_append] at ht
    rcases ht with ht | ht
    · exact hg2 t ht
    · exact hgs2 t ht
end

/-- A collection on bytes that is lexable is the collection on runes of its
strings, which is lexable too. -/
theorem exists_collection (C : Bytes.Collection) (h : C.Lexable) :
    ∃ c : Collection, c.toBytes = C ∧ c.Lexable := by
  obtain ⟨Gs⟩ := C
  obtain ⟨gs, h1, h2⟩ := exists_gameTrees Gs h
  exact ⟨⟨gs⟩, by simp [Collection.toBytes, h1], h2⟩

/-- Round trip from the tree, on bytes: what `Sgf` writes for a valid and
lexable collection is parsed by `ParseSgf` to that collection. -/
theorem ParseSgf_Sgf_bytes (C : Bytes.Collection) (f : SgfFormat) (hv : C.Valid = true)
    (hl : C.Lexable) :
    ∃ text, C.Sgf f = .ok text ∧ Bytes.ParseSgf text = .ok C := by
  obtain ⟨c, hc, hcl⟩ := exists_collection C hl
  subst hc
  rw [toBytes_Valid] at hv
  refine ⟨goString (appendGameTrees f c.GameTrees 0), ?_, ?_⟩
  · rw [Sgf_bytes]
    unfold Collection.Sgf
    simp only [hv, Bool.not_true, Bool.false_eq_true, if_false, Result.map]
  · rw [ParseSgf_bytes, runes_goString, ParseSgf_appendGameTrees c f hv hcl]
    rfl

/-! ### Round trips and values on strings of bytes -/

theorem Result.map_eq_ok {α β : Type} {f : α → β} {r : Result α} {b : β}
    (h : r.map f = .ok b) : ∃ a, r = .ok a ∧ f a = b := by
  cases r with
  | ok a =>
    simp only [Result.map, Result.ok.injEq] at h
    exact ⟨a, rfl, h⟩
  | error e => cases h
  | panic => cases h

theorem noNodeAfterTreeEnd_toBytes : ∀ (ls : List lexeme) (b : Bool),
    Bytes.noNodeAfterTreeEnd b (ls.map lexeme.toBytes) ↔ noNodeAfterTreeEnd b ls
  | [], _ => Iff.rfl
  | l :: ls, b => by
    simp only [List.map_cons, Bytes.noNodeAfterTreeEnd, noNodeAfterTreeEnd, lexeme.toBytes,
      noNodeAfterTreeEnd_toBytes ls]

theorem runes_goString_append : ∀ (cs : List Char) (rest : List Byte),
    runes (goString cs ++ rest) = cs ++ runes rest
  | [], rest => rfl
  | c :: cs, rest => by
    rw [goString_cons, List.append_assoc, runes_runeString, runes_goString_append cs rest]
    rfl

/-- Round trip from the text, on bytes: a text that is valid UTF-8 and that
`ParseSgf` accepts with at least one game tree, with no backslash, no
whitespace outside values, not ending inside a value and with no node-start
directly after a tree-end, is what `Sgf` writes for the parsed collection
without new lines. -/
theorem Sgf_ParseSgf_bytes {T : List Byte} {C : Bytes.Collection}
    (e : Bytes.ParseSgf T = .ok C) (hne : C.GameTrees ≠ []) (hutf : IsUTF8 T)
    (hb : (0x5C : Byte) ∉ T)
    (hsep : ∀ ch ∈ outsideValues false (runes T), isSeparator ch = false)
    (hend : endsInValue false (runes T) = false)
    (hord : ∀ ls, Bytes.lexicalAnalysis T = .ok ls → Bytes.noNodeAfterTreeEnd false ls) :
    C.Sgf NoNewLinesSgfFormat = .ok T := by
  rw [ParseSgf_bytes] at e
  obtain ⟨c, hc, hC⟩ := Result.map_eq_ok e
  subst hC
  have hne' : c.GameTrees ≠ [] := by
    intro h0
    apply hne
    simp [Collection.toBytes, h0, gameTreesToBytes]
  have hb' : '\\' ∉ runes T := by
    intro hm
    have := mem_goString hm (0x5C : Byte) (by decide)
    rw [hutf] at this
    exact hb this
  have hord' : ∀ ls, lexicalAnalysis (runes T) = .ok ls → noNodeAfterTreeEnd false ls := by
    intro ls hls
    have h1 : Bytes.lexicalAnalysis T = .ok (ls.map lexeme.toBytes) := by
      rw [lexicalAnalysis_bytes, hls]
      rfl
    exact (noNodeAfterTreeEnd_toBytes ls false).mp (hord _ h1)
  have hv : c.Valid = true := (ParseSgf_valid_iff hc).mpr hne'
  have htext := appendGameTrees_of_ParseSgf hc hb' hsep hend hord'
  rw [Sgf_bytes]
  unfold Collection.Sgf
  simp only [hv, Bool.not_true, Bool.false_eq_true, if_false, Result.map, htext]
  rw [hutf]

/-- C1 (amended): for every text that is valid UTF-8 and that `ParseSgf`
accepts with a collection of at least one game tree, that holds no backslash
and no whitespace outside property values, that does not end inside a value,
and in whose token sequence no node-start directly follows a tree-end, `Sgf`
with `NoNewLinesSgfFormat` on the parsed collection returns exactly the text.
On the text `(;A[v])` whose value `v` is the byte `FF`, which is not valid
UTF-8, `Sgf` returns the text with `EF BF BD` in the place of the byte. -/
theorem C1_sgf_of_parse_utf8 (T : List Byte) (C : Bytes.Collection)
    (e : Bytes.ParseSgf T = .ok C) (hne : C.GameTrees ≠ []) (hutf : IsUTF8 T)
    (hb : (0x5C : Byte) ∉ T)
    (hsep : ∀ ch ∈ outsideValues false (runes T), isSeparator ch = false)
    (hend : endsInValue false (runes T) = false)
    (hord : ∀ ls, Bytes.lexicalAnalysis T = .ok ls → Bytes.noNodeAfterTreeEnd false ls) :
    C.Sgf NoNewLinesSgfFormat = .ok T ∧
    (Bytes.ParseSgf [0x28, 0x3B, 0x41, 0x5B, 0xFF, 0x5D, 0x29]).andThen
        (fun c => c.Sgf NoNewLinesSgfFormat) =
      .ok [0x28, 0x3B, 0x41, 0x5B, 0xEF, 0xBF, 0xBD, 0x5D, 0x29] :=
  ⟨Sgf_ParseSgf_bytes e hne hutf hb hsep hend hord, by decide⟩

/-- Witness of C1 (amended) on the text `(;F[4 é];G[1](;))`, which has a space
and a rune of two bytes inside a value. -/
theorem C1_sgf_of_parse_utf8_witness :
    Bytes.Collection.Sgf ⟨[.mk [⟨[⟨[0x46], [[0x34, 0x20, 0xC3, 0xA9]]⟩]⟩, ⟨[⟨[0x47], [[0x31]]⟩]⟩]
        [.mk [⟨[]⟩] []]]⟩ NoNewLinesSgfFormat =
      .ok [0x28, 0x3B, 0x46, 0x5B, 0x34, 0x20, 0xC3, 0xA9, 0x5D, 0x3B, 0x47, 0x5B, 0x31, 0x5D,
        0x28, 0x3B, 0x29, 0x29] :=
  (C1_sgf_of_parse_utf8
    [0x28, 0x3B, 0x46, 0x5B, 0x34, 0x20, 0xC3, 0xA9, 0x5D, 0x3B, 0x47, 0x5B, 0x31, 0x5D,
      0x28, 0x3B, 0x29, 0x29]
    ⟨[.mk [⟨[⟨[0x46], [[0x34, 0x20, 0xC3, 0xA9]]⟩]⟩, ⟨[⟨[0x47], [[0x31]]⟩]⟩]
      [.mk [⟨[]⟩] []]]⟩
    rfl (by simp) (by unfold IsUTF8; decide) (by decide) (by decide) (by decide)
    (by
      intro ls h
      have h2 : Bytes.lexicalAnalysis
          [0x28, 0x3B, 0x46, 0x5B, 0x34, 0x20, 0xC3, 0xA9, 0x5D, 0x3B, 0x47, 0x5B, 0x31, 0x5D,
            0x28, 0x3B, 0x29, 0x29] =
          .ok [⟨tokenTypeGameTreeStart, [], 0, 1⟩, ⟨tokenTypeNode, [], 0, 2⟩,
            ⟨tokenTypePropertyIdent, [0x46], 0, 4⟩,
            ⟨tokenTypePropertyValue, [0x34, 0x20, 0xC3, 0xA9], 0, 8⟩,
            ⟨tokenTypeNode, [], 0, 9⟩, ⟨tokenTypePropertyIdent, [0x47], 0, 11⟩,
            ⟨tokenTypePropertyValue, [0x31], 0, 13⟩, ⟨tokenTypeGameTreeStart, [], 0, 14⟩,
            ⟨tokenTypeNode, [], 0, 15⟩, ⟨tokenTypeGameTreeEnd, [], 0, 16⟩,
            ⟨tokenTypeGameTreeEnd, [], 0, 17⟩] := rfl
      rw [h2] at h
      cases h
      simp [Bytes.noNodeAfterTreeEnd])).1

/-- C2 (amended): for every valid collection whose property idents consist of
the letters `'A'..'Z'` and whose property values are valid UTF-8 and contain
neither `]` nor a backslash, and for every format, `Sgf` returns a text on
which `ParseSgf` returns no error and the same collection. -/
theorem C2_parse_of_sgf_utf8 (C : Bytes.Collection) (f : SgfFormat) (hv : C.Valid = true)
    (hl : C.Lexable) : (C.Sgf f).andThen Bytes.ParseSgf = .ok C := by
  obtain ⟨text, h1, h2⟩ := ParseSgf_Sgf_bytes C f hv hl
  rw [h1]
  exact h2

/-- C31 (the code at the counterexample): the collection `(;A[v])` whose value
`v` is the one byte `FF`, which is not valid UTF-8, is valid, its ident is the
letter `A` and its value holds neither `]` nor a backslash; `Sgf` writes the
byte as it is, and `ParseSgf` of the text returns the collection whose value
is the three bytes `EF BF BD` of `U+FFFD`, a value other than `v`. -/
theorem C31_invalid_utf8_value_not_restored :
    Bytes.Collection.Valid ⟨[.mk [⟨[⟨[0x41], [[0xFF]]⟩]⟩] []]⟩ = true ∧
    Bytes.Collection.Sgf ⟨[.mk [⟨[⟨[0x41], [[0xFF]]⟩]⟩] []]⟩ NoNewLinesSgfFormat =
      .ok [0x28, 0x3B, 0x41, 0x5B, 0xFF, 0x5D, 0x29] ∧
    Bytes.ParseSgf [0x28, 0x3B, 0x41, 0x5B, 0xFF, 0x5D, 0x29] =
      .ok ⟨[.mk [⟨[⟨[0x41], [[0xEF, 0xBF, 0xBD]]⟩]⟩] []]⟩ ∧
    ([0xEF, 0xBF, 0xBD] : List Byte) ≠ [0xFF] ∧
    runes [0xFF] = [Char.ofNat 0xFFFD] :=
  ⟨rfl, rfl, rfl, by decide, rfl⟩

/-- C31 (amended): for every valid collection in which every property ident
consists only of the letters `'A'..'Z'` and every property value is valid
UTF-8 and contains neither `]` nor a backslash, and for every format (any
flags, any `IndentationLevel`), `Sgf` returns a text, and `ParseSgf` of that
text returns no error and the same collection. -/
theorem C31_parse_of_sgf_utf8 (C : Bytes.Collection) (f : SgfFormat) (hv : C.Valid = true)
    (hl : ∀ t ∈ C.allGameTrees, ∀ n ∈ t.Nodes, ∀ p ∈ n.Properties,
      (∀ b ∈ p.Ident, 0x41 ≤ b.val ∧ b.val ≤ 0x5A) ∧
      ∀ v ∈ p.Values, goString (runes v) = v ∧ (0x5D : Byte) ∉ v ∧ (0x5C : Byte) ∉ v) :
    ∃ text, C.Sgf f = .ok text ∧ Bytes.ParseSgf text = .ok C :=
  ParseSgf_Sgf_bytes C f hv hl

/-! ### Values between brackets -/

theorem char_eq_of_toNat {c d : Char} (h : c.toNat = d.toNat) : c = d := by
  rw [← Char.ofNat_toNat c, ← Char.ofNat_toNat d, h]

theorem runeString_special (c : Char) :
    ∀ b ∈ runeString c, (b = 0x5C → c = '\\') ∧ (b = 0x5D → c = ']') := by
  have hv := char_toNat_valid c
  intro b hb
  have key : b.val = 0x5C ∨ b.val = 0x5D → c.toNat = b.val := by
    intro hbv
    unfold runeString at hb
    split_ifs at hb with h1 h2 h3
    · simp only [List.mem_singleton] at hb
      subst hb
      rw [byte_val] at hbv ⊢
      omega
    · simp only [List.mem_cons, List.mem_singleton, List.not_mem_nil, or_false] at hb
      rcases hb with hb | hb <;> subst hb <;> rw [byte_val] at hbv <;> omega
    · simp only [List.mem_cons, List.mem_singleton, List.not_mem_nil, or_false] at hb
      rcases hb with hb | hb | hb <;> subst hb <;> rw [byte_val] at hbv <;> omega
    · simp only [List.mem_cons, List.mem_singleton, List.not_mem_nil, or_false] at hb
      rcases hb with hb | hb | hb | hb <;> subst hb <;> rw [byte_val] at hbv <;> omega
  constructor
  · intro h
    subst h
    exact char_eq_of_toNat (key (Or.inl rfl))
  · intro h
    subst h
    exact char_eq_of_toNat (key (Or.inr rfl))

theorem bytes_esc_append : ∀ a b : List Byte, Bytes.esc (a ++ b) = Bytes.esc a ++ Bytes.esc b
  | [], b => rfl
  | x :: a, b => by
    have ih := bytes_esc_append a b
    simp only [List.cons_append, Bytes.esc]
    split_ifs <;> simp [ih]

theorem bytes_esc_plain : ∀ s : List Byte, (∀ b ∈ s, b ≠ 0x5C ∧ b ≠ 0x5D) → Bytes.esc s = s
  | [], _ => rfl
  | x :: s, h => by
    have hx := h x (by simp)
    simp only [Bytes.esc, hx.1, hx.2, or_self, if_false,
      bytes_esc_plain s (fun b hb => h b (by simp [hb]))]

theorem bytes_esc_goString : ∀ cs : List Char, Bytes.esc (goString cs) = goString (esc cs)
  | [] => rfl
  | c :: cs => by
    rw [goString_cons, bytes_esc_append, bytes_esc_goString cs]
    by_cases hc : c = '\\' ∨ c = ']'
    · simp only [esc, hc, if_true, goString_cons]
      rcases hc with hc | hc <;> subst hc <;> rfl
    · simp only [esc, hc, if_false, goString_cons]
      rw [bytes_esc_plain]
      intro b hb
      have := runeString_special c b hb
      push_neg at hc
      exact ⟨fun h => hc.1 (this.1 h), fun h => hc.2 (this.2 h)⟩

theorem bytes_lexLoop_cons (s : Bytes.LexVars) (c : Char) (rest : List Char) :
    Bytes.lexLoop s (c :: rest) =
      match Bytes.lexStep s c with
      | .ok s' => Bytes.lexLoop s' rest
      | .error e => .error e
      | .panic => .panic := rfl

theorem bytes_lexLoop_escaped_pair (r : List Bytes.lexeme) (d : List Byte) (ln pos : Nat)
    (c : Char) (rest : List Char) :
    Bytes.lexLoop ⟨r, d, false, ln, pos, lexerStatePropertyValue⟩ ('\\' :: c :: rest) =
      Bytes.lexLoop ⟨r, d ++ runeString c, false, ln, pos + 2, lexerStatePropertyValue⟩ rest := by
  rw [bytes_lexLoop_cons]
  simp only [Bytes.lexStep, Bytes.lexValue, if_true, Bool.false_eq_true, if_false]
  rw [bytes_lexLoop_cons]
  by_cases hb : c = '\\'
  · subst hb
    simp [Bytes.lexStep, Bytes.lexValue]
  · simp [Bytes.lexStep, Bytes.lexValue, hb]

theorem bytes_lexLoop_plain (r : List Bytes.lexeme) (d : List Byte) (ln pos : Nat) (c : Char)
    (rest : List Char) (h1 : c ≠ '\\') (h2 : c ≠ ']') :
    Bytes.lexLoop ⟨r, d, false, ln, pos, lexerStatePropertyValue⟩ (c :: rest) =
      Bytes.lexLoop ⟨r, d ++ runeString c, false, ln, pos + 1, lexerStatePropertyValue⟩ rest := by
  rw [bytes_lexLoop_cons]
  simp [Bytes.lexStep, Bytes.lexValue, h1, h2]

theorem bytes_lexLoop_esc : ∀ (v : List Char) (r : List Bytes.lexeme) (d : List Byte)
    (ln pos : Nat) (rest : List Char),
    Bytes.lexLoop ⟨r, d, false, ln, pos, lexerStatePropertyValue⟩ (esc v ++ rest) =
      Bytes.lexLoop ⟨r, d ++ goString v, false, ln, pos + (esc v).length,
        lexerStatePropertyValue⟩ rest
  | [], r, d, ln, pos, rest => by simp [esc, goString]
  | c :: v, r, d, ln, pos, rest => by
    by_cases hc : c = '\\' ∨ c = ']'
    · simp only [esc, hc, if_true, List.cons_append, List.length_cons]
      rw [bytes_lexLoop_escaped_pair, bytes_lexLoop_esc v]
      simp [goString_cons, Nat.add_assoc, Nat.add_comm 2]
    · simp only [esc, hc, if_false, List.cons_append, List.length_cons]
      push_neg at hc
      rw [bytes_lexLoop_plain _ _ _ _ _ _ hc.1 hc.2, bytes_lexLoop_esc v]
      simp [goString_cons, Nat.add_assoc, Nat.add_comm 1]

/-- C19 (the code at the counterexample): for the string `v` that is the one
byte `FF`, which is not valid UTF-8, `esc v` is `v`, and the text `[`, `v`,
`]` is read as one value token whose data is the three bytes `EF BF BD` of
`U+FFFD`, not `v`. -/
theorem C19_invalid_utf8_value_replaced :
    Bytes.esc [0xFF] = [0xFF] ∧
    Bytes.lexicalAnalysis (0x5B :: (Bytes.esc [0xFF] ++ [0x5D])) =
      .ok [⟨tokenTypePropertyValue, [0xEF, 0xBF, 0xBD], 0, 3⟩] ∧
    ([0xEF, 0xBF, 0xBD] : List Byte) ≠ [0xFF] := by
  decide

/-- C19 (amended): inside a value a backslash is dropped and the rune after
it is kept, whatever it is; and for every string `v` that is valid UTF-8 the
text `[`, `esc v`, `]`, where `esc` puts a backslash before each backslash and
each `]`, is read as exactly one value token with the data `v`, the value
ending at the first unescaped `]`: so between tokens, whatever bytes follow,
and so for the text alone. -/
theorem C19_value_lexing_utf8 (v d : List Byte) (r : List Bytes.lexeme) (ln pos : Nat)
    (c : Char) (rest : List Char) (tail : List Byte) (hv : IsUTF8 v) :
    Bytes.lexLoop ⟨r, d, false, ln, pos, lexerStatePropertyValue⟩ ('\\' :: c :: rest) =
      Bytes.lexLoop ⟨r, d ++ runeString c, false, ln, pos + 2, lexerStatePropertyValue⟩ rest ∧
    Bytes.lexLoop ⟨r, [], false, ln, pos, lexerStateOnlyControl⟩
        (runes (0x5B :: (Bytes.esc v ++ 0x5D :: tail))) =
      Bytes.lexLoop ⟨r ++ [⟨tokenTypePropertyValue, v, ln,
          pos + 1 + (runes (Bytes.esc v)).length + 1⟩], [], false,
        ln, pos + 1 + (runes (Bytes.esc v)).length + 1, lexerStateOnlyControl⟩ (runes tail) ∧
    Bytes.lexicalAnalysis (0x5B :: (Bytes.esc v ++ [0x5D])) =
      .ok [⟨tokenTypePropertyValue, v, 0, (runes (Bytes.esc v)).length + 2⟩] := by
  have hesc : Bytes.esc v = goString (esc (runes v)) := by
    conv_lhs => rw [← hv]
    exact bytes_esc_goString (runes v)
  have hlen : (runes (Bytes.esc v)).length = (esc (runes v)).length := by
    rw [hesc, runes_goString]
  have hrunes : ∀ tail : List Byte, runes (0x5B :: (Bytes.esc v ++ 0x5D :: tail)) =
      '[' :: (esc (runes v) ++ ']' :: runes tail) := by
    intro tail
    have h1 : (0x5B : Byte) :: (Bytes.esc v ++ 0x5D :: tail) =
        goString ('[' :: (esc (runes v) ++ [']'])) ++ tail := by
      rw [goString_cons, goString_append, hesc]
      simp [goString, show runeString '[' = [0x5B] from by decide,
        show runeString ']' = [0x5D] from by decide]
    rw [h1, runes_goString_append]
    simp
  have key : ∀ (r : List Bytes.lexeme) (ln pos : Nat) (rest : List Char),
      Bytes.lexLoop ⟨r, [], false, ln, pos, lexerStateOnlyControl⟩
          ('[' :: (esc (runes v) ++ ']' :: rest)) =
        Bytes.lexLoop ⟨r ++ [⟨tokenTypePropertyValue, v, ln,
            pos + 1 + (esc (runes v)).length + 1⟩], [], false,
          ln, pos + 1 + (esc (runes v)).length + 1, lexerStateOnlyControl⟩ rest := by
    intro r ln pos rest
    rw [bytes_lexLoop_cons]
    simp only [Bytes.lexStep, Bytes.lexControl, show isSeparator '[' = false from by decide,
      Bool.false_eq_true, if_false, show ¬ ('[' = '(' ∨ '[' = ')' ∨ '[' = ';') from by decide,
      if_true, ne_eq, not_true_eq_false]
    rw [bytes_lexLoop_esc (runes v), bytes_lexLoop_cons]
    simp [Bytes.lexStep, Bytes.lexValue, show goString (runes v) = v from hv]
  refine ⟨bytes_lexLoop_escaped_pair r d ln pos c rest, ?_, ?_⟩
  · rw [hrunes, hlen]
    exact key r ln pos (runes tail)
  · unfold Bytes.lexicalAnalysis
    have h2 := hrunes []
    rw [show runes ([] : List Byte) = [] from rfl] at h2
    rw [h2, show Bytes.lexInit = ⟨[], [], false, 0, 0, lexerStateOnlyControl⟩ from rfl,
      key [] 0 0 [], hlen]
    simp only [Bytes.lexLoop, Bytes.lexFinish, ne_eq, not_true_eq_false,
      if_false, List.nil_append]
    have : 0 + 1 + (esc (runes v)).length + 1 = (esc (runes v)).length + 2 := by omega
    rw [this]

/-- Witness of C19 (amended) on the value `a]é`, whose last rune takes two
bytes. -/
theorem C19_value_lexing_utf8_witness :
    Bytes.lexicalAnalysis (0x5B :: (Bytes.esc [0x61, 0x5D, 0xC3, 0xA9] ++ [0x5D])) =
      .ok [⟨tokenTypePropertyValue, [0x61, 0x5D, 0xC3, 0xA9], 0,
        (runes (Bytes.esc [0x61, 0x5D, 0xC3, 0xA9])).length + 2⟩] :=
  (C19_value_lexing_utf8 [0x61, 0x5D, 0xC3, 0xA9] [] [] 0 0 'a' [] []
    (by unfold IsUTF8; decide)).2.2

theorem upper_of_all (s : List Byte)
    (h : (s.all fun b => decide (0x41 ≤ b.val ∧ b.val ≤ 0x5A)) = true) :
    ∀ b ∈ s, 0x41 ≤ b.val ∧ b.val ≤ 0x5A := by
  intro b hb
  exact of_decide_eq_true (List.all_eq_true.mp h b hb)

theorem example_collection_lexable :
    Bytes.Collection.Lexable ⟨[.mk [⟨[⟨[0x46], [[0x34], [0xC3, 0xA9]]⟩]⟩, ⟨[]⟩]
      [.mk [⟨[⟨[0x42], [[]]⟩]⟩] []]]⟩ := by
  intro t ht n hn p hp
  simp only [Bytes.Collection.allGameTrees, Bytes.subtreesOfList, Bytes.GameTree.subtrees,
    List.append_nil, List.mem_cons, List.mem_singleton, List.not_mem_nil, or_false] at ht
  rcases ht with ht | ht <;> subst ht <;>
    simp only [Bytes.GameTree.Nodes, List.mem_cons, List.mem_singleton, List.not_mem_nil,
      or_false] at hn
  · rcases hn with hn | hn <;> subst hn
    · simp only [List.mem_singleton] at hp
      subst hp
      refine ⟨upper_of_all _ rfl, ?_⟩
      intro v hv
      simp only [List.mem_cons, List.mem_singleton, List.not_mem_nil, or_false] at hv
      rcases hv with hv | hv <;> subst hv <;> exact ⟨by unfold IsUTF8; decide, by decide⟩
    · simp at hp
  · subst hn
    simp only [List.mem_singleton] at hp
    subst hp
    refine ⟨upper_of_all _ rfl, ?_⟩
    intro v hv
    simp only [List.mem_singleton] at hv
    subst hv
    exact ⟨by unfold IsUTF8; decide, by decide⟩

/-- Witness of C2 (amended) on a tree with two nodes and a child tree, with a
value of one rune of two bytes, written with `DefaultSgfFormat`. -/
theorem C2_parse_of_sgf_utf8_witness :
    (Bytes.Collection.Sgf ⟨[.mk [⟨[⟨[0x46], [[0x34], [0xC3, 0xA9]]⟩]⟩, ⟨[]⟩]
        [.mk [⟨[⟨[0x42], [[]]⟩]⟩] []]]⟩ DefaultSgfFormat).andThen Bytes.ParseSgf =
      .ok ⟨[.mk [⟨[⟨[0x46], [[0x34], [0xC3, 0xA9]]⟩]⟩, ⟨[]⟩] [.mk [⟨[⟨[0x42], [[]]⟩]⟩] []]]⟩ :=
  C2_parse_of_sgf_utf8
    ⟨[.mk [⟨[⟨[0x46], [[0x34], [0xC3, 0xA9]]⟩]⟩, ⟨[]⟩] [.mk [⟨[⟨[0x42], [[]]⟩]⟩] []]]⟩
    DefaultSgfFormat rfl example_collection_lexable

/-- Witness of C31 (amended) on the same collection, written with an
indentation of minus two. -/
theorem C31_parse_of_sgf_utf8_witness :
    ∃ text,
      Bytes.Collection.Sgf ⟨[.mk [⟨[⟨[0x46], [[0x34], [0xC3, 0xA9]]⟩]⟩, ⟨[]⟩]
        [.mk [⟨[⟨[0x42], [[]]⟩]⟩] []]]⟩ ⟨true, true, -2⟩ = .ok text ∧
      Bytes.ParseSgf text =
        .ok ⟨[.mk [⟨[⟨[0x46], [[0x34], [0xC3, 0xA9]]⟩]⟩, ⟨[]⟩] [.mk [⟨[⟨[0x42], [[]]⟩]⟩] []]]⟩ :=
  C31_parse_of_sgf_utf8
    ⟨[.mk [⟨[⟨[0x46], [[0x34], [0xC3, 0xA9]]⟩]⟩, ⟨[]⟩] [.mk [⟨[⟨[0x42], [[]]⟩]⟩] []]]⟩
    ⟨true, true, -2⟩ rfl example_collection_lexable

end BytesTheory

/-! ## Mutation API -/

section MutationAPI
open Ref

theorem sliceIndex_of_mem {s : List Ptr} {x : Ptr} (h : x ∈ s) :
    sliceIndex s x = (s.indexOf x : Int) := by
  simp [sliceIndex, h]

theorem sliceIndex_of_not_mem {s : List Ptr} {x : Ptr} (h : x ∉ s) :
    sliceIndex s x = -1 := by
  simp [sliceIndex, h]

theorem sliceSwapAt_nat (s : List Ptr) (i j : Nat) (hi : i < s.length) (hj : j < s.length) :
    sliceSwapAt s (i : Int) (j : Int) = .ok ((s.set i s[j]).set j s[i]) := by
  unfold sliceSwapAt
  have h : (0 : Int) ≤ i ∧ (i : Int) < s.length ∧ (0 : Int) ≤ j ∧ (j : Int) < s.length := by
    refine ⟨by omega, by omega, by omega, by omega⟩
  rw [if_pos h]
  simp [List.getD_eq_getElem, hi, hj]

theorem getElem_swap (s : List Ptr) (i j k : Nat) (hi : i < s.length) (hj : j < s.length)
    (hk : k < s.length) (hk2 : k < ((s.set i s[j]).set j s[i]).length) :
    ((s.set i s[j]).set j s[i])[k] =
      if k = j then s[i] else if k = i then s[j] else s[k] := by
  rw [List.getElem_set]
  by_cases h1 : j = k
  · simp [h1]
  · rw [if_neg h1, List.getElem_set]
    have h1' : ¬ k = j := fun h => h1 h.symm
    by_cases h2 : i = k
    · simp [h2, h1']
    · have h2' : ¬ k = i := fun h => h2 h.symm
      simp [h1', h2', h2]

theorem indexOf_eq_of_unique (s : List Ptr) (x : Ptr) (k : Nat) (hk : k < s.length)
    (hx : s[k] = x) (hu : ∀ m (hm : m < s.length), s[m] = x → m = k) :
    s.indexOf x = k := by
  have hmem : x ∈ s := by
    rw [← hx]; exact List.getElem_mem _
  have hlt : s.indexOf x < s.length := List.indexOf_lt_length.mpr hmem
  exact hu _ hlt (List.getElem_indexOf hlt)

theorem count_one_unique : ∀ (s : List Ptr) (x : Ptr), s.count x = 1 →
    ∀ m n (hm : m < s.length) (hn : n < s.length), s[m] = x → s[n] = x → m = n
  | [], x, h => by simp at h
  | y :: ys, x, h => by
    intro m n hm hn h1 h2
    by_cases hy : y = x
    · subst hy
      have h0 : ys.count y = 0 := by simpa using h
      have hnot : y ∉ ys := List.count_eq_zero.mp h0
      cases m with
      | zero =>
        cases n with
        | zero => rfl
        | succ n =>
          exfalso; apply hnot
          simp only [List.getElem_cons_succ] at h2
          rw [← h2]; exact List.getElem_mem _
      | succ m =>
        exfalso; apply hnot
        simp only [List.getElem_cons_succ] at h1
        rw [← h1]; exact List.getElem_mem _
    · have hc : ys.count x = 1 := by
        simpa [List.count_cons, hy] using h
      cases m with
      | zero => simp at h1; exact absurd h1 hy
      | succ m =>
        cases n with
        | zero => simp at h2; exact absurd h2 hy
        | succ n =>
          simp only [List.getElem_cons_succ] at h1 h2
          have := count_one_unique ys x hc m n (by simpa using hm) (by simpa using hn) h1 h2
          omega

theorem sliceSwap_twice (s : List Ptr) (a b : Ptr) (ha : s.count a = 1) (hb : s.count b = 1) :
    (sliceSwapAt s (sliceIndex s a) (sliceIndex s b)).andThen
      (fun s' => sliceSwapAt s' (sliceIndex s' a) (sliceIndex s' b)) = .ok s := by
  have hma : a ∈ s := List.count_pos_iff.mp (by omega)
  have hmb : b ∈ s := List.count_pos_iff.mp (by omega)
  have hi : s.indexOf a < s.length := List.indexOf_lt_length.mpr hma
  have hj : s.indexOf b < s.length := List.indexOf_lt_length.mpr hmb
  have hsi : s[s.indexOf a] = a := List.getElem_indexOf hi
  have hsj : s[s.indexOf b] = b := List.getElem_indexOf hj
  rw [sliceIndex_of_mem hma, sliceIndex_of_mem hmb, sliceSwapAt_nat s _ _ hi hj]
  simp only [Result.andThen]
  generalize hi' : s.indexOf a = i at *
  generalize hj' : s.indexOf b = j at *
  set s' := (s.set i s[j]).set j s[i] with hs'
  have hlen : s'.length = s.length := by simp [hs']
  have hget : ∀ k (hk : k < s.length) (hk2 : k < s'.length), s'[k] =
      if k = j then s[i] else if k = i then s[j] else s[k] := fun k hk hk2 =>
    getElem_swap s i j k hi hj hk hk2
  have hua := count_one_unique s a ha
  have hub := count_one_unique s b hb
  have hia : s'.indexOf a = j := by
    apply indexOf_eq_of_unique s' a j (by rw [hlen]; exact hj)
    · rw [hget j hj]; simp [hsi]
    · intro m hm hx
      rw [hlen] at hm
      rw [hget m hm] at hx
      by_contra hne
      rw [if_neg hne] at hx
      by_cases hmi : m = i
      · rw [if_pos hmi] at hx
        have : j = i := hua j i hj hi hx hsi
        exact hne (hmi.trans this.symm)
      · rw [if_neg hmi] at hx
        exact hmi (hua m i hm hi hx hsi)
  have hib : s'.indexOf b = i := by
    apply indexOf_eq_of_unique s' b i (by rw [hlen]; exact hi)
    · rw [hget i hi]
      by_cases hij : i = j
      · rw [if_pos hij]; subst hij; exact hsj
      · rw [if_neg hij]; simp [hsj]
    · intro m hm hx
      rw [hlen] at hm
      rw [hget m hm] at hx
      by_contra hne
      by_cases hmj : m = j
      · rw [if_pos hmj] at hx
        have : i = j := hub i j hi hj hx hsj
        exact hne (hmj.trans this.symm)
      · rw [if_neg hmj, if_neg hne] at hx
        exact hmj (hub m j hm hj hx hsj)
  have hma' : a ∈ s' := by
    have : j < s'.length := by rw [hlen]; exact hj
    have h2 := List.indexOf_lt_length.mp (by rw [hia]; exact this : s'.indexOf a < s'.length)
    exact h2
  have hmb' : b ∈ s' := by
    have : i < s'.length := by rw [hlen]; exact hi
    exact List.indexOf_lt_length.mp (by rw [hib]; exact this : s'.indexOf b < s'.length)
  rw [sliceIndex_of_mem hma', sliceIndex_of_mem hmb', hia, hib,
    sliceSwapAt_nat s' j i (by rw [hlen]; exact hj) (by rw [hlen]; exact hi)]
  congr 1
  apply List.ext_getElem
  · simp [hlen]
  · intro k h1 h2
    have hk : k < s'.length := by simpa using h1
    rw [getElem_swap s' j i k (by rw [hlen]; exact hj) (by rw [hlen]; exact hi) hk]
    have hks : k < s.length := by rw [← hlen]; exact hk
    by_cases hki : k = i
    · subst hki
      rw [if_pos rfl, hget j hj, if_pos rfl]
    · rw [if_neg hki]
      by_cases hkj : k = j
      · subst hkj
        rw [if_pos rfl, hget i hi]
        have : ¬ i = k := fun h => hki h.symm
        rw [if_neg this, if_pos rfl]
      · rw [if_neg hkj, hget k hks, if_neg hkj, if_neg hki]

theorem sliceRemoveAtRest_nat (s : List Ptr) (i : Nat) (hi : i < s.length) :
    sliceRemoveAtRest s (i : Int) = .ok (s.eraseIdx i) := by
  unfold sliceRemoveAtRest
  have h1 : ¬ ((i : Int) < 0) := by omega
  have h2 : ¬ ((s.length : Int) < (i : Int) + 1) := by omega
  rw [if_neg h1, if_neg h2, List.eraseIdx_eq_take_drop_succ]
  have : ((i : Int) + 1).toNat = i + 1 := by omega
  simp [this]

theorem indexOf_le_of_getElem : ∀ (s : List Ptr) (p : Ptr) (k : Nat) (hk : k < s.length),
    s[k] = p → s.indexOf p ≤ k
  | [], _, _, hk, _ => by simp at hk
  | q :: rest, p, k, hk, h => by
    by_cases hq : q = p
    · rw [List.indexOf_cons_eq _ hq]; omega
    · rw [List.indexOf_cons_ne _ hq]
      cases k with
      | zero => simp at h; exact absurd h hq
      | succ k =>
        simp only [List.getElem_cons_succ] at h
        have := indexOf_le_of_getElem rest p k (by simpa using hk) h
        omega

theorem removePropertyFrom_eq (node : Ref.Node) (p : Ptr) : ∀ (l : List Ptr) (k : Nat),
    Ref.Node.removePropertyFrom node p k l =
      if p ∈ l then node.RemovePropertyAt ((k + l.indexOf p : Nat) : Int) else .ok node
  | [], k => by simp [Ref.Node.removePropertyFrom]
  | q :: rest, k => by
    unfold Ref.Node.removePropertyFrom
    by_cases h : q = p
    · subst h
      simp
    · have h' : ¬ p = q := fun e => h e.symm
      rw [if_neg h, removePropertyFrom_eq node p rest (k + 1)]
      simp only [List.mem_cons, h', false_or, List.indexOf_cons_ne _ h]
      have : k + 1 + List.indexOf p rest = k + (List.indexOf p rest).succ := by omega
      rw [this]

/-- C9: for an index within bounds `RemovePropertyAt` returns and leaves the
property sequence with the element at that index deleted, one shorter, the
rest in order; `RemoveProperty` of a property that is present does the same at
the first position that holds it. -/
theorem C9_remove_property (node : Ref.Node) (i : Nat) (p : Ptr)
    (hi : i < node.Properties.length) (hp : p ∈ node.Properties) :
    node.RemovePropertyAt (i : Int) = .ok ⟨node.Properties.eraseIdx i⟩ ∧
    node.Properties.eraseIdx i = node.Properties.take i ++ node.Properties.drop (i + 1) ∧
    (node.Properties.eraseIdx i).length + 1 = node.Properties.length ∧
    node.RemoveProperty p = node.RemovePropertyAt (node.Properties.indexOf p : Int) ∧
    node.RemoveProperty p = .ok ⟨node.Properties.eraseIdx (node.Properties.indexOf p)⟩ ∧
    node.Properties[node.Properties.indexOf p]? = some p ∧
    (∀ k, k < node.Properties.indexOf p → node.Properties[k]? ≠ some p) := by
  have hlt : node.Properties.indexOf p < node.Properties.length :=
    List.indexOf_lt_length.mpr hp
  have hat : ∀ j, j < node.Properties.length →
      node.RemovePropertyAt (j : Int) = .ok ⟨node.Properties.eraseIdx j⟩ := by
    intro j hj
    simp [Ref.Node.RemovePropertyAt, sliceRemoveAtRest_nat _ _ hj, Result.andThen]
  have hrem : node.RemoveProperty p = node.RemovePropertyAt (node.Properties.indexOf p : Int) := by
    unfold Ref.Node.RemoveProperty
    rw [removePropertyFrom_eq, if_pos hp]
    simp
  refine ⟨hat i hi, List.eraseIdx_eq_take_drop_succ _ _, ?_, hrem, ?_, ?_, ?_⟩
  · rw [List.length_eraseIdx, if_pos hi]; omega
  · rw [hrem, hat _ hlt]
  · rw [List.getElem?_eq_getElem hlt, List.getElem_indexOf hlt]
  · intro k hk hk2
    have hkl : k < node.Properties.length := by omega
    rw [List.getElem?_eq_getElem hkl] at hk2
    have hk3 : node.Properties[k] = p := by simpa using hk2
    have := indexOf_le_of_getElem _ _ _ hkl hk3
    omega

/-- Witness of C9 on the node `[10, 20, 10]`, which holds the pointer 10
twice. -/
theorem C9_remove_property_witness :
    (1 < (Ref.Node.mk [10, 20, 10]).Properties.length ∧ 10 ∈ (Ref.Node.mk [10, 20, 10]).Properties) ∧
    (Ref.Node.mk [10, 20, 10]).RemovePropertyAt (1 : Nat) = .ok ⟨[10, 10]⟩ ∧
    (Ref.Node.mk [10, 20, 10]).RemoveProperty 10 = .ok ⟨[20, 10]⟩ := by
  have h := C9_remove_property (Ref.Node.mk [10, 20, 10]) 1 10 (by decide) (by decide)
  refine ⟨⟨by decide, by decide⟩, ?_, ?_⟩
  · rw [h.1]; rfl
  · rw [h.2.2.2.2.1]; rfl

/-- C8 (the code at the failing inputs): `RemoveGameTreeAt` and `RemoveNodeAt`
append the single element `s[i+1]` to `s[:i]`.  On the sequence of the package
documentation, removing the first of three trees leaves one tree instead of
two, and removing index 1 of a two-tree collection panics; the same holds for
the child trees and the nodes of a game tree. -/
theorem C8_remove_at_keeps_one_element :
    (Ref.Collection.mk [2, 3, 1]).RemoveGameTree 2 = .ok ⟨[3]⟩ ∧
    (Ref.Collection.mk [2, 3, 1]).RemoveGameTreeAt 0 = .ok ⟨[3]⟩ ∧
    (Ref.Collection.mk [3, 1]).RemoveGameTreeAt 1 = .panic ∧
    (Ref.GameTree.mk [7] [2, 3, 1]).RemoveGameTreeAt 0 = .ok ⟨[7], [3]⟩ ∧
    (Ref.GameTree.mk [7] [3, 1]).RemoveGameTreeAt 1 = .panic ∧
    (Ref.GameTree.mk [2, 3, 1] []).RemoveNodeAt 0 = .ok ⟨[3], []⟩ ∧
    (Ref.GameTree.mk [3, 1] []).RemoveNodeAt 1 = .panic ∧
    (Ref.GameTree.mk [3, 1] []).RemoveNode 1 = .panic := by
  decide

theorem sliceRemoveAtElem_nat (s : List Ptr) (i : Nat) :
    sliceRemoveAtElem s (i : Int) =
      match s[i + 1]? with
      | none => .panic
      | some x => .ok (s.take i ++ [x]) := by
  unfold sliceRemoveAtElem
  have h1 : ¬ ((i : Int) < 0) := by omega
  have h2 : ((i : Int) + 1).toNat = i + 1 := by omega
  rw [if_neg h1, h2]
  cases s[i + 1]? <;> simp

/-- C10 (counterexample): in the container `[a, a, b]`, which holds `a` twice,
both items are present and swapping `a` and `b` by reference twice gives
`[a, b, a]`, not the original order. -/
theorem C10_swap_twice_with_duplicate :
    (1 ∈ (Ref.Collection.mk [1, 1, 2]).GameTrees ∧ 2 ∈ (Ref.Collection.mk [1, 1, 2]).GameTrees) ∧
    ((Ref.Collection.mk [1, 1, 2]).SwapGameTrees 1 2).andThen
      (fun c => c.SwapGameTrees 1 2) = .ok ⟨[1, 2, 1]⟩ ∧
    ((Ref.Collection.mk [1, 1, 2]).SwapGameTrees 1 2).andThen
      (fun c => c.SwapGameTrees 1 2) ≠ .ok ⟨[1, 1, 2]⟩ := by
  decide

theorem andThen_andThen_ok {α β : Type} (r : Result (List Ptr)) (g : List Ptr → α)
    (f : α → Result β) :
    (r.andThen fun s => .ok (g s)).andThen f = r.andThen fun s => f (g s) := by
  cases r <;> rfl

/-- C10 (amended): in each of the four containers, when `a` and `b` each occur
exactly once in the sequence (other references may occur several times),
calling the by-reference swap of `a` and `b` twice in a row returns normally
and restores the original container. -/
theorem C10_swap_twice_restores (s other : List Ptr) (a b : Ptr)
    (ha : s.count a = 1) (hb : s.count b = 1) :
    ((Ref.Collection.mk s).SwapGameTrees a b).andThen
      (fun c => c.SwapGameTrees a b) = .ok ⟨s⟩ ∧
    ((Ref.GameTree.mk other s).SwapGameTrees a b).andThen
      (fun t => t.SwapGameTrees a b) = .ok ⟨other, s⟩ ∧
    ((Ref.GameTree.mk s other).SwapNodes a b).andThen
      (fun t => t.SwapNodes a b) = .ok ⟨s, other⟩ ∧
    ((Ref.Node.mk s).SwapProperties a b).andThen
      (fun n => n.SwapProperties a b) = .ok ⟨s⟩ := by
  have key := sliceSwap_twice s a b ha hb
  have hok : ∀ {α : Type} (g : List Ptr → α),
      ((sliceSwapAt s (sliceIndex s a) (sliceIndex s b)).andThen fun s' =>
        (sliceSwapAt s' (sliceIndex s' a) (sliceIndex s' b)).andThen fun s'' =>
          Result.ok (g s'')) = .ok (g s) := by
    intro α g
    cases h1 : sliceSwapAt s (sliceIndex s a) (sliceIndex s b) with
    | ok s' =>
      rw [h1] at key
      simp only [Result.andThen] at key ⊢
      rw [key]
    | error e => rw [h1] at key; simp [Result.andThen] at key
    | panic => rw [h1] at key; simp [Result.andThen] at key
  refine ⟨?_, ?_, ?_, ?_⟩
  · simp only [Ref.Collection.SwapGameTrees, Ref.Collection.SwapGameTreesAt,
      Ref.Collection.gameTreeIndex, andThen_andThen_ok]
    exact hok (fun s => Ref.Collection.mk s)
  · simp only [Ref.GameTree.SwapGameTrees, Ref.GameTree.SwapGameTreesAt,
      Ref.GameTree.gameTreeIndex, andThen_andThen_ok]
    exact hok (fun s => Ref.GameTree.mk other s)
  · simp only [Ref.GameTree.SwapNodes, Ref.GameTree.SwapNodesAt,
      Ref.GameTree.nodeIndex, andThen_andThen_ok]
    exact hok (fun s => Ref.GameTree.mk s other)
  · simp only [Ref.Node.SwapProperties, Ref.Node.SwapPropertiesAt,
      Ref.Node.propertyIndex, andThen_andThen_ok]
    exact hok (fun s => Ref.Node.mk s)

/-- Witness of C10 (amended) on the container `[5, 1, 5, 2]`, which holds the
pointer 5 twice and the swapped pointers once. -/
theorem C10_swap_twice_restores_witness :
    (([5, 1, 5, 2].count 1 = 1 ∧ [5, 1, 5, 2].count 2 = 1) ∧
    ((Ref.Collection.mk [5, 1, 5, 2]).SwapGameTrees 1 2).andThen
      (fun c => c.SwapGameTrees 1 2) = .ok ⟨[5, 1, 5, 2]⟩) ∧
    (Ref.Collection.mk [5, 1, 5, 2]).SwapGameTrees 1 2 = .ok ⟨[5, 2, 5, 1]⟩ :=
  ⟨⟨⟨by decide, by decide⟩,
    (C10_swap_twice_restores [5, 1, 5, 2] [] 1 2 (by decide) (by decide)).1⟩, by decide⟩

/-- The sequence `s` with the elements at the positions `i` and `j`
exchanged, as a list. -/
theorem swap_getElem? (s : List Ptr) (i j : Nat) (hi : i < s.length) (hj : j < s.length) :
    ((s.set i s[j]).set j s[i]).length = s.length ∧
    ((s.set i s[j]).set j s[i])[i]? = s[j]? ∧
    ((s.set i s[j]).set j s[i])[j]? = s[i]? ∧
    ∀ k, k ≠ i → k ≠ j → ((s.set i s[j]).set j s[i])[k]? = s[k]? := by
  have hlen : ((s.set i s[j]).set j s[i]).length = s.length := by simp
  refine ⟨hlen, ?_, ?_, ?_⟩
  · rw [List.getElem?_eq_getElem (by rw [hlen]; exact hi), List.getElem?_eq_getElem hj,
      getElem_swap s i j i hi hj hi]
    by_cases h : i = j
    · subst h; simp
    · simp [h]
  · rw [List.getElem?_eq_getElem (by rw [hlen]; exact hj), List.getElem?_eq_getElem hi,
      getElem_swap s i j j hi hj hj]
    simp
  · intro k hki hkj
    by_cases hk : k < s.length
    · rw [List.getElem?_eq_getElem (by rw [hlen]; exact hk), List.getElem?_eq_getElem hk,
        getElem_swap s i j k hi hj hk]
      simp [hki, hkj]
    · rw [List.getElem?_eq_none (by rw [hlen]; omega), List.getElem?_eq_none (by omega)]

theorem swap_swap (s : List Ptr) (i j : Nat) (hi : i < s.length) (hj : j < s.length)
    (hi2 : i < ((s.set i s[j]).set j s[i]).length)
    (hj2 : j < ((s.set i s[j]).set j s[i]).length) :
    (((s.set i s[j]).set j s[i]).set i ((s.set i s[j]).set j s[i])[j]).set j
      ((s.set i s[j]).set j s[i])[i] = s := by
  apply List.ext_getElem
  · simp
  · intro k h1 h2
    have hk : k < ((s.set i s[j]).set j s[i]).length := by simpa using h2
    rw [getElem_swap _ i j k hi2 hj2 hk, getElem_swap s i j j hi hj hj,
      getElem_swap s i j i hi hj hi, getElem_swap s i j k hi hj h2]
    by_cases hkj : k = j
    · subst hkj
      by_cases hik : i = k
      · subst hik; simp
      · simp [hik]
    · by_cases hki : k = i
      · subst hki
        have : ¬ j = k := fun h => hkj h.symm
        simp [hkj, this]
      · simp [hkj, hki]

theorem sliceSwapAt_self (s : List Ptr) (i : Nat) (hi : i < s.length) :
    sliceSwapAt s i i = .ok s := by
  rw [sliceSwapAt_nat s i i hi hi]
  congr 1
  apply List.ext_getElem (by simp)
  intro k h1 h2
  rw [getElem_swap s i i k hi hi h2]
  by_cases h : k = i
  · subst h; simp
  · simp [h]

/-- C11: for indices within bounds each of the four `Swap…At(i, j)` returns
the sequence with the elements at `i` and `j` exchanged, every other position
and the length unchanged (and the other sequence of a game tree untouched);
applied twice it restores the container, and `Swap…At(i, i)` changes
nothing. -/
theorem C11_swap_at (s other : List Ptr) (i j : Nat) (hi : i < s.length)
    (hj : j < s.length) :
    ∃ s' : List Ptr,
      (s'.length = s.length ∧ s'[i]? = s[j]? ∧ s'[j]? = s[i]? ∧
        ∀ k, k ≠ i → k ≠ j → s'[k]? = s[k]?) ∧
      ((Ref.Collection.mk s).SwapGameTreesAt i j = .ok ⟨s'⟩ ∧
        (Ref.GameTree.mk other s).SwapGameTreesAt i j = .ok ⟨other, s'⟩ ∧
        (Ref.GameTree.mk s other).SwapNodesAt i j = .ok ⟨s', other⟩ ∧
        (Ref.Node.mk s).SwapPropertiesAt i j = .ok ⟨s'⟩) ∧
      ((Ref.Collection.mk s').SwapGameTreesAt i j = .ok ⟨s⟩ ∧
        (Ref.GameTree.mk other s').SwapGameTreesAt i j = .ok ⟨other, s⟩ ∧
        (Ref.GameTree.mk s' other).SwapNodesAt i j = .ok ⟨s, other⟩ ∧
        (Ref.Node.mk s').SwapPropertiesAt i j = .ok ⟨s⟩) ∧
      ((Ref.Collection.mk s).SwapGameTreesAt i i = .ok ⟨s⟩ ∧
        (Ref.GameTree.mk other s).SwapGameTreesAt i i = .ok ⟨other, s⟩ ∧
        (Ref.GameTree.mk s other).SwapNodesAt i i = .ok ⟨s, other⟩ ∧
        (Ref.Node.mk s).SwapPropertiesAt i i = .ok ⟨s⟩) := by
  have hlen : ((s.set i s[j]).set j s[i]).length = s.length := by simp
  have h1 := sliceSwapAt_nat s i j hi hj
  have h2 : sliceSwapAt ((s.set i s[j]).set j s[i]) i j = .ok s := by
    rw [sliceSwapAt_nat _ i j (by rw [hlen]; exact hi) (by rw [hlen]; exact hj),
      swap_swap s i j hi hj]
  have h3 := sliceSwapAt_self s i hi
  refine ⟨(s.set i s[j]).set j s[i], swap_getElem? s i j hi hj, ?_, ?_, ?_⟩ <;>
    simp [Ref.Collection.SwapGameTreesAt, Ref.GameTree.SwapGameTreesAt,
      Ref.GameTree.SwapNodesAt, Ref.Node.SwapPropertiesAt, h1, h2, h3, Result.andThen]

/-- Witness of C11 on the container `[7, 8, 9]` with the indices 0 and 2. -/
theorem C11_swap_at_witness :
    (0 < [7, 8, 9].length ∧ 2 < [7, 8, 9].length) ∧
    (Ref.Collection.mk [7, 8, 9]).SwapGameTreesAt 0 2 = .ok ⟨[9, 8, 7]⟩ ∧
    ∃ s' : List Ptr, (Ref.Node.mk [7, 8, 9]).SwapPropertiesAt 0 2 = .ok ⟨s'⟩ ∧
      (Ref.Node.mk s').SwapPropertiesAt 0 2 = .ok ⟨[7, 8, 9]⟩ := by
  obtain ⟨s', _, h2, h3, _⟩ := C11_swap_at [7, 8, 9] [] 0 2 (by decide) (by decide)
  exact ⟨⟨by decide, by decide⟩, by decide, s', h2.2.2.2, h3.2.2.2⟩

theorem sliceSwapAt_panic_iff (s : List Ptr) (i j : Int) :
    (sliceSwapAt s i j = .panic ↔ ¬ (0 ≤ i ∧ i < s.length ∧ 0 ≤ j ∧ j < s.length)) ∧
    ((∃ s', sliceSwapAt s i j = .ok s') ↔ (0 ≤ i ∧ i < s.length ∧ 0 ≤ j ∧ j < s.length)) := by
  unfold sliceSwapAt
  by_cases h : 0 ≤ i ∧ i < s.length ∧ 0 ≤ j ∧ j < s.length
  · simp [h]
  · simp [h]

theorem sliceIndex_in_range_iff (s : List Ptr) (a : Ptr) :
    (0 ≤ sliceIndex s a ∧ sliceIndex s a < s.length) ↔ a ∈ s := by
  by_cases h : a ∈ s
  · rw [sliceIndex_of_mem h]
    have := List.indexOf_lt_length.mpr h
    simp [h]
    omega
  · rw [sliceIndex_of_not_mem h]
    simp [h]

theorem sliceSwap_ref_panic_iff (s : List Ptr) (a b : Ptr) :
    (sliceSwapAt s (sliceIndex s a) (sliceIndex s b) = .panic ↔ a ∉ s ∨ b ∉ s) ∧
    ((∃ s', sliceSwapAt s (sliceIndex s a) (sliceIndex s b) = .ok s') ↔ a ∈ s ∧ b ∈ s) := by
  have h := sliceSwapAt_panic_iff s (sliceIndex s a) (sliceIndex s b)
  have ha := sliceIndex_in_range_iff s a
  have hb := sliceIndex_in_range_iff s b
  constructor
  · rw [h.1]
    constructor
    · intro hn
      by_contra hc
      push_neg at hc
      exact hn ⟨(ha.mpr hc.1).1, (ha.mpr hc.1).2, (hb.mpr hc.2).1, (hb.mpr hc.2).2⟩
    · rintro hc ⟨h1, h2, h3, h4⟩
      rcases hc with hc | hc
      · exact hc (ha.mp ⟨h1, h2⟩)
      · exact hc (hb.mp ⟨h3, h4⟩)
  · rw [h.2]
    constructor
    · rintro ⟨h1, h2, h3, h4⟩
      exact ⟨ha.mp ⟨h1, h2⟩, hb.mp ⟨h3, h4⟩⟩
    · rintro ⟨h1, h2⟩
      exact ⟨(ha.mpr h1).1, (ha.mpr h1).2, (hb.mpr h2).1, (hb.mpr h2).2⟩

theorem andThen_ok_panic_iff {α : Type} (r : Result (List Ptr)) (g : List Ptr → α) :
    ((r.andThen fun s => Result.ok (g s)) = .panic ↔ r = .panic) ∧
    ((∃ c, (r.andThen fun s => Result.ok (g s)) = .ok c) ↔ ∃ s', r = .ok s') := by
  cases r <;> simp [Result.andThen]

/-- C12: at each of the four container levels `Swap…At(i, j)` panics exactly
when `i` or `j` lies outside `[0, len)` and returns normally otherwise; the
by-reference `Swap…(a, b)` panics exactly when `a` or `b` is not an element
of the container, which is when its index lookup returns -1. -/
theorem C12_swap_panics_iff (s other : List Ptr) (i j : Int) (a b : Ptr) :
    (((Ref.Collection.mk s).SwapGameTreesAt i j = .panic ↔
        ¬ (0 ≤ i ∧ i < s.length ∧ 0 ≤ j ∧ j < s.length)) ∧
      ((Ref.GameTree.mk other s).SwapGameTreesAt i j = .panic ↔
        ¬ (0 ≤ i ∧ i < s.length ∧ 0 ≤ j ∧ j < s.length)) ∧
      ((Ref.GameTree.mk s other).SwapNodesAt i j = .panic ↔
        ¬ (0 ≤ i ∧ i < s.length ∧ 0 ≤ j ∧ j < s.length)) ∧
      ((Ref.Node.mk s).SwapPropertiesAt i j = .panic ↔
        ¬ (0 ≤ i ∧ i < s.length ∧ 0 ≤ j ∧ j < s.length))) ∧
    (((∃ c, (Ref.Collection.mk s).SwapGameTreesAt i j = .ok c) ↔
        (0 ≤ i ∧ i < s.length ∧ 0 ≤ j ∧ j < s.length)) ∧
      ((∃ t, (Ref.GameTree.mk other s).SwapGameTreesAt i j = .ok t) ↔
        (0 ≤ i ∧ i < s.length ∧ 0 ≤ j ∧ j < s.length)) ∧
      ((∃ t, (Ref.GameTree.mk s other).SwapNodesAt i j = .ok t) ↔
        (0 ≤ i ∧ i < s.length ∧ 0 ≤ j ∧ j < s.length)) ∧
      ((∃ n, (Ref.Node.mk s).SwapPropertiesAt i j = .ok n) ↔
        (0 ≤ i ∧ i < s.length ∧ 0 ≤ j ∧ j < s.length))) ∧
    (((Ref.Collection.mk s).SwapGameTrees a b = .panic ↔ a ∉ s ∨ b ∉ s) ∧
      ((Ref.GameTree.mk other s).SwapGameTrees a b = .panic ↔ a ∉ s ∨ b ∉ s) ∧
      ((Ref.GameTree.mk s other).SwapNodes a b = .panic ↔ a ∉ s ∨ b ∉ s) ∧
      ((Ref.Node.mk s).SwapProperties a b = .panic ↔ a ∉ s ∨ b ∉ s)) ∧
    (((∃ c, (Ref.Collection.mk s).SwapGameTrees a b = .ok c) ↔ a ∈ s ∧ b ∈ s) ∧
      ((∃ t, (Ref.GameTree.mk other s).SwapGameTrees a b = .ok t) ↔ a ∈ s ∧ b ∈ s) ∧
      ((∃ t, (Ref.GameTree.mk s other).SwapNodes a b = .ok t) ↔ a ∈ s ∧ b ∈ s) ∧
      ((∃ n, (Ref.Node.mk s).SwapProperties a b = .ok n) ↔ a ∈ s ∧ b ∈ s)) ∧
    (((Ref.Collection.mk s).gameTreeIndex a = -1 ↔ a ∉ s) ∧
      ((Ref.GameTree.mk other s).gameTreeIndex a = -1 ↔ a ∉ s) ∧
      ((Ref.GameTree.mk s other).nodeIndex a = -1 ↔ a ∉ s) ∧
      ((Ref.Node.mk s).propertyIndex a = -1 ↔ a ∉ s)) := by
  have h1 := sliceSwapAt_panic_iff s i j
  have h2 := sliceSwap_ref_panic_iff s a b
  have h3 : sliceIndex s a = -1 ↔ a ∉ s := by
    by_cases h : a ∈ s
    · rw [sliceIndex_of_mem h]
      simp only [h, not_true_eq_false, iff_false]
      omega
    · simp [sliceIndex_of_not_mem h, h]
  refine ⟨⟨?_, ?_, ?_, ?_⟩, ⟨?_, ?_, ?_, ?_⟩, ⟨?_, ?_, ?_, ?_⟩, ⟨?_, ?_, ?_, ?_⟩,
    ⟨h3, h3, h3, h3⟩⟩
  all_goals
    simp only [Ref.Collection.SwapGameTrees, Ref.GameTree.SwapGameTrees, Ref.GameTree.SwapNodes,
      Ref.Node.SwapProperties, Ref.Collection.SwapGameTreesAt, Ref.GameTree.SwapGameTreesAt,
      Ref.GameTree.SwapNodesAt, Ref.Node.SwapPropertiesAt, Ref.Collection.gameTreeIndex,
      Ref.GameTree.gameTreeIndex, Ref.GameTree.nodeIndex, Ref.Node.propertyIndex]
  all_goals first
    | exact ((andThen_ok_panic_iff _ _).1).trans h1.1
    | exact ((andThen_ok_panic_iff _ _).2).trans h1.2
    | exact ((andThen_ok_panic_iff _ _).1).trans h2.1
    | exact ((andThen_ok_panic_iff _ _).2).trans h2.2

theorem removeProperty_absent (node : Ref.Node) (p : Ptr) (h : p ∉ node.Properties) :
    node.RemoveProperty p = .ok node := by
  unfold Ref.Node.RemoveProperty
  rw [removePropertyFrom_eq, if_neg h]

/-- C13 (the code at the failing input): `Node.RemoveProperty` of a property
that the node does not hold returns normally and leaves the node as it is,
while the same call on the other containers (`RemoveGameTree`, `RemoveNode`),
whose index lookup returns -1, panics; `RemovePropertyAt` with an index
outside `[0, len)` panics. -/
theorem C13_remove_absent_property_returns :
    (Ref.Node.mk [1]).RemoveProperty 2 = .ok ⟨[1]⟩ ∧
    (Ref.Node.mk []).RemoveProperty 2 = .ok ⟨[]⟩ ∧
    (Ref.Collection.mk [1]).RemoveGameTree 2 = .panic ∧
    (Ref.GameTree.mk [1] [1]).RemoveGameTree 2 = .panic ∧
    (Ref.GameTree.mk [1] [1]).RemoveNode 2 = .panic ∧
    (Ref.Node.mk [1]).RemovePropertyAt 1 = .panic ∧
    (Ref.Node.mk [1]).RemovePropertyAt (-1) = .panic := by
  decide

/-- C14: `Collection.AddGameTree`, `GameTree.AddGameTree`, `GameTree.AddNode`
and `Node.AddProperty` append the item as the new last element: the length
grows by one, the previous elements keep their positions, the other sequence
of a game tree is unchanged, and the item is appended whether or not it is
already present (its number of occurrences grows by one). -/
theorem C14_add_appends (s other : List Ptr) (x : Ptr) :
    ((Ref.Collection.mk s).AddGameTree x = ⟨s ++ [x]⟩ ∧
      (Ref.GameTree.mk other s).AddGameTree x = ⟨other, s ++ [x]⟩ ∧
      (Ref.GameTree.mk s other).AddNode x = ⟨s ++ [x], other⟩ ∧
      (Ref.Node.mk s).AddProperty x = ⟨s ++ [x]⟩) ∧
    (s ++ [x]).length = s.length + 1 ∧
    (∀ k, k < s.length → (s ++ [x])[k]? = s[k]?) ∧
    (s ++ [x])[s.length]? = some x ∧
    (s ++ [x]).getLast? = some x ∧
    (s ++ [x]).count x = s.count x + 1 := by
  refine ⟨⟨rfl, rfl, rfl, rfl⟩, by simp, ?_, by simp, by simp, by simp⟩
  intro k hk
  rw [List.getElem?_append_left hk]

end MutationAPI

/-! ## Constructors -/

section Constructors
open Ref

theorem getElem?_length_append {α : Type} (l : List α) (x : α) :
    (l ++ [x])[l.length]? = some x := by simp

theorem getElem?_append_of_some {α : Type} {l : List α} {i : Nat} {a : α} (x : α)
    (h : l[i]? = some a) : (l ++ [x])[i]? = some a := by
  have hi : i < l.length := by
    by_contra hn
    rw [List.getElem?_eq_none (by omega)] at h
    cases h
  rw [List.getElem?_append_left hi, h]

theorem lt_length_of_getElem? {α : Type} {l : List α} {i : Nat} {a : α}
    (h : l[i]? = some a) : i < l.length := by
  by_contra hn
  rw [List.getElem?_eq_none (by omega)] at h
  cases h

theorem NewNode_eq (h : Heap) (t : Ptr) (ns gs : List Ptr)
    (ht : h.gameTrees[t]? = some ⟨ns, gs⟩) :
    Ref.GameTree.NewNode h t =
      .ok ({ h with nodes := h.nodes ++ [Ref.Node.mk []],
                    gameTrees := h.gameTrees.set t ⟨ns ++ [h.nodes.length], gs⟩ },
        h.nodes.length) := by
  simp [Ref.GameTree.NewNode, Heap.AddNode, ht, Result.andThen, Ref.GameTree.AddNode]

theorem Collection_NewGameTree_eq (h : Heap) (c : Ptr) (s : List Ptr)
    (hc : h.collections[c]? = some ⟨s⟩) :
    Ref.Collection.NewGameTree h c =
      .ok ({ h with collections := h.collections.set c ⟨s ++ [h.gameTrees.length]⟩,
                    gameTrees := h.gameTrees ++ [⟨[h.nodes.length], []⟩],
                    nodes := h.nodes ++ [Ref.Node.mk []] },
        h.gameTrees.length, h.nodes.length) := by
  unfold Ref.Collection.NewGameTree
  simp only [Heap.AddGameTree, hc, Result.andThen, Ref.Collection.AddGameTree]
  rw [NewNode_eq _ _ [] [] (by simp)]
  simp

theorem set_set_append {α : Type} (l : List α) (e a b : α) (t : Nat) (ht : t < l.length) :
    ((l ++ [e]).set t a).set l.length b = l.set t a ++ [b] := by
  rw [List.set_append_left _ _ ht]
  have hl : l.length = (l.set t a).length := by simp
  conv_lhs => rw [hl]
  rw [List.set_append_right _ _ (le_refl _)]
  simp

theorem GameTree_NewGameTree_eq (h : Heap) (t : Ptr) (ns gs : List Ptr)
    (ht : h.gameTrees[t]? = some ⟨ns, gs⟩) :
    Ref.GameTree.NewGameTree h t =
      .ok ({ h with gameTrees := h.gameTrees.set t ⟨ns, gs ++ [h.gameTrees.length]⟩ ++
                      [⟨[h.nodes.length], []⟩],
                    nodes := h.nodes ++ [Ref.Node.mk []] },
        h.gameTrees.length, h.nodes.length) := by
  have hlt := lt_length_of_getElem? ht
  have hne : t ≠ h.gameTrees.length := Nat.ne_of_lt hlt
  have key : ((h.gameTrees ++ [Ref.GameTree.mk [] []]).set t
      ⟨ns, gs ++ [h.gameTrees.length]⟩)[h.gameTrees.length]? = some ⟨[], []⟩ := by
    rw [List.getElem?_set_ne hne]
    simp
  unfold Ref.GameTree.NewGameTree
  simp only [Heap.AddChildGameTree, getElem?_append_of_some _ ht, Result.andThen,
    Ref.GameTree.AddGameTree]
  rw [NewNode_eq _ _ [] [] key]
  simp only [List.nil_append, set_set_append _ _ _ _ _ hlt]

theorem NewCollection_eq (h : Heap) :
    Ref.NewCollection h =
      .ok ({ h with collections := h.collections ++ [⟨[h.gameTrees.length]⟩],
                    gameTrees := h.gameTrees ++ [⟨[h.nodes.length], []⟩],
                    nodes := h.nodes ++ [Ref.Node.mk []] },
        h.collections.length, h.gameTrees.length, h.nodes.length) := by
  have key := Collection_NewGameTree_eq
    { h with collections := h.collections ++ [Ref.Collection.mk []] } h.collections.length []
    (by simp)
  simp only [Ref.NewCollection, key, Result.andThen]
  simp

theorem NewProperty_eq (h : Heap) (node : Ptr) (ps : List Ptr) (ident : List Char)
    (values : List (List Char)) (hn : h.nodes[node]? = some ⟨ps⟩) :
    Ref.Node.NewProperty h node ident values =
      .ok ({ h with nodes := h.nodes.set node ⟨ps ++ [h.properties.length]⟩,
                    properties := h.properties ++ [⟨ident, values⟩] },
        h.properties.length) := by
  simp [Ref.Node.NewProperty, Heap.AddProperty, hn, Result.andThen, Ref.Node.AddProperty]

/-- C15: on every heap `NewCollection` returns a new collection that holds
exactly the returned game tree, which holds exactly the returned node, without
properties, and no child tree; `NewGameTree` on a collection or on a game
tree of the heap appends one new tree holding exactly one new empty node;
`NewProperty` on a node of the heap appends one new property with the given
ident and values. -/
theorem C15_constructors :
    (∀ h : Heap, ∃ h' c' gt n, Ref.NewCollection h = .ok (h', c', gt, n) ∧
      (h.collections[c']? = none ∧ h.gameTrees[gt]? = none ∧ h.nodes[n]? = none) ∧
      h'.collections[c']? = some ⟨[gt]⟩ ∧ h'.gameTrees[gt]? = some ⟨[n], []⟩ ∧
      h'.nodes[n]? = some ⟨[]⟩) ∧
    (∀ (h : Heap) (c : Ptr) (s : List Ptr), h.collections[c]? = some ⟨s⟩ →
      ∃ h' gt n, Ref.Collection.NewGameTree h c = .ok (h', gt, n) ∧
        (h.gameTrees[gt]? = none ∧ h.nodes[n]? = none) ∧
        h'.collections[c]? = some ⟨s ++ [gt]⟩ ∧ h'.gameTrees[gt]? = some ⟨[n], []⟩ ∧
        h'.nodes[n]? = some ⟨[]⟩) ∧
    (∀ (h : Heap) (t : Ptr) (ns gs : List Ptr), h.gameTrees[t]? = some ⟨ns, gs⟩ →
      ∃ h' gt n, Ref.GameTree.NewGameTree h t = .ok (h', gt, n) ∧
        (h.gameTrees[gt]? = none ∧ h.nodes[n]? = none) ∧
        h'.gameTrees[t]? = some ⟨ns, gs ++ [gt]⟩ ∧ h'.gameTrees[gt]? = some ⟨[n], []⟩ ∧
        h'.nodes[n]? = some ⟨[]⟩) ∧
    (∀ (h : Heap) (node : Ptr) (ps : List Ptr) (ident : List Char)
        (values : List (List Char)), h.nodes[node]? = some ⟨ps⟩ →
      ∃ h' p, Ref.Node.NewProperty h node ident values = .ok (h', p) ∧
        h.properties[p]? = none ∧
        h'.nodes[node]? = some ⟨ps ++ [p]⟩ ∧ h'.properties[p]? = some ⟨ident, values⟩) := by
  refine ⟨?_, ?_, ?_, ?_⟩
  · intro h
    exact ⟨_, _, _, _, NewCollection_eq h, by simp⟩
  · intro h c s hc
    have hcl := lt_length_of_getElem? hc
    exact ⟨_, _, _, Collection_NewGameTree_eq h c s hc, by simp [hcl]⟩
  · intro h t ns gs ht
    have htl := lt_length_of_getElem? ht
    refine ⟨_, _, _, GameTree_NewGameTree_eq h t ns gs ht, by simp, ?_, ?_, by simp⟩
    · rw [List.getElem?_append_left (by simpa using htl)]
      simp [htl]
    · have hl : h.gameTrees.length =
          (h.gameTrees.set t ⟨ns, gs ++ [h.gameTrees.length]⟩).length := by simp
      conv_lhs => rw [hl]
      simp
  · intro h node ps ident values hn
    have hnl := lt_length_of_getElem? hn
    exact ⟨_, _, NewProperty_eq h node ps ident values hn, by simp [hnl]⟩

/-- Witness of C15 on the empty heap and on the heap that `NewCollection`
builds from it. -/
theorem C15_constructors_witness :
    Ref.NewCollection ⟨[], [], [], []⟩ = .ok (⟨[⟨[0]⟩], [⟨[0], []⟩], [⟨[]⟩], []⟩, 0, 0, 0) ∧
    Ref.Collection.NewGameTree ⟨[⟨[0]⟩], [⟨[0], []⟩], [⟨[]⟩], []⟩ 0 =
      .ok (⟨[⟨[0, 1]⟩], [⟨[0], []⟩, ⟨[1], []⟩], [⟨[]⟩, ⟨[]⟩], []⟩, 1, 1) ∧
    Ref.GameTree.NewGameTree ⟨[⟨[0]⟩], [⟨[0], []⟩], [⟨[]⟩], []⟩ 0 =
      .ok (⟨[⟨[0]⟩], [⟨[0], [1]⟩, ⟨[1], []⟩], [⟨[]⟩, ⟨[]⟩], []⟩, 1, 1) ∧
    Ref.Node.NewProperty ⟨[], [], [⟨[]⟩], []⟩ 0 ['F', 'F'] [['1']] =
      .ok (⟨[], [], [⟨[0]⟩], [⟨['F', 'F'], [['1']]⟩]⟩, 0) ∧
    (∃ h' c' gt n, Ref.NewCollection ⟨[], [], [], []⟩ = .ok (h', c', gt, n) ∧
      h'.collections[c']? = some ⟨[gt]⟩ ∧ h'.gameTrees[gt]? = some ⟨[n], []⟩ ∧
      h'.nodes[n]? = some ⟨[]⟩) ∧
    ∃ h' p, Ref.Node.NewProperty ⟨[], [], [⟨[]⟩], []⟩ 0 ['F', 'F'] [['1']] = .ok (h', p) ∧
      h'.nodes[0]? = some ⟨[] ++ [p]⟩ ∧ h'.properties[p]? = some ⟨['F', 'F'], [['1']]⟩ := by
  obtain ⟨hA, _, _, hD⟩ := C15_constructors
  obtain ⟨h1, c1, g1, n1, e1, _, e2, e3, e4⟩ := hA ⟨[], [], [], []⟩
  obtain ⟨h', p, e5, _, e6, e7⟩ := hD ⟨[], [], [⟨[]⟩], []⟩ 0 [] ['F', 'F'] [['1']] rfl
  exact ⟨rfl, rfl, rfl, rfl, ⟨h1, c1, g1, n1, e1, e2, e3, e4⟩, h', p, e5, e6, e7⟩

/-! ### Validity of the collections built by the constructors -/

theorem collect_map_all {α β : Type} (f : α → Option β) (P : β → Prop) :
    ∀ xs : List α, (∃ vs, collect (xs.map f) = some vs ∧ ∀ v ∈ vs, P v) ↔
      ∀ x ∈ xs, ∃ v, f x = some v ∧ P v
  | [] => by simp [collect]
  | x :: xs => by
    have ih := collect_map_all f P xs
    simp only [List.map_cons, List.mem_cons, forall_eq_or_imp]
    rw [← ih]
    cases hx : f x with
    | none => simp [collect]
    | some v =>
      simp only [collect, Option.map_eq_some', Option.some.injEq, exists_eq_left']
      constructor
      · rintro ⟨vs, ⟨l, hl, rfl⟩, hP⟩
        exact ⟨hP v (by simp), l, hl, fun w hw => hP w (by simp [hw])⟩
      · rintro ⟨hv, l, hl, hP⟩
        refine ⟨v :: l, ⟨l, hl, rfl⟩, ?_⟩
        intro w hw
        simp only [List.mem_cons] at hw
        rcases hw with hw | hw
        · subst hw; exact hv
        · exact hP w hw

theorem collect_length {α : Type} : ∀ (l : List (Option α)) (vs : List α),
    collect l = some vs → vs.length = l.length
  | [], vs, h => by
    simp only [collect, Option.some.injEq] at h
    subst h; rfl
  | none :: _, vs, h => by simp [collect] at h
  | some a :: rest, vs, h => by
    simp only [collect, Option.map_eq_some'] at h
    obtain ⟨l, hl, rfl⟩ := h
    simp [collect_length rest l hl]

theorem nodeOK_iff (h : Heap) (n : Ptr) :
    h.NodeOK n ↔ ∃ ps, h.nodes[n]? = some ⟨ps⟩ ∧
      ∀ p ∈ ps, ∃ x, h.properties[p]? = some x ∧ validProperty x = true := by
  unfold Heap.NodeOK Heap.readNode
  cases hn : h.nodes[n]? with
  | none => simp
  | some nd =>
    obtain ⟨ps⟩ := nd
    simp only [Option.map_eq_some', Option.some.injEq, Ref.Node.mk.injEq, exists_eq_left']
    rw [← collect_map_all]
    constructor
    · rintro ⟨nv, ⟨xs, hxs, rfl⟩, hP⟩
      exact ⟨xs, hxs, hP⟩
    · rintro ⟨xs, hxs, hP⟩
      exact ⟨⟨xs⟩, ⟨xs, hxs, rfl⟩, hP⟩

theorem treeOK_zero (h : Heap) (t : Ptr) : ¬ h.TreeOK 0 t := by
  rintro ⟨v, hv, _⟩
  simp [Heap.readGameTree] at hv

theorem treeOK_succ (h : Heap) (d : Nat) (t : Ptr) :
    h.TreeOK (d + 1) t ↔ ∃ ns gs, h.gameTrees[t]? = some ⟨ns, gs⟩ ∧ ns ≠ [] ∧
      (∀ n ∈ ns, h.NodeOK n) ∧ ∀ g ∈ gs, h.TreeOK d g := by
  have hN := collect_map_all h.readNode
    (fun nv : Sgf.Node => ∀ p ∈ nv.Properties, validProperty p = true)
  have hT := collect_map_all (h.readGameTree d) (fun v : Sgf.GameTree => validGameTree v = true)
  constructor
  · rintro ⟨v, hv, hvalid⟩
    simp only [Heap.readGameTree] at hv
    cases ht : h.gameTrees[t]? with
    | none => rw [ht] at hv; simp at hv
    | some tr =>
      obtain ⟨ns, gs⟩ := tr
      rw [ht] at hv
      simp only at hv
      cases h1 : collect (ns.map h.readNode) with
      | none => rw [h1] at hv; simp at hv
      | some nodes =>
        cases h2 : collect (gs.map (h.readGameTree d)) with
        | none => rw [h1, h2] at hv; simp at hv
        | some gts =>
          rw [h1, h2] at hv
          simp only [Option.some.injEq] at hv
          subst hv
          rw [validGameTree_mk] at hvalid
          obtain ⟨hne, hprops, hsub⟩ := hvalid
          refine ⟨ns, gs, rfl, ?_, ?_, ?_⟩
          · intro h0
            subst h0
            simp only [List.map_nil, collect, Option.some.injEq] at h1
            exact hne h1.symm
          · exact (hN ns).mp ⟨nodes, h1, hprops⟩
          · exact (hT gs).mp ⟨gts, h2, (validGameTrees_eq_true gts).mp hsub⟩
  · rintro ⟨ns, gs, ht, hne, hnodes, htrees⟩
    obtain ⟨nodes, h1, hprops⟩ := (hN ns).mpr hnodes
    obtain ⟨gts, h2, hsub⟩ := (hT gs).mpr htrees
    refine ⟨.mk nodes gts, ?_, ?_⟩
    · simp only [Heap.readGameTree, ht, h1, h2]
    · rw [validGameTree_mk]
      refine ⟨?_, hprops, (validGameTrees_eq_true gts).mpr hsub⟩
      intro h0
      subst h0
      have := collect_length _ _ h1
      simp only [List.length_nil, List.length_map] at this
      exact hne (List.length_eq_zero.mp this.symm)

theorem validAt_iff (h : Heap) (c : Ptr) :
    h.ValidAt c ↔ ∃ s, h.collections[c]? = some ⟨s⟩ ∧ s ≠ [] ∧
      ∀ g ∈ s, h.TreeOK h.gameTrees.length g := by
  have hT := collect_map_all (h.readGameTree h.gameTrees.length)
    (fun v : Sgf.GameTree => validGameTree v = true)
  unfold Heap.ValidAt Heap.readCollection
  cases hc : h.collections[c]? with
  | none => simp
  | some col =>
    obtain ⟨s⟩ := col
    simp only [Option.map_eq_some', Option.some.injEq, Ref.Collection.mk.injEq, exists_eq_left']
    constructor
    · rintro ⟨v, ⟨gts, h1, rfl⟩, hvalid⟩
      have hv := (valid_iff _).mp hvalid
      have hvs : validGameTrees gts = true := by
        unfold Sgf.Collection.Valid at hvalid
        split_ifs at hvalid
        exact hvalid
      refine ⟨?_, (hT s).mp ⟨gts, h1, (validGameTrees_eq_true gts).mp hvs⟩⟩
      intro h0
      subst h0
      simp only [List.map_nil, collect, Option.some.injEq] at h1
      exact hv.1 h1.symm
    · rintro ⟨hne, htrees⟩
      obtain ⟨gts, h1, hsub⟩ := (hT s).mpr htrees
      refine ⟨⟨gts⟩, ⟨gts, h1, rfl⟩, ?_⟩
      have hlen : gts.length ≠ 0 := by
        have := collect_length _ _ h1
        simp only [List.length_map] at this
        rw [this]
        exact fun h0 => hne (List.length_eq_zero.mp h0)
      unfold Sgf.Collection.Valid
      simp only [hlen, if_false]
      exact (validGameTrees_eq_true gts).mpr hsub

theorem grows_node {k : Nat} {h h' : Heap} (hg : h.Grows k h') {n : Ptr} (hn : h.NodeOK n) :
    h'.NodeOK n := by
  rw [nodeOK_iff] at hn ⊢
  obtain ⟨ps, h1, h2⟩ := hn
  obtain ⟨ps', h3, h4⟩ := hg.2.1 n ps h1
  refine ⟨ps ++ ps', h3, ?_⟩
  intro p hp
  rcases List.mem_append.mp hp with hp | hp
  · obtain ⟨x, hx, hv⟩ := h2 p hp
    exact ⟨x, hg.1 p x hx, hv⟩
  · exact h4 p hp

theorem fresh_treeOK {h : Heap} {g : Ptr} (hf : h.Fresh g) (d : Nat) : h.TreeOK (d + 1) g := by
  obtain ⟨n, h1, h2⟩ := hf
  rw [treeOK_succ]
  refine ⟨[n], [], h1, by simp, ?_, by simp⟩
  intro m hm
  simp only [List.mem_singleton] at hm
  subst hm
  rw [nodeOK_iff]
  exact ⟨[], h2, by simp⟩

theorem grows_tree {k : Nat} {h h' : Heap} (hg : h.Grows k h') :
    ∀ (d : Nat) (t : Ptr), h.TreeOK d t → h'.TreeOK (d + k) t
  | 0, t, ht => absurd ht (treeOK_zero h t)
  | d + 1, t, ht => by
    rw [treeOK_succ] at ht
    obtain ⟨ns, gs, h1, hne, hnodes, htrees⟩ := ht
    obtain ⟨ns', gs', h2, hnew, hfresh⟩ := hg.2.2.1 t ns gs h1
    rw [Nat.add_right_comm, treeOK_succ]
    refine ⟨ns ++ ns', gs ++ gs', h2, by simp [hne], ?_, ?_⟩
    · intro n hn
      rcases List.mem_append.mp hn with hn | hn
      · exact grows_node hg (hnodes n hn)
      · rw [nodeOK_iff]
        exact ⟨[], hnew n hn, by simp⟩
    · intro g hgm
      rcases List.mem_append.mp hgm with hgm | hgm
      · exact grows_tree hg d g (htrees g hgm)
      · obtain ⟨hk, hf⟩ := hfresh g hgm
        obtain ⟨m, hm⟩ : ∃ m, d + k = m + 1 := ⟨d + k - 1, by omega⟩
        rw [hm]
        exact fresh_treeOK hf m

theorem grows_validAt {k : Nat} {h h' : Heap} (hg : h.Grows k h') {c : Ptr}
    (hc : h.ValidAt c) : h'.ValidAt c := by
  rw [validAt_iff] at hc ⊢
  obtain ⟨s, h1, hne, htrees⟩ := hc
  obtain ⟨s', h2, hfresh⟩ := hg.2.2.2.1 c s h1
  refine ⟨s ++ s', h2, by simp [hne], ?_⟩
  rw [hg.2.2.2.2]
  intro g hgm
  rcases List.mem_append.mp hgm with hgm | hgm
  · exact grows_tree hg _ g (htrees g hgm)
  · obtain ⟨hk, hf⟩ := hfresh g hgm
    obtain ⟨m, hm⟩ : ∃ m, h.gameTrees.length + k = m + 1 :=
      ⟨h.gameTrees.length + k - 1, by omega⟩
    rw [hm]
    exact fresh_treeOK hf m

theorem getElem?_set_self_of_some {α : Type} {l : List α} {i : Nat} {a : α} (b : α)
    (h : l[i]? = some a) : (l.set i b)[i]? = some b := by
  have hi := lt_length_of_getElem? h
  simp [List.getElem?_set_self, hi]

theorem grows_NewNode (h : Heap) (t : Ptr) (ns gs : List Ptr)
    (ht : h.gameTrees[t]? = some ⟨ns, gs⟩) :
    h.Grows 0 { h with nodes := h.nodes ++ [Ref.Node.mk []],
                       gameTrees := h.gameTrees.set t ⟨ns ++ [h.nodes.length], gs⟩ } := by
  refine ⟨fun p x hp => hp, ?_, ?_, ?_, by simp⟩
  · intro n ps hn
    exact ⟨[], by simpa using getElem?_append_of_some _ hn, by simp⟩
  · intro t' ns' gs' ht'
    by_cases he : t' = t
    · subst he
      rw [ht] at ht'
      cases ht'
      refine ⟨[h.nodes.length], [], ?_, ?_, by simp⟩
      · simpa using getElem?_set_self_of_some _ ht
      · intro n hn
        simp only [List.mem_singleton] at hn
        subst hn
        simp
    · refine ⟨[], [], ?_, by simp, by simp⟩
      simp only [List.append_nil]
      rw [List.getElem?_set_ne (Ne.symm he)]
      exact ht'
  · intro c s hc
    exact ⟨[], by simpa using hc, by simp⟩

theorem grows_NewProperty (h : Heap) (node : Ptr) (ps : List Ptr) (ident : List Char)
    (values : List (List Char)) (hn : h.nodes[node]? = some ⟨ps⟩)
    (hv : validProperty ⟨ident, values⟩ = true) :
    h.Grows 0 { h with nodes := h.nodes.set node ⟨ps ++ [h.properties.length]⟩,
                       properties := h.properties ++ [⟨ident, values⟩] } := by
  refine ⟨fun p x hp => getElem?_append_of_some _ hp, ?_, ?_, ?_, by simp⟩
  · intro n ps' hn'
    by_cases he : n = node
    · subst he
      rw [hn] at hn'
      cases hn'
      refine ⟨[h.properties.length], ?_, ?_⟩
      · simpa using getElem?_set_self_of_some _ hn
      · intro p hp
        simp only [List.mem_singleton] at hp
        subst hp
        exact ⟨⟨ident, values⟩, by simp, hv⟩
    · refine ⟨[], ?_, by simp⟩
      simp only [List.append_nil]
      rw [List.getElem?_set_ne (Ne.symm he)]
      exact hn'
  · intro t ns gs ht
    exact ⟨[], [], by simpa using ht, by simp, by simp⟩
  · intro c s hc
    exact ⟨[], by simpa using hc, by simp⟩

theorem grows_Collection_NewGameTree (h : Heap) (c : Ptr) (s : List Ptr)
    (hc : h.collections[c]? = some ⟨s⟩) :
    h.Grows 1 { h with collections := h.collections.set c ⟨s ++ [h.gameTrees.length]⟩,
                       gameTrees := h.gameTrees ++ [⟨[h.nodes.length], []⟩],
                       nodes := h.nodes ++ [Ref.Node.mk []] } := by
  refine ⟨fun p x hp => hp, ?_, ?_, ?_, by simp⟩
  · intro n ps hn
    exact ⟨[], by simpa using getElem?_append_of_some _ hn, by simp⟩
  · intro t ns gs ht
    exact ⟨[], [], by simpa using getElem?_append_of_some _ ht, by simp, by simp⟩
  · intro c' s' hc'
    by_cases he : c' = c
    · subst he
      rw [hc] at hc'
      cases hc'
      refine ⟨[h.gameTrees.length], ?_, ?_⟩
      · simpa using getElem?_set_self_of_some _ hc
      · intro g hg
        simp only [List.mem_singleton] at hg
        subst hg
        exact ⟨Nat.one_pos, h.nodes.length, by simp, by simp⟩
    · refine ⟨[], ?_, by simp⟩
      simp only [List.append_nil]
      rw [List.getElem?_set_ne (Ne.symm he)]
      exact hc'

theorem grows_GameTree_NewGameTree (h : Heap) (t : Ptr) (ns gs : List Ptr)
    (ht : h.gameTrees[t]? = some ⟨ns, gs⟩) :
    h.Grows 1 { h with gameTrees := h.gameTrees.set t ⟨ns, gs ++ [h.gameTrees.length]⟩ ++
                         [⟨[h.nodes.length], []⟩],
                       nodes := h.nodes ++ [Ref.Node.mk []] } := by
  have hlen : (h.gameTrees.set t ⟨ns, gs ++ [h.gameTrees.length]⟩).length =
      h.gameTrees.length := by simp
  have hnew : (h.gameTrees.set t ⟨ns, gs ++ [h.gameTrees.length]⟩ ++
      [Ref.GameTree.mk [h.nodes.length] []])[h.gameTrees.length]? =
        some ⟨[h.nodes.length], []⟩ := by
    conv_lhs => rw [← hlen]
    simp
  refine ⟨fun p x hp => hp, ?_, ?_, ?_, by simp⟩
  · intro n ps hn
    exact ⟨[], by simpa using getElem?_append_of_some _ hn, by simp⟩
  · intro t' ns' gs' ht'
    by_cases he : t' = t
    · subst he
      rw [ht] at ht'
      cases ht'
      refine ⟨[], [h.gameTrees.length], ?_, by simp, ?_⟩
      · simpa using getElem?_append_of_some _ (getElem?_set_self_of_some _ ht)
      · intro g hg
        simp only [List.mem_singleton] at hg
        subst hg
        exact ⟨Nat.one_pos, h.nodes.length, hnew, by simp⟩
    · refine ⟨[], [], ?_, by simp, by simp⟩
      simp only [List.append_nil]
      apply getElem?_append_of_some
      rw [List.getElem?_set_ne (Ne.symm he)]
      exact ht'
  · intro c s hc
    exact ⟨[], by simpa using hc, by simp⟩

theorem grows_NewCollection (h : Heap) :
    h.Grows 1 { h with collections := h.collections ++ [⟨[h.gameTrees.length]⟩],
                       gameTrees := h.gameTrees ++ [⟨[h.nodes.length], []⟩],
                       nodes := h.nodes ++ [Ref.Node.mk []] } := by
  refine ⟨fun p x hp => hp, ?_, ?_, ?_, by simp⟩
  · intro n ps hn
    exact ⟨[], by simpa using getElem?_append_of_some _ hn, by simp⟩
  · intro t ns gs ht
    exact ⟨[], [], by simpa using getElem?_append_of_some _ ht, by simp, by simp⟩
  · intro c s hc
    exact ⟨[], by simpa using getElem?_append_of_some _ hc, by simp⟩

theorem validAt_NewCollection (h : Heap) :
    Heap.ValidAt { h with collections := h.collections ++ [⟨[h.gameTrees.length]⟩],
                          gameTrees := h.gameTrees ++ [⟨[h.nodes.length], []⟩],
                          nodes := h.nodes ++ [Ref.Node.mk []] } h.collections.length := by
  rw [validAt_iff]
  refine ⟨[h.gameTrees.length], by simp, by simp, ?_⟩
  intro g hg
  simp only [List.mem_singleton] at hg
  subst hg
  simp only [List.length_append, List.length_singleton]
  exact fresh_treeOK ⟨h.nodes.length, by simp, by simp⟩ _

theorem getElem?_of_lt {α : Type} {l : List α} {i : Nat} (h : i < l.length) :
    ∃ a, l[i]? = some a := ⟨l[i], List.getElem?_eq_getElem h⟩

/-- A proper call through a pointer that addresses an object returns, and
every collection that was valid before the call is valid after it; the
collections allocated so far stay, and `NewCollection` allocates one more,
which is valid. -/
theorem run_validAt (h : Heap) (call : Call) (hp : call.Proper)
    (hr : call.receiverIn h = true) :
    ∃ h', call.run h = .ok h' ∧ (∀ c, h.ValidAt c → h'.ValidAt c) ∧
      (∀ c, c < h'.collections.length → c < h.collections.length ∨ h'.ValidAt c) := by
  unfold Call.run
  rw [if_pos hr]
  cases call with
  | newCollection =>
    refine ⟨_, by simp only [NewCollection_eq, Result.andThen]; rfl, ?_, ?_⟩
    · intro c hc
      exact grows_validAt (grows_NewCollection h) hc
    · intro c hc
      simp only [List.length_append, List.length_singleton] at hc
      rcases Nat.lt_or_ge c h.collections.length with hlt | hge
      · exact Or.inl hlt
      · have : c = h.collections.length := by omega
        subst this
        exact Or.inr (validAt_NewCollection h)
  | collectionNewGameTree c0 =>
    simp only [Call.receiverIn, decide_eq_true_eq] at hr
    obtain ⟨⟨s⟩, hc0⟩ := getElem?_of_lt hr
    refine ⟨_, by simp only [Collection_NewGameTree_eq h c0 s hc0, Result.andThen]; rfl, ?_, ?_⟩
    · intro c hc
      exact grows_validAt (grows_Collection_NewGameTree h c0 s hc0) hc
    · intro c hc
      simp only [List.length_set] at hc
      exact Or.inl hc
  | gameTreeNewGameTree t =>
    simp only [Call.receiverIn, decide_eq_true_eq] at hr
    obtain ⟨⟨ns, gs⟩, ht⟩ := getElem?_of_lt hr
    refine ⟨_, by simp only [GameTree_NewGameTree_eq h t ns gs ht, Result.andThen]; rfl, ?_, ?_⟩
    · intro c hc
      exact grows_validAt (grows_GameTree_NewGameTree h t ns gs ht) hc
    · intro c hc
      exact Or.inl hc
  | gameTreeNewNode t =>
    simp only [Call.receiverIn, decide_eq_true_eq] at hr
    obtain ⟨⟨ns, gs⟩, ht⟩ := getElem?_of_lt hr
    refine ⟨_, by simp only [NewNode_eq h t ns gs ht, Result.andThen]; rfl, ?_, ?_⟩
    · intro c hc
      exact grows_validAt (grows_NewNode h t ns gs ht) hc
    · intro c hc
      exact Or.inl hc
  | nodeNewProperty n ident values =>
    simp only [Call.receiverIn, decide_eq_true_eq] at hr
    obtain ⟨⟨ps⟩, hn⟩ := getElem?_of_lt hr
    have hv : validProperty ⟨ident, values⟩ = true := (validProperty_eq_true _).mpr hp
    refine ⟨_, by simp only [NewProperty_eq h n ps ident values hn, Result.andThen]; rfl, ?_, ?_⟩
    · intro c hc
      exact grows_validAt (grows_NewProperty h n ps ident values hn hv) hc
    · intro c hc
      exact Or.inl hc

theorem run_ok_receiverIn {h h' : Heap} {call : Call} (e : call.run h = .ok h') :
    call.receiverIn h = true := by
  unfold Call.run at e
  by_contra hr
  rw [if_neg hr] at e
  cases e

theorem runCalls_validAt : ∀ (calls : List Call) (h h' : Heap),
    (∀ call ∈ calls, call.Proper) → (∀ c, c < h.collections.length → h.ValidAt c) →
    runCalls h calls = .ok h' → ∀ c, c < h'.collections.length → h'.ValidAt c
  | [], h, h', _, hall, e, c, hc => by
    simp only [runCalls] at e
    cases e
    exact hall c hc
  | call :: rest, h, h', hp, hall, e, c, hc => by
    simp only [runCalls] at e
    cases h1 : call.run h with
    | error _ => rw [h1] at e; cases e
    | panic => rw [h1] at e; cases e
    | ok h1' =>
      rw [h1] at e
      simp only [Result.andThen] at e
      obtain ⟨h2, h3, h4, h5⟩ := run_validAt h call (hp call (by simp)) (run_ok_receiverIn h1)
      rw [h1] at h3
      cases h3
      refine runCalls_validAt rest h1' h' (fun x hx => hp x (by simp [hx])) ?_ e c hc
      intro c' hc'
      rcases h5 c' hc' with hlt | hv
      · exact h4 c' (hall c' hlt)
      · exact hv

/-- C33: `NewCollection` returns, on every heap, a collection that is valid.
Every call of `Collection.NewGameTree`, `GameTree.NewGameTree`,
`GameTree.NewNode` and of `Node.NewProperty` with a non-empty ident and at
least one value, made through a pointer that addresses an object, returns and
leaves every valid collection valid (so does `NewCollection`).  Hence after
any sequence of such calls that starts from the empty heap every collection
of the heap is valid, and `Sgf` returns its text for every format, without
panic. -/
theorem C33_constructors_keep_validity :
    (∀ h : Heap, ∃ h' c t n, Ref.NewCollection h = .ok (h', c, t, n) ∧ h'.ValidAt c) ∧
    (∀ (h : Heap) (call : Call) (c : Ptr), call.Proper → call.receiverIn h = true →
      h.ValidAt c → ∃ h', call.run h = .ok h' ∧ h'.ValidAt c) ∧
    (∀ (calls : List Call) (h : Heap), (∀ call ∈ calls, call.Proper) →
      runCalls ⟨[], [], [], []⟩ calls = .ok h → ∀ c, c < h.collections.length →
      ∃ v, h.readCollection c = some v ∧ v.Valid = true ∧
        ∀ f : SgfFormat, v.Sgf f = .ok (appendGameTrees f v.GameTrees 0)) := by
  refine ⟨?_, ?_, ?_⟩
  · intro h
    exact ⟨_, _, _, _, NewCollection_eq h, validAt_NewCollection h⟩
  · intro h call c hp hr hc
    obtain ⟨h', h1, h2, _⟩ := run_validAt h call hp hr
    exact ⟨h', h1, h2 c hc⟩
  · intro calls h hp e c hc
    obtain ⟨v, hv, hvalid⟩ := runCalls_validAt calls ⟨[], [], [], []⟩ h hp
      (fun c hc => absurd hc (by simp)) e c hc
    refine ⟨v, hv, hvalid, ?_⟩
    intro f
    unfold Sgf.Collection.Sgf
    simp only [hvalid, Bool.not_true, Bool.false_eq_true, if_false]

/-- Witness of C33 on the calls of `ExampleNewCollection_simpleGame`: the
collection they build is valid and `Sgf` writes the text of the example. -/
theorem C33_constructors_keep_validity_witness :
    Sgf.Collection.Valid ⟨[.mk
        [⟨[⟨['F', 'F'], [['4']]⟩, ⟨['G', 'M'], [['1']]⟩, ⟨['S', 'Z'], [['9']]⟩]⟩,
          ⟨[⟨['B'], [['d', 'f']]⟩]⟩, ⟨[⟨['W'], [['c', 'f']]⟩]⟩, ⟨[⟨['B'], [['g', 'e']]⟩]⟩,
          ⟨[⟨['W'], [['e', 'e']]⟩]⟩,
          ⟨[⟨['W'], [['b', 'd']]⟩, ⟨['C'], [['B', '+', 'R']]⟩]⟩] []]⟩ = true ∧
    Sgf.Collection.Sgf ⟨[.mk
        [⟨[⟨['F', 'F'], [['4']]⟩, ⟨['G', 'M'], [['1']]⟩, ⟨['S', 'Z'], [['9']]⟩]⟩,
          ⟨[⟨['B'], [['d', 'f']]⟩]⟩, ⟨[⟨['W'], [['c', 'f']]⟩]⟩, ⟨[⟨['B'], [['g', 'e']]⟩]⟩,
          ⟨[⟨['W'], [['e', 'e']]⟩]⟩,
          ⟨[⟨['W'], [['b', 'd']]⟩, ⟨['C'], [['B', '+', 'R']]⟩]⟩] []]⟩ NoNewLinesSgfFormat =
      .ok "(;FF[4]GM[1]SZ[9];B[df];W[cf];B[ge];W[ee];W[bd]C[B+R])".toList := by
  obtain ⟨v, hv, hvalid, _⟩ := C33_constructors_keep_validity.2.2
    [.newCollection,
     .nodeNewProperty 0 ['F', 'F'] [['4']], .nodeNewProperty 0 ['G', 'M'] [['1']],
     .nodeNewProperty 0 ['S', 'Z'] [['9']],
     .gameTreeNewNode 0, .nodeNewProperty 1 ['B'] [['d', 'f']],
     .gameTreeNewNode 0, .nodeNewProperty 2 ['W'] [['c', 'f']],
     .gameTreeNewNode 0, .nodeNewProperty 3 ['B'] [['g', 'e']],
     .gameTreeNewNode 0, .nodeNewProperty 4 ['W'] [['e', 'e']],
     .gameTreeNewNode 0, .nodeNewProperty 5 ['W'] [['b', 'd']],
     .nodeNewProperty 5 ['C'] [['B', '+', 'R']]]
    ⟨[⟨[0]⟩], [⟨[0, 1, 2, 3, 4, 5], []⟩],
      [⟨[0, 1, 2]⟩, ⟨[3]⟩, ⟨[4]⟩, ⟨[5]⟩, ⟨[6]⟩, ⟨[7, 8]⟩],
      [⟨['F', 'F'], [['4']]⟩, ⟨['G', 'M'], [['1']]⟩, ⟨['S', 'Z'], [['9']]⟩,
        ⟨['B'], [['d', 'f']]⟩, ⟨['W'], [['c', 'f']]⟩, ⟨['B'], [['g', 'e']]⟩,
        ⟨['W'], [['e', 'e']]⟩, ⟨['W'], [['b', 'd']]⟩, ⟨['C'], [['B', '+', 'R']]⟩]⟩
    (by simp [Call.Proper]) rfl 0 (by decide)
  have hread : Heap.readCollection
      ⟨[⟨[0]⟩], [⟨[0, 1, 2, 3, 4, 5], []⟩],
        [⟨[0, 1, 2]⟩, ⟨[3]⟩, ⟨[4]⟩, ⟨[5]⟩, ⟨[6]⟩, ⟨[7, 8]⟩],
        [⟨['F', 'F'], [['4']]⟩, ⟨['G', 'M'], [['1']]⟩, ⟨['S', 'Z'], [['9']]⟩,
          ⟨['B'], [['d', 'f']]⟩, ⟨['W'], [['c', 'f']]⟩, ⟨['B'], [['g', 'e']]⟩,
          ⟨['W'], [['e', 'e']]⟩, ⟨['W'], [['b', 'd']]⟩, ⟨['C'], [['B', '+', 'R']]⟩]⟩ 0 =
      some ⟨[.mk
        [⟨[⟨['F', 'F'], [['4']]⟩, ⟨['G', 'M'], [['1']]⟩, ⟨['S', 'Z'], [['9']]⟩]⟩,
          ⟨[⟨['B'], [['d', 'f']]⟩]⟩, ⟨[⟨['W'], [['c', 'f']]⟩]⟩, ⟨[⟨['B'], [['g', 'e']]⟩]⟩,
          ⟨[⟨['W'], [['e', 'e']]⟩]⟩,
          ⟨[⟨['W'], [['b', 'd']]⟩, ⟨['C'], [['B', '+', 'R']]⟩]⟩] []]⟩ := rfl
  rw [hread] at hv
  cases hv
  exact ⟨hvalid, by decide⟩

end Constructors

end Sgf
